import Mathlib

/-!
Fourier packaging of `magick/fourier.c`.

A shallow embedding of the spectral packaging helpers (`RollFourier`,
`ForwardQuadrantSwap`, `InverseQuadrantSwap`, `CorrectPhaseLHS`), of the plan
construction and of the channel dispatchers of `magick/fourier.c`.

Conventions of the embedding:

* a C block of `double`s is a `List α`; the element type is left generic, so
  the same definitions run on `ℚ`, `ℤ` or `ℕ` samples;
* `size_t` / `ssize_t` values are `Nat` / `Int`: every buffer of the program
  lives in memory, so dimensions and indices are far below `2^63` and no
  index computation of the modelled code wraps;
* an access outside a block is undefined behaviour in C; in the embedding a
  load outside the block yields `none` and a store outside the block (or of
  an undefined value) leaves the block unchanged;
* a memory acquisition is an explicit argument: `none` is the `NULL` result,
  `some junk` a fresh block whose `k`-th cell initially holds `junk k`.
-/

namespace Fourier

variable {α : Type}

/-! ## Memory and loops -/

/-- The C loop `for (i=lo; i < hi; i++) body`, the loop body acting on the
state of the variables it assigns. -/
def forLoop {σ : Type} (lo hi : Nat) (body : Nat → σ → σ) (s : σ) : σ :=
  (List.range' lo (hi - lo)).foldl (fun st i => body i st) s

/-- The C expression `block[i]` read as an rvalue. -/
def load (block : List α) (i : Int) : Option α :=
  if 0 ≤ i then block[i.toNat]? else none

/-- The C assignment `block[i]=value`. -/
def store (block : List α) (i : Int) (value : Option α) : List α :=
  match value with
  | some a => if 0 ≤ i then block.set i.toNat a else block
  | none => block

/-- The block returned by `GetVirtualMemoryBlob` for an acquisition of
`count` cells with initial content `junk`. -/
def GetVirtualMemoryBlob (junk : Nat → α) (count : Nat) : List α :=
  (List.range count).map junk

/-- The call `CopyMagickMemory(destination,source,count*sizeof(double))`: the
first `count` cells of `destination` are overwritten by those of `source`. -/
def CopyMagickMemory (destination source : List α) (count : Nat) : List α :=
  source.take count ++ destination.drop count

/-! ## `RollFourier` -/

/-- The target row `v` computed by `RollFourier` for source row `y`
(fourier.c lines 159-163). -/
def RollFourier_v (height : Nat) (y_offset : Int) (y : Nat) : Int :=
  if y_offset < 0 then
    (if (y : Int) + y_offset < 0 then (y : Int) + y_offset + (height : Int)
      else (y : Int) + y_offset)
  else
    (if (y : Int) + y_offset > (height : Int) - 1 then
      (y : Int) + y_offset - (height : Int)
      else (y : Int) + y_offset)

/-- The target column `u` computed by `RollFourier` for source column `x`
(fourier.c lines 166-170). -/
def RollFourier_u (width : Nat) (x_offset : Int) (x : Nat) : Int :=
  if x_offset < 0 then
    (if (x : Int) + x_offset < 0 then (x : Int) + x_offset + (width : Int)
      else (x : Int) + x_offset)
  else
    (if (x : Int) + x_offset > (width : Int) - 1 then
      (x : Int) + x_offset - (width : Int)
      else (x : Int) + x_offset)

/-- The cell `v*width+u` of `roll_pixels` that `RollFourier` writes for the
source cell in row `y` and column `x`. -/
def RollFourier_index (width height : Nat) (x_offset y_offset : Int) (y x : Nat) : Nat :=
  (RollFourier_v height y_offset y * (width : Int) + RollFourier_u width x_offset x).toNat

/-- The two nested loops of `RollFourier` (fourier.c lines 156-173), acting on
the running read index `i` and on the scratch block `roll_pixels`. -/
def RollFourier_loops (width height : Nat) (x_offset y_offset : Int)
    (destination_pixels : List α) (st : Nat × List α) : Nat × List α :=
  forLoop 0 height (fun y st =>
    let v := RollFourier_v height y_offset y
    forLoop 0 width (fun x st =>
      let u := RollFourier_u width x_offset x
      (st.1 + 1,
        store st.2 (v * (width : Int) + u) (load destination_pixels (st.1 : Int)))) st) st

/-- The function `RollFourier(width,height,x_offset,y_offset,destination_pixels)`
(fourier.c lines 131-178): the returned status and the final content of
`destination_pixels`. `roll_info` is the result of `AcquireVirtualMemory`. -/
def RollFourier (width height : Nat) (x_offset y_offset : Int)
    (roll_info : Option (Nat → α)) (destination_pixels : List α) : Bool × List α :=
  match roll_info with
  | none => (false, destination_pixels)
  | some junk =>
    let roll_pixels := GetVirtualMemoryBlob junk (height * width)
    let st := RollFourier_loops width height x_offset y_offset destination_pixels
      (0, roll_pixels)
    (true, CopyMagickMemory destination_pixels st.2 (height * width))

/-! ## Quadrant swaps -/

/-- The function `ForwardQuadrantSwap(width,height,source,destination)`
(fourier.c lines 180-209): the returned status and the final contents of `source` (rolled in
place) and of `destination`. `roll_info` is the scratch acquisition made by
the inner `RollFourier`. The loop bound `(ssize_t) (width/2L-1L)` is
`width/2-1` for `width ≥ 2` and `-1` below, where the loops do not run
either. -/
def ForwardQuadrantSwap (width height : Nat) (roll_info : Option (Nat → α))
    (source destination : List α) : Bool × List α × List α :=
  let center : Nat := width / 2 + 1
  let rolled := RollFourier center height 0 (Int.tdiv (height : Int) 2) roll_info source
  if rolled.1 = false then (false, rolled.2, destination)
  else
    let source := rolled.2
    let destination := forLoop 0 height (fun y destination =>
      forLoop 0 (width / 2 - 1) (fun x destination =>
        store destination
          ((width : Int) * (y : Int) + (x : Int) + ((width / 2 : Nat) : Int))
          (load source ((center : Int) * (y : Int) + (x : Int)))) destination) destination
    let destination := forLoop 1 height (fun y destination =>
      forLoop 0 (width / 2 - 1) (fun x destination =>
        store destination
          ((width : Int) * ((height : Int) - (y : Int)) + ((width / 2 : Nat) : Int)
            - (x : Int) - 1)
          (load source ((center : Int) * (y : Int) + (x : Int) + 1))) destination) destination
    let destination := forLoop 0 (width / 2) (fun x destination =>
      store destination (-(x : Int) + ((width / 2 : Nat) : Int) - 1)
        (load destination ((x : Int) + ((width / 2 : Nat) : Int) + 1))) destination
    (true, source, destination)

/-- The function `InverseQuadrantSwap(width,height,source,destination)`
(fourier.c lines 809-831): the returned status and the final content of `destination`.
`roll_info` is the scratch acquisition made by the final `RollFourier`. -/
def InverseQuadrantSwap (width height : Nat) (roll_info : Option (Nat → α))
    (source destination : List α) : Bool × List α :=
  let center : Nat := width / 2 + 1
  let destination := forLoop 1 height (fun y destination =>
    forLoop 0 (width / 2 + 1) (fun x destination =>
      store destination
        ((center : Int) * ((height : Int) - (y : Int)) - (x : Int)
          + ((width / 2 : Nat) : Int))
        (load source ((y : Int) * (width : Int) + (x : Int)))) destination) destination
  let destination := forLoop 0 height (fun y destination =>
    store destination ((center : Int) * (y : Int))
      (load source ((y : Int) * (width : Int) + ((width / 2 : Nat) : Int)))) destination
  let destination := forLoop 0 center (fun x destination =>
    store destination (x : Int) (load source ((center : Int) - (x : Int) - 1))) destination
  RollFourier center height 0 (Int.tdiv (height : Int) (-2)) roll_info destination

/-- The function `CorrectPhaseLHS(width,height,fourier)` (fourier.c lines 211-223): the
final content of `fourier`. -/
def CorrectPhaseLHS [Mul α] [Neg α] [One α] (width height : Nat) (fourier : List α) :
    List α :=
  forLoop 0 height (fun y fourier =>
    forLoop 0 (width / 2) (fun x fourier =>
      store fourier ((y : Int) * (width : Int) + (x : Int))
        ((load fourier ((y : Int) * (width : Int) + (x : Int))).map (fun a => a * (-1))))
      fourier) fourier

/-! ## Images, channels and plans -/

/-- The channel tags `fourier.c` dispatches on (`ChannelType`). -/
inductive ChannelType where
  | RedChannel
  | GreenChannel
  | BlueChannel
  | OpacityChannel
  | IndexChannel
  | GrayChannels
  deriving DecidableEq

/-- Modelled from the spec: the colour models of an image (`ColorspaceType`,
declared outside `fourier.c`); the code only asks whether the colour model is
the four-ink one, `CMYKColorspace`. -/
inductive ColorspaceType where
  | UndefinedColorspace
  | RGBColorspace
  | GRAYColorspace
  | CMYKColorspace
  | sRGBColorspace
  deriving DecidableEq

/-- Modelled from the spec: the storage classes of an image (`ClassType`,
declared outside `fourier.c`). -/
inductive ClassType where
  | UndefinedClass
  | DirectClass
  | PseudoClass
  deriving DecidableEq

/-- The fields of `Image` that `fourier.c` reads or writes. -/
structure Image where
  columns : Nat
  rows : Nat
  matte : Bool
  colorspace : ColorspaceType
  storage_class : ClassType
  depth : Nat
  deriving DecidableEq

/-- The record `FourierInfo` (fourier.c lines 82-96). -/
structure FourierInfo where
  channel : ChannelType
  modulus : Bool
  width : Nat
  height : Nat
  center : Int
  deriving DecidableEq

/-- The plan built at the start of `ForwardFourierTransformChannel`
(fourier.c lines 597-607). `floor((double) width/2L)` is the integer quotient
`width/2`. -/
def ForwardFourierTransformChannel_fourier_info (image : Image) (channel : ChannelType)
    (modulus : Bool) : FourierInfo :=
  let width : Nat :=
    if image.columns ≠ image.rows ∨ image.columns % 2 ≠ 0 ∨ image.rows % 2 ≠ 0 then
      let extent := if image.columns < image.rows then image.rows else image.columns
      if extent &&& 0x01 = 1 then extent + 1 else extent
    else image.columns
  let height := width
  let center : Int := ((width / 2 : Nat) : Int) + 1
  { channel := channel, modulus := modulus, width := width, height := height,
    center := center }

/-- The side `width` chosen by `ForwardFourierTransformImage` for its two
output images (fourier.c lines 657-663). -/
def ForwardFourierTransformImage_width (image : Image) : Nat :=
  if image.columns ≠ image.rows ∨ image.columns % 2 ≠ 0 ∨ image.rows % 2 ≠ 0 then
    let extent := if image.columns < image.rows then image.rows else image.columns
    if extent &&& 0x01 = 1 then extent + 1 else extent
  else image.columns

/-- The plan built at the start of `InverseFourierTransformChannel`
(fourier.c lines 1180-1192). -/
def InverseFourierTransformChannel_fourier_info (magnitude_image : Image)
    (channel : ChannelType) (modulus : Bool) : FourierInfo :=
  let width : Nat :=
    if magnitude_image.columns ≠ magnitude_image.rows ∨ magnitude_image.columns % 2 ≠ 0
        ∨ magnitude_image.rows % 2 ≠ 0 then
      let extent := if magnitude_image.columns < magnitude_image.rows
        then magnitude_image.rows else magnitude_image.columns
      if extent &&& 0x01 = 1 then extent + 1 else extent
    else magnitude_image.columns
  let height := width
  let center : Int := ((width / 2 : Nat) : Int) + 1
  { channel := channel, modulus := modulus, width := width, height := height,
    center := center }

/-! ## Channel dispatchers -/

/-- Modelled from the spec: `CloneImage(image,columns,rows,MagickFalse,exception)`,
defined outside `fourier.c`: a fresh `columns`×`rows` image created from the
metadata of `image`, or `NULL` when it cannot be acquired. -/
def CloneImage (image : Image) (columns rows : Nat) (acquired : Bool) : Option Image :=
  if acquired then some { image with columns := columns, rows := rows } else none

/-- The state of a dispatcher while its sections run: the shared `status` and
the channels on which the per-channel transformer has been called so far. -/
structure Dispatch where
  status : Bool
  calls : List ChannelType
  deriving DecidableEq

/-- One call `thread_status=transform(channel)` of a section. -/
def Dispatch.call (transform : ChannelType → Bool) (channel : ChannelType)
    (d : Dispatch) : Bool × Dispatch :=
  (transform channel, { d with calls := d.calls ++ [channel] })

/-- The closing statement `if (thread_status == MagickFalse) status=thread_status;`
of a section. -/
def Dispatch.join (r : Bool × Dispatch) : Dispatch :=
  if r.1 = false then { r.2 with status := r.1 } else r.2

/-- The five sections shared by `ForwardFourierTransformImage` (fourier.c lines
690-763) and `InverseFourierTransformImage` (lines 1276-1349), in program
order (the build without OpenMP). `transform channel` is the status returned
by the per-channel transformer called on `channel`. -/
def dispatchSections (is_gray matte : Bool) (colorspace : ColorspaceType)
    (transform : ChannelType → Bool) : Dispatch :=
  let d : Dispatch := { status := true, calls := [] }
  let d := Dispatch.join
    (if is_gray ≠ false then Dispatch.call transform ChannelType.GrayChannels d
      else Dispatch.call transform ChannelType.RedChannel d)
  let d := Dispatch.join
    (if is_gray = false then Dispatch.call transform ChannelType.GreenChannel d
      else (true, d))
  let d := Dispatch.join
    (if is_gray = false then Dispatch.call transform ChannelType.BlueChannel d
      else (true, d))
  let d := Dispatch.join
    (if matte ≠ false then Dispatch.call transform ChannelType.OpacityChannel d
      else (true, d))
  let d := Dispatch.join
    (if colorspace = ColorspaceType.CMYKColorspace then
      Dispatch.call transform ChannelType.IndexChannel d
      else (true, d))
  d

/-- The function `ForwardFourierTransformImage(image,modulus,exception)`
(fourier.c lines 636-772, FFTW delegate present): the returned image list (`[]` is the empty
list `NULL`) and the channels the per-channel transformer was called on.
`IsGrayImage` is the external grayscale test; `acquired_magnitude` and
`acquired_phase` tell whether the two `CloneImage` calls succeed. -/
def ForwardFourierTransformImage (image : Image) (IsGrayImage : Image → Bool)
    (acquired_magnitude acquired_phase : Bool) (transform : ChannelType → Bool) :
    List Image × List ChannelType :=
  let width := ForwardFourierTransformImage_width image
  match CloneImage image width width acquired_magnitude with
  | none => ([], [])
  | some magnitude_image =>
    let magnitude_image :=
      { magnitude_image with storage_class := ClassType.DirectClass, depth := 32 }
    match CloneImage image width width acquired_phase with
    | none => ([], [])
    | some phase_image =>
      let phase_image :=
        { phase_image with storage_class := ClassType.DirectClass, depth := 32 }
      let fourier_image := [magnitude_image, phase_image]
      let is_gray := IsGrayImage image
      let d := dispatchSections is_gray image.matte image.colorspace transform
      if d.status = false then ([], d.calls) else (fourier_image, d.calls)

/-- The function
`InverseFourierTransformImage(magnitude_image,phase_image,modulus,exception)`
(fourier.c lines 1235-1357, FFTW delegate present): the returned image
(`none` is `NULL`) and the channels the per-channel transformer was called
on. -/
def InverseFourierTransformImage (magnitude_image : Image) (phase_image : Option Image)
    (IsGrayImage : Image → Bool) (acquired : Bool) (transform : ChannelType → Bool) :
    Option Image × List ChannelType :=
  match phase_image with
  | none => (none, [])
  | some phase_image =>
    match CloneImage magnitude_image magnitude_image.columns magnitude_image.rows
        acquired with
    | none => (none, [])
    | some fourier_image =>
      let is_gray := IsGrayImage magnitude_image
      let is_gray := if is_gray ≠ false then IsGrayImage phase_image else is_gray
      let d := dispatchSections is_gray magnitude_image.matte magnitude_image.colorspace
        transform
      if d.status = false then (none, d.calls) else (some fourier_image, d.calls)


/-! ## The forward channel transformer -/

/-- The iterations of a C `for` loop whose body may `break`: the body returns
the new state and whether it left the loop. -/
def forLoopBreak.go {σ : Type} (body : Nat → σ → σ × Bool) : List Nat → σ → σ
  | [], s => s
  | i :: rest, s =>
    let r := body i s
    if r.2 then r.1 else forLoopBreak.go body rest r.1

/-- The C loop `for (i=lo; i < hi; i++) body` whose body may `break`. -/
def forLoopBreak {σ : Type} (lo hi : Nat) (body : Nat → σ → σ × Bool) (s : σ) : σ :=
  forLoopBreak.go body (List.range' lo (hi - lo)) s

/-- The outcomes of the pixel-cache calls made through one cache view:
`pixels y` tells whether the row request for row `y` returns a row (rather
than `NULL`), `sync y` is the status of the sync that follows the writes to
row `y`. -/
structure CacheView where
  pixels : Nat → Bool
  sync : Nat → Bool

/-- The outcomes of the external calls made while one channel is transformed
forward: memory acquisitions (`true` or `some _`: acquired), pixel-cache calls
and the spectrum `magnitude`, `phase` that FFTW and the decomposition leave in
the caller's buffers. -/
structure ForwardEnv (α : Type) where
  channel_magnitude_info : Bool
  channel_phase_info : Bool
  source_info : Bool
  image_view : CacheView
  destination_info : Bool
  magnitude : List α
  phase : List α
  magnitude_info : Bool
  phase_info : Bool
  roll_info_magnitude : Option (Nat → α)
  roll_info_phase : Option (Nat → α)
  magnitude_view : CacheView
  phase_view : CacheView

/-- The function `ForwardFourierTransform(fourier_info,image,magnitude,phase,exception)`
(fourier.c lines 421-574): the returned status and the number `i` of samples
copied from the image into `source_pixels`. The values FFTW computes are
external; they are the fields `magnitude` and `phase` of the environment. -/
def ForwardFourierTransform (fourier_info : FourierInfo) (env : ForwardEnv α) :
    Bool × Nat :=
  if env.source_info = false then (false, 0)
  else
    let i := forLoopBreak 0 fourier_info.height (fun y i =>
      if env.image_view.pixels y = false then (i, true)
      else (forLoop 0 fourier_info.width (fun _ i => i + 1) i, false)) 0
    if env.destination_info = false then (false, i)
    else (true, i)

/-- The row loop of `ForwardFourier` that writes one of the two output images
(fourier.c lines 311-361 and 365-414), acting on `status`. The sample values
written, `ClampToQuantum(QuantumRange*pixels[i])`, go to the pixel cache and
are not part of the state. -/
def ForwardFourier_rows (fourier_info : FourierInfo) (view : CacheView)
    (status : Bool) : Bool :=
  forLoopBreak 0 fourier_info.height (fun y status =>
    if view.pixels y = false then (status, true)
    else
      let status := view.sync y
      if status = false then (status, true) else (status, false)) status

/-- The function `ForwardFourier(fourier_info,image,magnitude,phase,exception)`
(fourier.c lines 225-419): the returned status and the final contents of the buffers
`magnitude_pixels` and `phase_pixels` (empty when they were never acquired).
`image` is the output image list. -/
def ForwardFourier [Field α] (MagickPI : α) (fourier_info : FourierInfo)
    (image : List Image) (env : ForwardEnv α) : Bool × List α × List α :=
  match image.tail.head? with
  | none => (false, [], [])
  | some _ =>
    if env.magnitude_info = false ∨ env.phase_info = false then (false, [], [])
    else
      let magnitude_pixels : List α :=
        List.replicate (fourier_info.height * fourier_info.width) 0
      let phase_pixels : List α :=
        List.replicate (fourier_info.height * fourier_info.width) 0
      let swapped := ForwardQuadrantSwap fourier_info.height fourier_info.height
        env.roll_info_magnitude env.magnitude magnitude_pixels
      let status := swapped.1
      let magnitude_pixels := swapped.2.2
      let swapped :=
        if status ≠ false then
          ForwardQuadrantSwap fourier_info.height fourier_info.height
            env.roll_info_phase env.phase phase_pixels
        else (status, env.phase, phase_pixels)
      let status := swapped.1
      let phase_pixels := swapped.2.2
      let phase_pixels := CorrectPhaseLHS fourier_info.height fourier_info.height
        phase_pixels
      let phase_pixels :=
        if fourier_info.modulus ≠ false then
          (forLoop 0 fourier_info.height (fun _ st =>
            forLoop 0 fourier_info.width (fun _ st =>
              let pixels := store st.2 (st.1 : Int)
                ((load st.2 (st.1 : Int)).map (fun a => a / (2 * MagickPI)))
              let pixels := store pixels (st.1 : Int)
                ((load pixels (st.1 : Int)).map (fun a => a + 1 / 2))
              (st.1 + 1, pixels)) st) (0, phase_pixels)).2
        else phase_pixels
      let status := ForwardFourier_rows fourier_info env.magnitude_view status
      let status := ForwardFourier_rows fourier_info env.phase_view status
      (status, magnitude_pixels, phase_pixels)

/-- The function
`ForwardFourierTransformChannel(image,channel,modulus,fourier_image,exception)`
(fourier.c lines 576-633): the returned status. -/
def ForwardFourierTransformChannel [Field α] (MagickPI : α) (image : Image)
    (channel : ChannelType) (modulus : Bool) (fourier_image : List Image)
    (env : ForwardEnv α) : Bool :=
  let fourier_info := ForwardFourierTransformChannel_fourier_info image channel modulus
  if env.channel_magnitude_info = false ∨ env.channel_phase_info = false then false
  else
    let status := (ForwardFourierTransform fourier_info env).1
    let status :=
      if status ≠ false then (ForwardFourier MagickPI fourier_info fourier_image env).1
      else status
    status

/-! ## The inverse channel transformer -/

/-- The outcomes of the external calls made while one channel is transformed
back: memory acquisitions (`true` or `some _`: acquired) and pixel-cache calls.
`magnitude_pixels` and `phase_pixels` are the two blocks acquired by
`InverseFourier` with the samples its row loops copy into them from the two
images (a row request answered by `NULL` ends the copy without changing the
status). -/
structure InverseEnv (α : Type) where
  channel_magnitude : Bool
  channel_phase : Bool
  channel_fourier : Bool
  magnitude_pixels : Option (List α)
  phase_pixels : Option (List α)
  magnitude : Option (Nat → α)
  roll_info_magnitude : Option (Nat → α)
  phase : Option (Nat → α)
  roll_info_phase : Option (Nat → α)
  source : Bool
  image_view : CacheView

/-- The function `InverseFourier(fourier_info,magnitude_image,phase_image,
fourier,exception)` (fourier.c lines 833-1056): the returned status and the
half-spectrum blocks `magnitude` and `phase` that are merged into `fourier`
(empty when they were never acquired). Neither image is asked for its
dimensions. -/
def InverseFourier [Field α] (MagickPI : α) (fourier_info : FourierInfo)
    (_magnitude_image _phase_image : Image) (env : InverseEnv α) :
    Bool × List α × List α :=
  match env.magnitude_pixels with
  | none => (false, [], [])
  | some magnitude_pixels =>
    match env.phase_pixels with
    | none => (false, [], [])
    | some phase_pixels =>
      let phase_pixels :=
        if fourier_info.modulus ≠ false then
          (forLoop 0 fourier_info.height (fun _ st =>
            forLoop 0 fourier_info.width (fun _ st =>
              let pixels := store st.2 (st.1 : Int)
                ((load st.2 (st.1 : Int)).map (fun a => a - 1 / 2))
              let pixels := store pixels (st.1 : Int)
                ((load pixels (st.1 : Int)).map (fun a => a * (2 * MagickPI)))
              (st.1 + 1, pixels)) st) (0, phase_pixels)).2
        else phase_pixels
      match env.magnitude with
      | none => (false, [], [])
      | some junk =>
        let magnitude := GetVirtualMemoryBlob junk
          (fourier_info.height * fourier_info.center.toNat)
        let swapped := InverseQuadrantSwap fourier_info.width fourier_info.height
          env.roll_info_magnitude magnitude_pixels magnitude
        let status := swapped.1
        let magnitude := swapped.2
        match env.phase with
        | none => (false, [], [])
        | some junk =>
          let phase := GetVirtualMemoryBlob junk (fourier_info.height * fourier_info.width)
          let phase_pixels := CorrectPhaseLHS fourier_info.width fourier_info.width
            phase_pixels
          let swapped :=
            if status ≠ false then
              InverseQuadrantSwap fourier_info.width fourier_info.height
                env.roll_info_phase phase_pixels phase
            else (status, phase)
          let status := swapped.1
          let phase := swapped.2
          (status, magnitude, phase)

/-- The function `InverseFourierTransform(fourier_info,fourier,image,exception)`
(fourier.c lines 1058-1157): the returned status and the final value of the
sample counter `i`. The values FFTW computes and the samples written to the
pixel cache are not part of the state. -/
def InverseFourierTransform (fourier_info : FourierInfo) (image : Image)
    (env : InverseEnv α) : Bool × Nat :=
  if env.source = false then (false, 0)
  else
    let i := forLoopBreak 0 fourier_info.height (fun y i =>
      if y ≥ image.rows then (i, true)
      else if env.image_view.pixels y = false then (i, true)
      else
        let i := forLoop 0 fourier_info.width (fun _ i => i + 1) i
        if env.image_view.sync y = false then (i, true) else (i, false)) 0
    (true, i)

/-- The function `InverseFourierTransformChannel(magnitude_image,phase_image,
channel,modulus,fourier_image,exception)` (fourier.c lines 1159-1232): the
returned status. -/
def InverseFourierTransformChannel [Field α] (MagickPI : α)
    (magnitude_image phase_image : Image) (channel : ChannelType) (modulus : Bool)
    (fourier_image : Image) (env : InverseEnv α) : Bool :=
  let fourier_info := InverseFourierTransformChannel_fourier_info magnitude_image channel
    modulus
  if env.channel_magnitude = false then false
  else if env.channel_phase = false then false
  else if env.channel_fourier = false then false
  else
    let status := (InverseFourier MagickPI fourier_info magnitude_image phase_image env).1
    let status :=
      if status ≠ false then (InverseFourierTransform fourier_info fourier_image env).1
      else status
    status

/-! ## Memory accesses of the packaging helpers -/

/-- One assignment `target[write]=origin[read]` executed by a copy loop: the
index written in the target block and the index read in the origin block. -/
structure Assignment where
  write : Int
  read : Int
  deriving DecidableEq

/-- The effect on the block `target` of a list of assignments
`target[write]=origin[read]`, executed in order. -/
def Assignment.copy (origin : List α) (assignments : List Assignment) (target : List α) :
    List α :=
  assignments.foldl (fun target a => store target a.write (load origin a.read)) target

/-- The effect on a block of a list of assignments `block[write]=block[read]`,
executed in order. -/
def Assignment.move (assignments : List Assignment) (block : List α) : List α :=
  assignments.foldl (fun block a => store block a.write (load block a.read)) block

/-- The assignments `roll_pixels[v*width+u]=destination_pixels[i++]` executed by
the two nested loops of `RollFourier` (fourier.c lines 156-173), in program
order; the state of the loops is the running read index `i` and the
assignments executed so far. -/
def RollFourier_assignments (width height : Nat) (x_offset y_offset : Int) :
    List Assignment :=
  (forLoop 0 height (fun y st =>
    let v := RollFourier_v height y_offset y
    forLoop 0 width (fun x st =>
      let u := RollFourier_u width x_offset x
      (st.1 + 1, st.2 ++ [{ write := v * (width : Int) + u, read := (st.1 : Int) }])) st)
    ((0 : Nat), ([] : List Assignment))).2

/-- The assignments `destination[width*y+x+width/2]=source[center*y+x]` of the
first loop of `ForwardQuadrantSwap` (fourier.c lines 200-202), in program
order. -/
def ForwardQuadrantSwap_first (width height : Nat) : List Assignment :=
  let center : Nat := width / 2 + 1
  forLoop 0 height (fun y assignments =>
    forLoop 0 (width / 2 - 1) (fun x assignments =>
      assignments ++
        [{ write := (width : Int) * (y : Int) + (x : Int) + ((width / 2 : Nat) : Int),
           read := (center : Int) * (y : Int) + (x : Int) }]) assignments) []

/-- The assignments
`destination[width*(height-y)+width/2-x-1]=source[center*y+x+1]` of the second
loop of `ForwardQuadrantSwap` (fourier.c lines 203-205). -/
def ForwardQuadrantSwap_second (width height : Nat) : List Assignment :=
  let center : Nat := width / 2 + 1
  forLoop 1 height (fun y assignments =>
    forLoop 0 (width / 2 - 1) (fun x assignments =>
      assignments ++
        [{ write := (width : Int) * ((height : Int) - (y : Int)) + ((width / 2 : Nat) : Int)
             - (x : Int) - 1,
           read := (center : Int) * (y : Int) + (x : Int) + 1 }]) assignments) []

/-- The assignments `destination[-x+width/2-1]=destination[x+width/2+1]` of the
third loop of `ForwardQuadrantSwap` (fourier.c lines 206-207). -/
def ForwardQuadrantSwap_third (width : Nat) : List Assignment :=
  forLoop 0 (width / 2) (fun x assignments =>
    assignments ++
      [{ write := -(x : Int) + ((width / 2 : Nat) : Int) - 1,
         read := (x : Int) + ((width / 2 : Nat) : Int) + 1 }]) []

/-- The assignments `destination[center*(height-y)-x+width/2]=source[y*width+x]`
of the first loop of `InverseQuadrantSwap` (fourier.c lines 823-825). -/
def InverseQuadrantSwap_first (width height : Nat) : List Assignment :=
  let center : Nat := width / 2 + 1
  forLoop 1 height (fun y assignments =>
    forLoop 0 (width / 2 + 1) (fun x assignments =>
      assignments ++
        [{ write := (center : Int) * ((height : Int) - (y : Int)) - (x : Int)
             + ((width / 2 : Nat) : Int),
           read := (y : Int) * (width : Int) + (x : Int) }]) assignments) []

/-- The assignments `destination[center*y]=source[y*width+width/2]` of the
second loop of `InverseQuadrantSwap` (fourier.c lines 826-827). -/
def InverseQuadrantSwap_second (width height : Nat) : List Assignment :=
  let center : Nat := width / 2 + 1
  forLoop 0 height (fun y assignments =>
    assignments ++
      [{ write := (center : Int) * (y : Int),
         read := (y : Int) * (width : Int) + ((width / 2 : Nat) : Int) }]) []

/-- The assignments `destination[x]=source[center-x-1]` of the third loop of
`InverseQuadrantSwap` (fourier.c lines 828-829). -/
def InverseQuadrantSwap_third (width : Nat) : List Assignment :=
  let center : Nat := width / 2 + 1
  forLoop 0 center (fun x assignments =>
    assignments ++
      [{ write := (x : Int), read := (center : Int) - (x : Int) - 1 }]) []

/-! ## Sample inputs -/

/-- A cache view on which every row request and every sync succeeds. -/
def CacheView.succeeding : CacheView :=
  { pixels := fun _ => true, sync := fun _ => true }

/-- The environment of a forward channel transform in which every memory
acquisition and every pixel-cache call succeeds, the spectrum being
`magnitude`, `phase`. -/
def ForwardEnv.succeeding (magnitude phase : List ℚ) : ForwardEnv ℚ :=
  { channel_magnitude_info := true, channel_phase_info := true, source_info := true,
    image_view := CacheView.succeeding, destination_info := true,
    magnitude := magnitude, phase := phase, magnitude_info := true, phase_info := true,
    roll_info_magnitude := some (fun _ => 0), roll_info_phase := some (fun _ => 0),
    magnitude_view := CacheView.succeeding, phase_view := CacheView.succeeding }

/-- The environment of an inverse channel transform in which every memory
acquisition and every pixel-cache call succeeds, the samples read from the two
images being `magnitude_pixels` and `phase_pixels`. -/
def InverseEnv.succeeding (magnitude_pixels phase_pixels : List ℚ) : InverseEnv ℚ :=
  { channel_magnitude := true, channel_phase := true, channel_fourier := true,
    magnitude_pixels := some magnitude_pixels, phase_pixels := some phase_pixels,
    magnitude := some (fun _ => 0), roll_info_magnitude := some (fun _ => 0),
    phase := some (fun _ => 0), roll_info_phase := some (fun _ => 0),
    source := true, image_view := CacheView.succeeding }

/-- A grayscale image of side 2. -/
def Image.gray2 : Image :=
  { columns := 2, rows := 2, matte := false, colorspace := ColorspaceType.GRAYColorspace,
    storage_class := ClassType.DirectClass, depth := 8 }

/-- A grayscale image of side 4. -/
def Image.gray4 : Image :=
  { columns := 4, rows := 4, matte := false, colorspace := ColorspaceType.GRAYColorspace,
    storage_class := ClassType.DirectClass, depth := 8 }

end Fourier

/-!
The OpenCL program `convolve_program` of `filters/convolve.c`.

Conventions of the embedding: a `double` is an element of an ordered field
`K` with a floor function (exact arithmetic; `ℚ` and `ℝ` are instances); a
`CLQuantum` of the fixed-point build is a `Nat`; the global buffers `input`
and `filter` are functions of the cell index; `QuantumRange` and
`MagickEpsilon`, passed to the program as build options, are parameters.
-/

namespace ConvolveProgram

variable {K : Type} [LinearOrderedField K] [FloorRing K]

/-- The vector type `CLPixelType` of the fixed-point build (`uchar4`, `ushort4`
or `uint4`): three colour components `x`, `y`, `z` and the opacity `w`. -/
structure CLPixelType where
  x : Nat
  y : Nat
  z : Nat
  w : Nat
  deriving DecidableEq

/-- The vector type `double4` of the accumulator `sum`. -/
structure double4 (K : Type) where
  x : K
  y : K
  z : K
  w : K

/-- The variables the sampling loops of `Convolve` assign: `sum`, `gamma` and
the filter index `i`. -/
structure Accumulator (K : Type) where
  sum : double4 K
  gamma : K
  i : Nat

/-- The function `ClampToCanvas(offset,range)` (convolve.c lines 142-149). -/
def ClampToCanvas (offset : Int) (range : Nat) : Int :=
  if offset < 0 then 0
  else if offset ≥ (range : Int) then (range : Int) - 1
  else offset

/-- The function `ClampToQuantum(value)` of the fixed-point build (convolve.c
lines 151-162, `MAGICKCORE_HDRI_SUPPORT` undefined). The conversion
`(CLQuantum) (value+0.5)` of a non-negative value truncates, that is takes the
floor. -/
def ClampToQuantum (QuantumRange : Nat) (value : K) : Nat :=
  if value < 0 then 0
  else if value ≥ (QuantumRange : K) then QuantumRange
  else Int.toNat ⌊value + 1 / 2⌋

/-- The C loop `for (long v=lo; v <= hi; v++) body`. -/
def forLoopIncl {σ : Type} (lo hi : Int) (body : Int → σ → σ) (s : σ) : σ :=
  Fourier.forLoop 0 (hi - lo + 1).toNat (fun k st => body (lo + (k : Int)) st) s

/-- The choice of `method` made by `Convolve` (convolve.c lines 181-190) for
the work-item `(x,y)`. The bounds `columns-width-1` and `rows-height-1` are
computed on `ulong`, hence modulo `2^64`. -/
def Convolve_method (columns rows : Nat) (x y : Nat) (width height : Nat)
    (matte : Bool) : Nat :=
  let method : Nat := 0
  let method := if matte ≠ false then 1 else method
  let method :=
    if (x : Int) ≥ (width : Int)
        ∧ (x : Int) < ((columns : Int) - (width : Int) - 1) % 18446744073709551616
        ∧ (y : Int) ≥ (height : Int)
        ∧ (y : Int) < ((rows : Int) - (height : Int) - 1) % 18446744073709551616 then
      (if matte ≠ false then 3 else 2)
    else method
  method

/-- The sampling loops of `Convolve` (the `switch` of convolve.c lines 191-263)
for the work-item `(x,y)`. For a kernel dimension of at least 1, `(width-1)/2`
does not wrap. -/
def Convolve_sample (QuantumRange : Nat) (columns rows : Nat) (x y : Nat)
    (input : Nat → CLPixelType) (filter : Nat → K) (width height : Nat)
    (method : Nat) (acc : Accumulator K) : Accumulator K :=
  let scale : K := 1 / (QuantumRange : K)
  let mid_width : Int := (((width - 1) / 2 : Nat) : Int)
  let mid_height : Int := (((height - 1) / 2 : Nat) : Int)
  match method with
  | 0 =>
    forLoopIncl (-mid_height) mid_height (fun v acc =>
      forLoopIncl (-mid_width) mid_width (fun u acc =>
        let index : Int := ClampToCanvas ((y : Int) + v) rows * (columns : Int)
          + ClampToCanvas ((x : Int) + u) columns
        { sum :=
            { x := acc.sum.x + filter acc.i * ((input index.toNat).x : K),
              y := acc.sum.y + filter acc.i * ((input index.toNat).y : K),
              z := acc.sum.z + filter acc.i * ((input index.toNat).z : K),
              w := acc.sum.w },
          gamma := acc.gamma + filter acc.i,
          i := acc.i + 1 }) acc) acc
  | 1 =>
    forLoopIncl (-mid_height) mid_height (fun v acc =>
      forLoopIncl (-mid_width) mid_width (fun u acc =>
        let index : Int := ClampToCanvas ((y : Int) + v) rows * (columns : Int)
          + ClampToCanvas ((x : Int) + u) columns
        let alpha : K := scale * ((QuantumRange : K) - ((input index.toNat).w : K))
        { sum :=
            { x := acc.sum.x + alpha * filter acc.i * ((input index.toNat).x : K),
              y := acc.sum.y + alpha * filter acc.i * ((input index.toNat).y : K),
              z := acc.sum.z + alpha * filter acc.i * ((input index.toNat).z : K),
              w := acc.sum.w + filter acc.i * ((input index.toNat).w : K) },
          gamma := acc.gamma + alpha * filter acc.i,
          i := acc.i + 1 }) acc) acc
  | 2 =>
    forLoopIncl (-mid_height) mid_height (fun v acc =>
      forLoopIncl (-mid_width) mid_width (fun u acc =>
        let index : Int := ((y : Int) + v) * (columns : Int) + ((x : Int) + u)
        { sum :=
            { x := acc.sum.x + filter acc.i * ((input index.toNat).x : K),
              y := acc.sum.y + filter acc.i * ((input index.toNat).y : K),
              z := acc.sum.z + filter acc.i * ((input index.toNat).z : K),
              w := acc.sum.w },
          gamma := acc.gamma + filter acc.i,
          i := acc.i + 1 }) acc) acc
  | 3 =>
    forLoopIncl (-mid_height) mid_height (fun v acc =>
      forLoopIncl (-mid_width) mid_width (fun u acc =>
        let index : Int := ((y : Int) + v) * (columns : Int) + ((x : Int) + u)
        let alpha : K := scale * ((QuantumRange : K) - ((input index.toNat).w : K))
        { sum :=
            { x := acc.sum.x + alpha * filter acc.i * ((input index.toNat).x : K),
              y := acc.sum.y + alpha * filter acc.i * ((input index.toNat).y : K),
              z := acc.sum.z + alpha * filter acc.i * ((input index.toNat).z : K),
              w := acc.sum.w + filter acc.i * ((input index.toNat).w : K) },
          gamma := acc.gamma + alpha * filter acc.i,
          i := acc.i + 1 }) acc) acc
  | _ => acc

/-- The kernel `Convolve(input,filter,width,height,matte,output)` (convolve.c
lines 164-273) run by the work-item with `get_global_id` `(x,y)` in a range of
`get_global_size` `(columns,rows)`: the pixel it stores in
`output[y*columns+x]`. -/
def Convolve (QuantumRange : Nat) (MagickEpsilon : K) (columns rows : Nat) (x y : Nat)
    (input : Nat → CLPixelType) (filter : Nat → K) (width height : Nat)
    (matte : Bool) : CLPixelType :=
  let acc : Accumulator K :=
    { sum := { x := 0, y := 0, z := 0, w := 0 }, gamma := 0, i := 0 }
  let method := Convolve_method columns rows x y width height matte
  let acc := Convolve_sample QuantumRange columns rows x y input filter width height
    method acc
  let gamma : K := 1 / (if |acc.gamma| ≤ MagickEpsilon then 1 else acc.gamma)
  let index : Nat := y * columns + x
  { x := ClampToQuantum QuantumRange (gamma * acc.sum.x),
    y := ClampToQuantum QuantumRange (gamma * acc.sum.y),
    z := ClampToQuantum QuantumRange (gamma * acc.sum.z),
    w := if matte = false then (input index).w
      else ClampToQuantum QuantumRange acc.sum.w }

/-- The buffer `convolve_pixels` after `clEnqueueNDRangeKernel` has run
`Convolve` over the range `columns`×`rows` (convolve.c lines 405-408): cell
`y*columns+x` holds the pixel stored by the work-item `(x,y)`. -/
def convolve_pixels (QuantumRange : Nat) (MagickEpsilon : K) (columns rows : Nat)
    (input : Nat → CLPixelType) (filter : Nat → K) (width height : Nat)
    (matte : Bool) : List CLPixelType :=
  (List.range (rows * columns)).map (fun n =>
    Convolve QuantumRange MagickEpsilon columns rows (n % columns) (n / columns)
      input filter width height matte)

/-! ## The per-pixel contract

The formulas of the contract of the convolver (spec section 4.5), written
from the words of the specification, against which `Convolve` is compared. -/

/-- Contract side: the cell of the image sampled for the kernel tap `(i,j)` at
the output pixel `(x,y)`, the point `(x+i-(W-1)/2, y+j-(H-1)/2)` clamped to
the image. -/
def contract_cell (columns rows x y width height i j : Nat) : Nat :=
  (ClampToCanvas ((y : Int) + (j : Int) - (((height - 1) / 2 : Nat) : Int)) rows
      * (columns : Int)
    + ClampToCanvas ((x : Int) + (i : Int) - (((width - 1) / 2 : Nat) : Int)) columns).toNat

/-- Contract side: the weight `a(p)` of the sample in cell `n`,
`(QuantumRange - opacity)/QuantumRange` when the alpha flag is set and 1
otherwise. -/
def contract_alpha (QuantumRange : Nat) (matte : Bool) (input : Nat → CLPixelType)
    (n : Nat) : K :=
  if matte then ((QuantumRange : K) - ((input n).w : K)) / (QuantumRange : K) else 1

/-- Contract side: the sum over the taps `(i,j)` of
`K[j*W+i] * a(p) * src_c(p)`, for the component `c`. -/
def contract_sum (QuantumRange : Nat) (columns rows x y : Nat)
    (input : Nat → CLPixelType) (filter : Nat → K) (width height : Nat) (matte : Bool)
    (c : CLPixelType → Nat) : K :=
  ∑ j in Finset.range height, ∑ i in Finset.range width,
    filter (j * width + i)
      * contract_alpha QuantumRange matte input
          (contract_cell columns rows x y width height i j)
      * ((c (input (contract_cell columns rows x y width height i j)) : Nat) : K)

/-- Contract side: `gamma`, the sum over the taps `(i,j)` of `K[j*W+i] * a(p)`. -/
def contract_gamma (QuantumRange : Nat) (columns rows x y : Nat)
    (input : Nat → CLPixelType) (filter : Nat → K) (width height : Nat) (matte : Bool) : K :=
  ∑ j in Finset.range height, ∑ i in Finset.range width,
    filter (j * width + i)
      * contract_alpha QuantumRange matte input
          (contract_cell columns rows x y width height i j)

/-- Contract side: the opacity sum, the sum over the taps `(i,j)` of
`K[j*W+i] * src_opacity(p)`. -/
def contract_opacity (columns rows x y : Nat) (input : Nat → CLPixelType)
    (filter : Nat → K) (width height : Nat) : K :=
  ∑ j in Finset.range height, ∑ i in Finset.range width,
    filter (j * width + i)
      * (((input (contract_cell columns rows x y width height i j)).w : Nat) : K)

/-- Contract side: the mean of the samples `values`. -/
def mean (values : List Nat) : K :=
  ((values.sum : Nat) : K) / ((values.length : Nat) : K)

/-- An image of 3 columns and 1 row: a pixel of first colour component 255
followed by two black pixels, all opaque (opacity 0). -/
def sample_row : Nat → CLPixelType :=
  fun n => if n = 0 then { x := 255, y := 0, z := 0, w := 0 }
    else { x := 0, y := 0, z := 0, w := 0 }

/-- Contract side: the divisor `g`, 1 when `|gamma| ≤ MagickEpsilon` and
`gamma` otherwise. -/
def contract_g (MagickEpsilon gamma : K) : K :=
  if |gamma| ≤ MagickEpsilon then 1 else gamma

/-- Contract side: the pixel computed on the clamped path alone, whatever the
position of the work-item: the sampling loops of case 0 (case 1 with alpha)
followed by the normalisation and the stores of `Convolve`. -/
def clamped_path_pixel (QuantumRange : Nat) (MagickEpsilon : K) (columns rows x y : Nat)
    (input : Nat → CLPixelType) (filter : Nat → K) (width height : Nat)
    (matte : Bool) : CLPixelType :=
  let acc : Accumulator K :=
    { sum := { x := 0, y := 0, z := 0, w := 0 }, gamma := 0, i := 0 }
  let acc := Convolve_sample QuantumRange columns rows x y input filter width height
    (if matte then 1 else 0) acc
  let gamma : K := 1 / (if |acc.gamma| ≤ MagickEpsilon then 1 else acc.gamma)
  let index : Nat := y * columns + x
  { x := ClampToQuantum QuantumRange (gamma * acc.sum.x),
    y := ClampToQuantum QuantumRange (gamma * acc.sum.y),
    z := ClampToQuantum QuantumRange (gamma * acc.sum.z),
    w := if matte = false then (input index).w
      else ClampToQuantum QuantumRange acc.sum.w }

/-- An image whose pixel 0 is fully transparent (opacity 255) with the three
colour components `c`, and whose other pixels are opaque black. -/
def sample_transparent (c : Nat) : Nat → CLPixelType :=
  fun n => if n = 0 then { x := c, y := c, z := c, w := 255 }
    else { x := 0, y := 0, z := 0, w := 0 }

end ConvolveProgram

namespace Fourier

variable {α : Type}

/-! ## Loop and memory lemmas -/

theorem foldl_range_invariant {σ : Type} (P : Nat → σ → Prop) (body : Nat → σ → σ) :
    ∀ (n lo : Nat) (s : σ), P lo s →
      (∀ i st, lo ≤ i → i < lo + n → P i st → P (i + 1) (body i st)) →
      P (lo + n) ((List.range' lo n).foldl (fun st i => body i st) s) := by
  intro n
  induction n with
  | zero => intro lo s h0 _; simpa using h0
  | succ n ih =>
    intro lo s h0 hstep
    rw [List.range'_succ, List.foldl_cons]
    have h1 : P (lo + 1) (body lo s) := hstep lo s (Nat.le_refl _) (by omega) h0
    have := ih (lo + 1) (body lo s) h1
      (fun i st hi1 hi2 hP => hstep i st (by omega) (by omega) hP)
    have e : lo + 1 + n = lo + (n + 1) := by omega
    rw [e] at this
    exact this

/-- The invariant rule for `forLoop`. -/
theorem forLoop_invariant {σ : Type} (P : Nat → σ → Prop) (lo hi : Nat)
    (body : Nat → σ → σ) (s : σ) (hle : lo ≤ hi) (h0 : P lo s)
    (hstep : ∀ i st, lo ≤ i → i < hi → P i st → P (i + 1) (body i st)) :
    P hi (forLoop lo hi body s) := by
  have := foldl_range_invariant P body (hi - lo) lo s h0
    (fun i st h1 h2 hP => hstep i st h1 (by omega) hP)
  have e : lo + (hi - lo) = hi := by omega
  rw [e] at this
  exact this

theorem forLoop_empty {σ : Type} (lo hi : Nat) (body : Nat → σ → σ) (s : σ)
    (h : hi ≤ lo) : forLoop lo hi body s = s := by
  have e : hi - lo = 0 := by omega
  simp [forLoop, e]

theorem load_natCast (block : List α) (i : Nat) : load block (i : Int) = block[i]? := by
  simp [load]

theorem store_natCast (block : List α) (i : Nat) (a : α) :
    store block (i : Int) (some a) = block.set i a := by
  simp [store]

theorem length_store (block : List α) (i : Int) (value : Option α) :
    (store block i value).length = block.length := by
  unfold store
  cases value with
  | none => rfl
  | some a => by_cases h : 0 ≤ i <;> simp [h]

/-! ## Index arithmetic of `RollFourier` -/

theorem RollFourier_u_eq_v (width : Nat) (x_offset : Int) (x : Nat) :
    RollFourier_u width x_offset x = RollFourier_v width x_offset x := rfl

theorem RollFourier_v_bounds (height : Nat) (y_offset : Int) (y : Nat) (hy : y < height)
    (h1 : -(height : Int) ≤ y_offset) (h2 : y_offset ≤ (height : Int)) :
    0 ≤ RollFourier_v height y_offset y ∧ RollFourier_v height y_offset y < (height : Int) := by
  unfold RollFourier_v
  split_ifs <;> omega

theorem RollFourier_v_injective (height : Nat) (y_offset : Int) (y y' : Nat)
    (hy : y < height) (hy' : y' < height)
    (h : RollFourier_v height y_offset y = RollFourier_v height y_offset y') : y = y' := by
  unfold RollFourier_v at h
  split_ifs at h <;> omega

theorem RollFourier_v_neg (height : Nat) (y_offset : Int) (y : Nat) (hy : y < height)
    (h1 : -(height : Int) ≤ y_offset) (h2 : y_offset ≤ (height : Int)) :
    RollFourier_v height (-y_offset) (RollFourier_v height y_offset y).toNat = (y : Int) := by
  have hb := RollFourier_v_bounds height y_offset y hy h1 h2
  have e : ((RollFourier_v height y_offset y).toNat : Int) = RollFourier_v height y_offset y :=
    Int.toNat_of_nonneg hb.1
  unfold RollFourier_v at e ⊢
  rw [e]
  split_ifs <;> omega

theorem RollFourier_v_eq_emod (height : Nat) (y_offset : Int) (y : Nat) (hy : y < height)
    (h1 : -(height : Int) ≤ y_offset) (h2 : y_offset ≤ (height : Int)) :
    RollFourier_v height y_offset y = ((y : Int) + y_offset) % (height : Int) := by
  have hb := RollFourier_v_bounds height y_offset y hy h1 h2
  unfold RollFourier_v at hb ⊢
  split_ifs at hb ⊢ with c1 c2 c2
  · rw [← Int.add_emod_self, Int.emod_eq_of_lt hb.1 hb.2]
  · rw [Int.emod_eq_of_lt hb.1 hb.2]
  · have e : (y : Int) + y_offset = ((y : Int) + y_offset - (height : Int)) + (height : Int) := by
      ring
    conv_rhs => rw [e, Int.add_emod_self]
    rw [Int.emod_eq_of_lt hb.1 hb.2]
  · rw [Int.emod_eq_of_lt hb.1 hb.2]

theorem index_lt (W H v u : Nat) (hv : v < H) (hu : u < W) : v * W + u < H * W := by
  have : (v + 1) * W ≤ H * W := Nat.mul_le_mul_right W hv
  have e : (v + 1) * W = v * W + W := by ring
  omega

theorem index_injective (W v u v' u' : Nat) (hu : u < W) (hu' : u' < W)
    (h : v * W + u = v' * W + u') : v = v' ∧ u = u' := by
  have hv : v = v' := by
    rcases Nat.lt_trichotomy v v' with hlt | heq | hgt
    · have : (v + 1) * W ≤ v' * W := Nat.mul_le_mul_right W hlt
      have e : (v + 1) * W = v * W + W := by ring
      omega
    · exact heq
    · have : (v' + 1) * W ≤ v * W := Nat.mul_le_mul_right W hgt
      have e : (v' + 1) * W = v' * W + W := by ring
      omega
  subst hv
  exact ⟨rfl, by omega⟩


theorem RollFourier_index_spec (W H : Nat) (dx dy : Int) (y x : Nat)
    (hy : y < H) (hx : x < W)
    (hx1 : -(W : Int) ≤ dx) (hx2 : dx ≤ (W : Int))
    (hy1 : -(H : Int) ≤ dy) (hy2 : dy ≤ (H : Int)) :
    RollFourier_v H dy y * (W : Int) + RollFourier_u W dx x
        = ((RollFourier_index W H dx dy y x : Nat) : Int)
      ∧ RollFourier_index W H dx dy y x
        = (RollFourier_v H dy y).toNat * W + (RollFourier_u W dx x).toNat
      ∧ RollFourier_index W H dx dy y x < H * W := by
  have hv := RollFourier_v_bounds H dy y hy hy1 hy2
  have hu := RollFourier_v_bounds W dx x hx hx1 hx2
  rw [← RollFourier_u_eq_v] at hu
  have ev : ((RollFourier_v H dy y).toNat : Int) = RollFourier_v H dy y :=
    Int.toNat_of_nonneg hv.1
  have eu : ((RollFourier_u W dx x).toNat : Int) = RollFourier_u W dx x :=
    Int.toNat_of_nonneg hu.1
  have e : RollFourier_v H dy y * (W : Int) + RollFourier_u W dx x
      = (((RollFourier_v H dy y).toNat * W + (RollFourier_u W dx x).toNat : Nat) : Int) := by
    push_cast
    rw [ev, eu]
  have e2 : RollFourier_index W H dx dy y x
      = (RollFourier_v H dy y).toNat * W + (RollFourier_u W dx x).toNat := by
    unfold RollFourier_index
    rw [e]
    exact Int.toNat_natCast _
  refine ⟨by rw [e2]; exact e, e2, ?_⟩
  rw [e2]
  exact index_lt W H _ _ (by omega) (by omega)

theorem RollFourier_index_injective (W H : Nat) (dx dy : Int) (y x y' x' : Nat)
    (hy : y < H) (hx : x < W) (hy' : y' < H) (hx' : x' < W)
    (hx1 : -(W : Int) ≤ dx) (hx2 : dx ≤ (W : Int))
    (hy1 : -(H : Int) ≤ dy) (hy2 : dy ≤ (H : Int))
    (h : RollFourier_index W H dx dy y x = RollFourier_index W H dx dy y' x') :
    y = y' ∧ x = x' := by
  have s1 := (RollFourier_index_spec W H dx dy y x hy hx hx1 hx2 hy1 hy2).2.1
  have s2 := (RollFourier_index_spec W H dx dy y' x' hy' hx' hx1 hx2 hy1 hy2).2.1
  have hu := RollFourier_v_bounds W dx x hx hx1 hx2
  have hu' := RollFourier_v_bounds W dx x' hx' hx1 hx2
  have hv := RollFourier_v_bounds H dy y hy hy1 hy2
  have hv' := RollFourier_v_bounds H dy y' hy' hy1 hy2
  rw [← RollFourier_u_eq_v] at hu hu'
  rw [s1, s2] at h
  have := index_injective W _ _ _ _ (by omega) (by omega) h
  constructor
  · exact RollFourier_v_injective H dy y y' hy hy' (by omega)
  · have := RollFourier_v_injective W dx x x' hx hx' (by
      rw [← RollFourier_u_eq_v, ← RollFourier_u_eq_v]; omega)
    exact this

/-- What the two loops of `RollFourier` leave in the scratch block. -/
theorem RollFourier_loops_spec (W H : Nat) (dx dy : Int)
    (hx1 : -(W : Int) ≤ dx) (hx2 : dx ≤ (W : Int))
    (hy1 : -(H : Int) ≤ dy) (hy2 : dy ≤ (H : Int))
    (buf scratch : List α) (hbuf : buf.length = H * W) (hs : scratch.length = H * W) :
    (RollFourier_loops W H dx dy buf (0, scratch)).2.length = H * W
      ∧ ∀ y x, y < H → x < W →
        (RollFourier_loops W H dx dy buf (0, scratch)).2[RollFourier_index W H dx dy y x]?
          = buf[y * W + x]? := by
  have key := forLoop_invariant
    (fun y (st : Nat × List α) => st.1 = y * W ∧ st.2.length = H * W
      ∧ ∀ y' x, y' < y → x < W →
        st.2[RollFourier_index W H dx dy y' x]? = buf[y' * W + x]?)
    0 H
    (fun y st =>
      let v := RollFourier_v H dy y
      forLoop 0 W (fun x st =>
        let u := RollFourier_u W dx x
        (st.1 + 1, store st.2 (v * (W : Int) + u) (load buf (st.1 : Int)))) st)
    (0, scratch) (Nat.zero_le _)
    ⟨by simp, hs, fun y' x h _ => absurd h (Nat.not_lt_zero _)⟩
    (by
      intro y st _ hyH hP
      have inner := forLoop_invariant
        (fun x (st : Nat × List α) => st.1 = y * W + x ∧ st.2.length = H * W
          ∧ (∀ y' x', y' < y → x' < W →
            st.2[RollFourier_index W H dx dy y' x']? = buf[y' * W + x']?)
          ∧ ∀ x', x' < x →
            st.2[RollFourier_index W H dx dy y x']? = buf[y * W + x']?)
        0 W
        (fun x st =>
          let u := RollFourier_u W dx x
          (st.1 + 1, store st.2 (RollFourier_v H dy y * (W : Int) + u)
            (load buf (st.1 : Int))))
        st (Nat.zero_le _)
        ⟨by simpa using hP.1, hP.2.1, hP.2.2, fun x' h => absurd h (Nat.not_lt_zero _)⟩
        (by
          intro x st _ hxW hQ
          obtain ⟨hi, hlen, hrows, hcols⟩ := hQ
          obtain ⟨e1, _, e3⟩ := RollFourier_index_spec W H dx dy y x hyH hxW hx1 hx2 hy1 hy2
          have hin : y * W + x < buf.length := by
            rw [hbuf]; exact index_lt W H y x hyH hxW
          have hload : load buf (st.1 : Int) = some (buf[y * W + x]) := by
            rw [load_natCast, hi]
            exact List.getElem?_eq_getElem hin
          simp only []
          rw [e1, hload, store_natCast]
          refine ⟨by omega, by simpa using hlen, ?_, ?_⟩
          · intro y' x' hy' hx'
            have hne : RollFourier_index W H dx dy y x ≠ RollFourier_index W H dx dy y' x' := by
              intro h
              have := RollFourier_index_injective W H dx dy y x y' x' hyH hxW (by omega) hx'
                hx1 hx2 hy1 hy2 h
              omega
            rw [List.getElem?_set_ne hne]
            exact hrows y' x' hy' hx'
          · intro x' hx'
            by_cases hxx : x' = x
            · subst hxx
              rw [List.getElem?_set_self (by omega)]
              exact (List.getElem?_eq_getElem hin).symm
            · have hne : RollFourier_index W H dx dy y x ≠ RollFourier_index W H dx dy y x' := by
                intro h
                have := RollFourier_index_injective W H dx dy y x y x' hyH hxW hyH (by omega)
                  hx1 hx2 hy1 hy2 h
                omega
              rw [List.getElem?_set_ne hne]
              exact hcols x' (by omega))
      obtain ⟨hi, hlen, hrows, hcols⟩ := inner
      refine ⟨by rw [hi]; ring, hlen, ?_⟩
      intro y' x hy' hx
      by_cases hyy : y' = y
      · subst hyy; exact hcols x hx
      · exact hrows y' x (by omega) hx)
  exact ⟨key.2.1, fun y x hy hx => key.2.2 y x hy hx⟩

theorem CopyMagickMemory_full (destination source : List α) (count : Nat)
    (hd : destination.length = count) (hs : source.length = count) :
    CopyMagickMemory destination source count = source := by
  unfold CopyMagickMemory
  rw [List.take_of_length_le (by omega), List.drop_of_length_le (by omega)]
  simp

/-- The result of `RollFourier` when the scratch block is acquired and the
offsets wrap at most once. -/
theorem RollFourier_spec (W H : Nat) (dx dy : Int)
    (hx1 : -(W : Int) ≤ dx) (hx2 : dx ≤ (W : Int))
    (hy1 : -(H : Int) ≤ dy) (hy2 : dy ≤ (H : Int))
    (junk : Nat → α) (buf : List α) (hbuf : buf.length = H * W) :
    (RollFourier W H dx dy (some junk) buf).1 = true
      ∧ (RollFourier W H dx dy (some junk) buf).2.length = H * W
      ∧ ∀ y x, y < H → x < W →
        (RollFourier W H dx dy (some junk) buf).2[RollFourier_index W H dx dy y x]?
          = buf[y * W + x]? := by
  have hs : (GetVirtualMemoryBlob junk (H * W)).length = H * W := by
    simp [GetVirtualMemoryBlob]
  obtain ⟨hlen, hcells⟩ := RollFourier_loops_spec W H dx dy hx1 hx2 hy1 hy2 buf
    (GetVirtualMemoryBlob junk (H * W)) hbuf hs
  have e : (RollFourier W H dx dy (some junk) buf).2
      = (RollFourier_loops W H dx dy buf (0, GetVirtualMemoryBlob junk (H * W))).2 := by
    simp only [RollFourier]
    exact CopyMagickMemory_full _ _ _ hbuf hlen
  refine ⟨rfl, by rw [e]; exact hlen, ?_⟩
  intro y x hy hx
  rw [e]
  exact hcells y x hy hx

theorem index_decompose (W i : Nat) : i / W * W + i % W = i := by
  have := Nat.div_add_mod i W
  rw [Nat.mul_comm] at this
  exact this

theorem index_div_lt (W H i : Nat) (hi : i < H * W) : i / W < H :=
  Nat.div_lt_of_lt_mul (by rw [Nat.mul_comm]; exact hi)

/-- Rolling by `(dx,dy)` and then by `(-dx,-dy)` restores the block. -/
theorem RollFourier_roundtrip (W H : Nat) (dx dy : Int)
    (hx1 : -(W : Int) ≤ dx) (hx2 : dx ≤ (W : Int))
    (hy1 : -(H : Int) ≤ dy) (hy2 : dy ≤ (H : Int))
    (junk junk' : Nat → α) (buf : List α) (hbuf : buf.length = H * W) :
    RollFourier W H (-dx) (-dy) (some junk') (RollFourier W H dx dy (some junk) buf).2
      = (true, buf) := by
  obtain ⟨_, hlen, hcells⟩ := RollFourier_spec W H dx dy hx1 hx2 hy1 hy2 junk buf hbuf
  obtain ⟨hst', hlen', hcells'⟩ := RollFourier_spec W H (-dx) (-dy) (by omega) (by omega)
    (by omega) (by omega) junk' (RollFourier W H dx dy (some junk) buf).2 hlen
  refine Prod.ext hst' ?_
  show (RollFourier W H (-dx) (-dy) (some junk') (RollFourier W H dx dy (some junk) buf).2).2
    = buf
  apply List.ext_getElem?
  intro i
  by_cases hi : i < H * W
  · have hW : 0 < W := by
      rcases Nat.eq_zero_or_pos W with h | h
      · subst h; simp at hi
      · exact h
    have hy : i / W < H := index_div_lt W H i hi
    have hx : i % W < W := Nat.mod_lt _ hW
    obtain ⟨_, s2, s3⟩ := RollFourier_index_spec W H dx dy (i / W) (i % W) hy hx hx1 hx2 hy1 hy2
    have hv := RollFourier_v_bounds H dy (i / W) hy hy1 hy2
    have hu := RollFourier_v_bounds W dx (i % W) hx hx1 hx2
    rw [← RollFourier_u_eq_v] at hu
    have hvn : (RollFourier_v H dy (i / W)).toNat < H := by omega
    have hun : (RollFourier_u W dx (i % W)).toNat < W := by omega
    have c := hcells' _ _ hvn hun
    rw [← s2, hcells (i / W) (i % W) hy hx, index_decompose W i] at c
    obtain ⟨_, t2, _⟩ := RollFourier_index_spec W H (-dx) (-dy) _ _ hvn hun
      (by omega) (by omega) (by omega) (by omega)
    have b1 := RollFourier_v_neg H dy (i / W) hy hy1 hy2
    have b2 := RollFourier_v_neg W dx (i % W) hx hx1 hx2
    rw [← RollFourier_u_eq_v, ← RollFourier_u_eq_v] at b2
    rw [t2, b1, b2] at c
    simp only [Int.toNat_natCast] at c
    rw [index_decompose W i] at c
    exact c
  · rw [List.getElem?_eq_none (by omega), List.getElem?_eq_none (by omega)]

/-- C3: for `W ≥ 1`, `H ≥ 1`, a block of `W*H` values and offsets with
`|dx| ≤ W`, `|dy| ≤ H`, `RollFourier` succeeds once its scratch block is
acquired, leaves the block length unchanged and moves the value of every cell
`(y,x)` to cell `((y+dy) mod H, (x+dx) mod W)`, the remainder being the
non-negative one. -/
theorem RollFourier_cyclic_roll (W H : Nat) (_hW : 1 ≤ W) (_hH : 1 ≤ H) (dx dy : Int)
    (hdx : |dx| ≤ (W : Int)) (hdy : |dy| ≤ (H : Int))
    (junk : Nat → α) (buf : List α) (hbuf : buf.length = W * H) :
    (RollFourier W H dx dy (some junk) buf).1 = true
      ∧ (RollFourier W H dx dy (some junk) buf).2.length = buf.length
      ∧ ∀ x y, x < W → y < H → ∃ a, buf[y * W + x]? = some a
        ∧ (RollFourier W H dx dy (some junk) buf).2[
            ((((y : Int) + dy) % (H : Int)) * (W : Int)
              + ((x : Int) + dx) % (W : Int)).toNat]? = some a := by
  have hx := abs_le.mp hdx
  have hy := abs_le.mp hdy
  have hbuf' : buf.length = H * W := by rw [hbuf, Nat.mul_comm]
  obtain ⟨hst, hlen, hcells⟩ := RollFourier_spec W H dx dy hx.1 hx.2 hy.1 hy.2 junk buf hbuf'
  refine ⟨hst, by rw [hlen, hbuf'], ?_⟩
  intro x y hxW hyH
  have hin : y * W + x < buf.length := by
    rw [hbuf']; exact index_lt W H y x hyH hxW
  refine ⟨buf[y * W + x], List.getElem?_eq_getElem hin, ?_⟩
  have c := hcells y x hyH hxW
  unfold RollFourier_index at c
  rw [RollFourier_v_eq_emod H dy y hyH hy.1 hy.2, RollFourier_u_eq_v,
    RollFourier_v_eq_emod W dx x hxW hx.1 hx.2] at c
  rw [c]
  exact List.getElem?_eq_getElem hin

theorem list_eq_ofFn_get (l : List α) (n : Nat) (h : l.length = n) :
    l = List.ofFn (fun i : Fin n => l.get ⟨i.1, by rw [h]; exact i.2⟩) := by
  apply List.ext_getElem
  · simp [h]
  · intro k h1 h2
    simp

/-- A block whose cells are those of another block moved along a permutation
of the indices is a permutation of that block. -/
theorem perm_of_index_perm (out buf : List α) (n : Nat) (hout : out.length = n)
    (hbuf : buf.length = n) (σ : Equiv.Perm (Fin n))
    (h : ∀ i : Fin n, out[(σ i : Nat)]? = buf[(i : Nat)]?) : List.Perm out buf := by
  have e1 := list_eq_ofFn_get out n hout
  have e2 := list_eq_ofFn_get buf n hbuf
  have hcomp : (fun i : Fin n => buf.get ⟨i.1, by rw [hbuf]; exact i.2⟩)
      = (fun i : Fin n => out.get ⟨i.1, by rw [hout]; exact i.2⟩) ∘ σ := by
    funext i
    have hi := h i
    have h1 : (σ i : Nat) < out.length := by rw [hout]; exact (σ i).2
    have h2 : (i : Nat) < buf.length := by rw [hbuf]; exact i.2
    rw [List.getElem?_eq_getElem h1, List.getElem?_eq_getElem h2] at hi
    have := Option.some.inj hi
    simp only [Function.comp, List.get_eq_getElem]
    exact this.symm
  rw [e1, e2, hcomp]
  exact (Equiv.Perm.ofFn_comp_perm σ _).symm

/-- C4: for `W ≥ 1`, `H ≥ 1`, a block of `W*H` values and offsets with
`|dx| ≤ W`, `|dy| ≤ H`, `RollFourier` moves the cells of the block along a
permutation of the indices (so the result is a permutation of the block), and
rolling the result by `(-dx,-dy)` returns the original block. -/
theorem RollFourier_bijection (W H : Nat) (_hW : 1 ≤ W) (_hH : 1 ≤ H) (dx dy : Int)
    (hdx : |dx| ≤ (W : Int)) (hdy : |dy| ≤ (H : Int))
    (junk junk' : Nat → α) (buf : List α) (hbuf : buf.length = W * H) :
    (∃ σ : Equiv.Perm (Fin (W * H)), ∀ i : Fin (W * H),
        (RollFourier W H dx dy (some junk) buf).2[(σ i : Nat)]? = buf[(i : Nat)]?)
      ∧ List.Perm (RollFourier W H dx dy (some junk) buf).2 buf
      ∧ RollFourier W H (-dx) (-dy) (some junk')
          (RollFourier W H dx dy (some junk) buf).2 = (true, buf) := by
  have hx := abs_le.mp hdx
  have hy := abs_le.mp hdy
  have hbuf' : buf.length = H * W := by rw [hbuf, Nat.mul_comm]
  obtain ⟨_, hlen, hcells⟩ := RollFourier_spec W H dx dy hx.1 hx.2 hy.1 hy.2 junk buf hbuf'
  have hW0 : ∀ i : Fin (W * H), 0 < W := by
    intro i
    rcases Nat.eq_zero_or_pos W with h | h
    · exact absurd i.2 (by simp [h])
    · exact h
  have hrow : ∀ i : Fin (W * H), (i : Nat) / W < H := fun i =>
    index_div_lt W H i (lt_of_lt_of_eq i.2 (Nat.mul_comm W H))
  have hcol : ∀ i : Fin (W * H), (i : Nat) % W < W := fun i => Nat.mod_lt _ (hW0 i)
  have hσ : ∃ σ : Equiv.Perm (Fin (W * H)), ∀ i : Fin (W * H),
      (RollFourier W H dx dy (some junk) buf).2[(σ i : Nat)]? = buf[(i : Nat)]? := by
    let f : Fin (W * H) → Fin (W * H) := fun i =>
      ⟨RollFourier_index W H dx dy ((i : Nat) / W) ((i : Nat) % W),
        lt_of_lt_of_eq (RollFourier_index_spec W H dx dy _ _ (hrow i) (hcol i)
          hx.1 hx.2 hy.1 hy.2).2.2 (Nat.mul_comm H W)⟩
    have hinj : Function.Injective f := by
      intro i j hij
      have h := congrArg Fin.val hij
      have := RollFourier_index_injective W H dx dy _ _ _ _ (hrow i) (hcol i) (hrow j) (hcol j)
        hx.1 hx.2 hy.1 hy.2 h
      apply Fin.ext
      rw [← index_decompose W i, ← index_decompose W j, this.1, this.2]
    refine ⟨Equiv.ofBijective f (Finite.injective_iff_bijective.mp hinj), ?_⟩
    intro i
    have c := hcells _ _ (hrow i) (hcol i)
    rw [index_decompose W i] at c
    exact c
  refine ⟨hσ, ?_, RollFourier_roundtrip W H dx dy hx.1 hx.2 hy.1 hy.2 junk junk' buf hbuf'⟩
  obtain ⟨σ, h⟩ := hσ
  exact perm_of_index_perm _ _ (W * H) (by rw [hlen, Nat.mul_comm]) hbuf σ h

/-! ## Padding decision and plans -/

/-- C5: the side chosen by `ForwardFourierTransformImage`, and the width of the
plans of `ForwardFourierTransformChannel` and `InverseFourierTransformChannel`
(all three make the same decision), is even and at least `max columns rows`;
it is `columns` for a square image of even side and `max columns rows`
rounded up to the next even number otherwise, in both cases the least even
number that is at least `max columns rows`. -/
theorem padding_decision (image : Image) (channel : ChannelType) (modulus : Bool) :
    (ForwardFourierTransformChannel_fourier_info image channel modulus).width
        = ForwardFourierTransformImage_width image
      ∧ (InverseFourierTransformChannel_fourier_info image channel modulus).width
        = ForwardFourierTransformImage_width image
      ∧ ForwardFourierTransformImage_width image % 2 = 0
      ∧ max image.columns image.rows ≤ ForwardFourierTransformImage_width image
      ∧ ForwardFourierTransformImage_width image
        = (if image.columns = image.rows ∧ image.columns % 2 = 0 then image.columns
            else max image.columns image.rows + max image.columns image.rows % 2)
      ∧ ∀ e : Nat, e % 2 = 0 → max image.columns image.rows ≤ e →
          ForwardFourierTransformImage_width image ≤ e := by
  refine ⟨rfl, rfl, ?_, ?_, ?_, ?_⟩
  · simp only [ForwardFourierTransformImage_width, Nat.and_one_is_mod]
    split_ifs <;> omega
  · simp only [ForwardFourierTransformImage_width, Nat.and_one_is_mod]
    split_ifs <;> omega
  · simp only [ForwardFourierTransformImage_width, Nat.and_one_is_mod]
    split_ifs <;> omega
  · intro e he hmax
    simp only [ForwardFourierTransformImage_width, Nat.and_one_is_mod]
    split_ifs <;> omega

/-- C6: the plans built by `ForwardFourierTransformChannel` and by
`InverseFourierTransformChannel` have `width = height`, an even `width` and
`center = width/2 + 1` (integer division). -/
theorem plan_invariants (image : Image) (channel : ChannelType) (modulus : Bool) :
    ((ForwardFourierTransformChannel_fourier_info image channel modulus).width
        = (ForwardFourierTransformChannel_fourier_info image channel modulus).height
      ∧ (ForwardFourierTransformChannel_fourier_info image channel modulus).width % 2 = 0
      ∧ (ForwardFourierTransformChannel_fourier_info image channel modulus).center
        = (((ForwardFourierTransformChannel_fourier_info image channel modulus).width / 2
            : Nat) : Int) + 1)
      ∧ ((InverseFourierTransformChannel_fourier_info image channel modulus).width
        = (InverseFourierTransformChannel_fourier_info image channel modulus).height
      ∧ (InverseFourierTransformChannel_fourier_info image channel modulus).width % 2 = 0
      ∧ (InverseFourierTransformChannel_fourier_info image channel modulus).center
        = (((InverseFourierTransformChannel_fourier_info image channel modulus).width / 2
            : Nat) : Int) + 1) := by
  refine ⟨⟨rfl, ?_, rfl⟩, ⟨rfl, ?_, rfl⟩⟩
  · simp only [ForwardFourierTransformChannel_fourier_info, Nat.and_one_is_mod]
    split_ifs <;> omega
  · simp only [InverseFourierTransformChannel_fourier_info, Nat.and_one_is_mod]
    split_ifs <;> omega

/-! ## Channel selection and status reduction -/

/-- The channels the five sections call the transformer on, and the status
they leave: the conjunction of the statuses of the calls. -/
theorem dispatchSections_spec (is_gray matte : Bool) (colorspace : ColorspaceType)
    (transform : ChannelType → Bool) :
    (dispatchSections is_gray matte colorspace transform).calls
        = (if is_gray then [ChannelType.GrayChannels]
            else [ChannelType.RedChannel, ChannelType.GreenChannel, ChannelType.BlueChannel])
          ++ (if matte then [ChannelType.OpacityChannel] else [])
          ++ (if colorspace = ColorspaceType.CMYKColorspace then [ChannelType.IndexChannel]
              else [])
      ∧ (dispatchSections is_gray matte colorspace transform).status
        = (dispatchSections is_gray matte colorspace transform).calls.all transform := by
  by_cases hc : colorspace = ColorspaceType.CMYKColorspace <;>
  cases is_gray <;> cases matte <;>
  cases h1 : transform ChannelType.RedChannel <;>
  cases h2 : transform ChannelType.GreenChannel <;>
  cases h3 : transform ChannelType.BlueChannel <;>
  cases h4 : transform ChannelType.OpacityChannel <;>
  cases h5 : transform ChannelType.IndexChannel <;>
  cases h6 : transform ChannelType.GrayChannels <;>
  simp [dispatchSections, Dispatch.call, Dispatch.join, hc, h1, h2, h3, h4, h5, h6]

theorem ForwardFourierTransformImage_calls (image : Image) (IsGrayImage : Image → Bool)
    (transform : ChannelType → Bool) :
    (ForwardFourierTransformImage image IsGrayImage true true transform).2
      = (dispatchSections (IsGrayImage image) image.matte image.colorspace transform).calls := by
  simp only [ForwardFourierTransformImage, CloneImage]
  split_ifs <;> rfl

/-- C7, the claim as stated fails: for a grayscale image with an opacity
channel, `ForwardFourierTransformImage` runs the transformer on the Gray
channel and on the Opacity channel. -/
theorem gray_matte_image_runs_opacity :
    (ForwardFourierTransformImage
        { columns := 2, rows := 2, matte := true,
          colorspace := ColorspaceType.GRAYColorspace,
          storage_class := ClassType.DirectClass, depth := 8 }
        (fun _ => true) true true (fun _ => true)).2
      = [ChannelType.GrayChannels, ChannelType.OpacityChannel] := by
  decide

/-- C7 as amended: for a grayscale input image whose two output images are
created, `ForwardFourierTransformImage` runs the transformer on the Gray
channel, on the Opacity channel exactly when the image has an opacity channel,
on the Index channel exactly when the image is CMYK, and on no other
channel. -/
theorem gray_channel_selection (image : Image) (IsGrayImage : Image → Bool)
    (transform : ChannelType → Bool) (hgray : IsGrayImage image = true) :
    (ForwardFourierTransformImage image IsGrayImage true true transform).2
      = [ChannelType.GrayChannels]
        ++ (if image.matte then [ChannelType.OpacityChannel] else [])
        ++ (if image.colorspace = ColorspaceType.CMYKColorspace
            then [ChannelType.IndexChannel] else []) := by
  rw [ForwardFourierTransformImage_calls, (dispatchSections_spec _ _ _ _).1, hgray]
  rfl

theorem gray_channel_selection_witness :
    (ForwardFourierTransformImage
        { columns := 4, rows := 4, matte := true,
          colorspace := ColorspaceType.GRAYColorspace,
          storage_class := ClassType.DirectClass, depth := 8 }
        (fun _ => true) true true (fun _ => true)).2
      = [ChannelType.GrayChannels]
        ++ (if true then [ChannelType.OpacityChannel] else [])
        ++ (if ColorspaceType.GRAYColorspace = ColorspaceType.CMYKColorspace
            then [ChannelType.IndexChannel] else []) :=
  gray_channel_selection
    { columns := 4, rows := 4, matte := true,
      colorspace := ColorspaceType.GRAYColorspace,
      storage_class := ClassType.DirectClass, depth := 8 }
    (fun _ => true) (fun _ => true) rfl

/-- C8: for a non-grayscale input image whose two output images are created,
the channels `ForwardFourierTransformImage` runs the transformer on are Red,
Green and Blue, then Opacity exactly when the image has an opacity channel,
then Index exactly when the image is CMYK; each once, so at most five. -/
theorem colour_channel_selection (image : Image) (IsGrayImage : Image → Bool)
    (transform : ChannelType → Bool) (hgray : IsGrayImage image = false) :
    (ForwardFourierTransformImage image IsGrayImage true true transform).2
        = [ChannelType.RedChannel, ChannelType.GreenChannel, ChannelType.BlueChannel]
          ++ (if image.matte then [ChannelType.OpacityChannel] else [])
          ++ (if image.colorspace = ColorspaceType.CMYKColorspace
              then [ChannelType.IndexChannel] else [])
      ∧ (∀ c : ChannelType,
          c ∈ (ForwardFourierTransformImage image IsGrayImage true true transform).2 ↔
            (c = ChannelType.RedChannel ∨ c = ChannelType.GreenChannel
              ∨ c = ChannelType.BlueChannel
              ∨ (c = ChannelType.OpacityChannel ∧ image.matte = true)
              ∨ (c = ChannelType.IndexChannel
                ∧ image.colorspace = ColorspaceType.CMYKColorspace)))
      ∧ (ForwardFourierTransformImage image IsGrayImage true true transform).2.Nodup
      ∧ (ForwardFourierTransformImage image IsGrayImage true true transform).2.length ≤ 5 := by
  have e : (ForwardFourierTransformImage image IsGrayImage true true transform).2
      = [ChannelType.RedChannel, ChannelType.GreenChannel, ChannelType.BlueChannel]
        ++ (if image.matte then [ChannelType.OpacityChannel] else [])
        ++ (if image.colorspace = ColorspaceType.CMYKColorspace
            then [ChannelType.IndexChannel] else []) := by
    rw [ForwardFourierTransformImage_calls, (dispatchSections_spec _ _ _ _).1, hgray]
    rfl
  rw [e]
  refine ⟨rfl, ?_, ?_, ?_⟩
  · intro c
    by_cases hc : image.colorspace = ColorspaceType.CMYKColorspace <;>
    cases image.matte <;> cases c <;> simp [hc]
  · by_cases hc : image.colorspace = ColorspaceType.CMYKColorspace <;>
    cases image.matte <;> simp [hc]
  · by_cases hc : image.colorspace = ColorspaceType.CMYKColorspace <;>
    cases image.matte <;> simp [hc]

theorem colour_channel_selection_witness :
    (ForwardFourierTransformImage
        { columns := 8, rows := 8, matte := true,
          colorspace := ColorspaceType.sRGBColorspace,
          storage_class := ClassType.DirectClass, depth := 8 }
        (fun _ => false) true true (fun _ => true)).2.length ≤ 5 :=
  (colour_channel_selection
    { columns := 8, rows := 8, matte := true,
      colorspace := ColorspaceType.sRGBColorspace,
      storage_class := ClassType.DirectClass, depth := 8 }
    (fun _ => false) (fun _ => true) rfl).2.2.2

theorem dispatchSections_status_false (is_gray matte : Bool) (colorspace : ColorspaceType)
    (transform : ChannelType → Bool) :
    (dispatchSections is_gray matte colorspace transform).status = false ↔
      ∃ c ∈ (dispatchSections is_gray matte colorspace transform).calls,
        transform c = false := by
  rw [(dispatchSections_spec is_gray matte colorspace transform).2]
  simp

theorem InverseFourierTransformImage_eq (magnitude_image phase_image : Image)
    (IsGrayImage : Image → Bool) (transform : ChannelType → Bool) (d : Dispatch)
    (hd : d = dispatchSections
      (if IsGrayImage magnitude_image ≠ false then IsGrayImage phase_image
        else IsGrayImage magnitude_image)
      magnitude_image.matte magnitude_image.colorspace transform) :
    InverseFourierTransformImage magnitude_image (some phase_image) IsGrayImage true transform
      = (if d.status = false then (none, d.calls)
          else (some { magnitude_image with columns := magnitude_image.columns,
                                            rows := magnitude_image.rows }, d.calls)) := by
  subst hd
  simp only [InverseFourierTransformImage, CloneImage, if_true]

theorem dispatch_result_none (x : Image) (d : Dispatch) (transform : ChannelType → Bool)
    (hs : d.status = false ↔ ∃ c ∈ d.calls, transform c = false) :
    ((if d.status = false then (none, d.calls) else (some x, d.calls)) :
        Option Image × List ChannelType).1 = none ↔
      ∃ c ∈ ((if d.status = false then (none, d.calls) else (some x, d.calls)) :
        Option Image × List ChannelType).2, transform c = false := by
  by_cases h : d.status = false
  · rw [if_pos h]
    exact ⟨fun _ => hs.mp h, fun _ => rfl⟩
  · rw [if_neg h]
    exact ⟨fun hn => Option.noConfusion hn, fun hc => absurd (hs.mpr hc) h⟩

/-- C9: once the output images are created, `ForwardFourierTransformImage`
returns the empty image list exactly when one of the channels it ran the
transformer on returned false, and `InverseFourierTransformImage` returns no
image exactly when one of the channels it ran the transformer on returned
false. -/
theorem dispatcher_failure_atomicity (image : Image) (phase_image : Image)
    (IsGrayImage : Image → Bool) (transform : ChannelType → Bool) :
    ((ForwardFourierTransformImage image IsGrayImage true true transform).1 = [] ↔
        ∃ c ∈ (ForwardFourierTransformImage image IsGrayImage true true transform).2,
          transform c = false)
      ∧ ((InverseFourierTransformImage image (some phase_image) IsGrayImage true
            transform).1 = none ↔
        ∃ c ∈ (InverseFourierTransformImage image (some phase_image) IsGrayImage true
            transform).2, transform c = false) := by
  constructor
  · have hs := dispatchSections_status_false (IsGrayImage image) image.matte
      image.colorspace transform
    simp only [ForwardFourierTransformImage, CloneImage, if_true]
    split_ifs with h
    · simp only [true_iff]
      exact hs.mp h
    · simp only [List.cons_ne_nil, false_iff]
      exact fun hc => h (hs.mpr hc)
  · rw [InverseFourierTransformImage_eq image phase_image IsGrayImage transform _ rfl]
    exact dispatch_result_none _ _ transform (dispatchSections_status_false _ _ _ _)

/-! ## Where the code departs from its contract -/

/-- C1, on the code: for side 4 and the half-spectrum `1..12` (4 rows of 3),
`ForwardQuadrantSwap` into a zeroed block followed by `InverseQuadrantSwap`
returns `1 2 0 / 4 5 0 / 7 0 0 / 10 11 0`: the last column and the cell
`(2,1)` of the half-spectrum are lost. -/
theorem quadrant_swap_roundtrip_loses_cells :
    InverseQuadrantSwap 4 4 (some (fun _ => 0))
        (ForwardQuadrantSwap 4 4 (some (fun _ => 0))
          [1, 2, 3, 4, 5, 6, 7, 8, 9, 10, 11, (12 : Int)] (List.replicate 16 0)).2.2
        (List.replicate 12 0)
      = (true, [1, 2, 0, 4, 5, 0, 7, 0, 0, 10, 11, 0]) := by
  decide

theorem ForwardQuadrantSwap_side2 [Field α] (junk : Nat → α) (m0 m1 m2 m3 : α) :
    ForwardQuadrantSwap 2 2 (some junk) [m0, m1, m2, m3] [0, 0, 0, 0]
      = (true, [m2, m3, m0, m1], [0, 0, 0, 0]) := by
  simp [ForwardQuadrantSwap, RollFourier, RollFourier_loops, forLoop, List.range',
    load, store, GetVirtualMemoryBlob, CopyMagickMemory, RollFourier_v, RollFourier_u,
    (by decide : List.range 4 = [0, 1, 2, 3])]

/-- C2, on the code: at side 2, whatever spectrum `m0..m3`, `p0..p3` the FFT
produced from the input image, `ForwardFourier` ends with an all-zero magnitude
buffer and with a phase buffer that is `1/2` everywhere in magnitude/phase
mode and zero everywhere in real/imaginary mode; the image pair it writes
does not depend on the input image, so no inverse can recover it. -/
theorem ForwardFourier_side2_forgets_spectrum [Field α] (MagickPI : α) (modulus : Bool)
    (junk junk' : Nat → α) (m0 m1 m2 m3 p0 p1 p2 p3 : α) :
    ForwardFourier MagickPI
        (ForwardFourierTransformChannel_fourier_info Image.gray2 ChannelType.GrayChannels
          modulus)
        [Image.gray2, Image.gray2]
        { channel_magnitude_info := true, channel_phase_info := true, source_info := true,
          image_view := CacheView.succeeding, destination_info := true,
          magnitude := [m0, m1, m2, m3], phase := [p0, p1, p2, p3],
          magnitude_info := true, phase_info := true,
          roll_info_magnitude := some junk, roll_info_phase := some junk',
          magnitude_view := CacheView.succeeding, phase_view := CacheView.succeeding }
      = (true, [0, 0, 0, 0],
          if modulus then [1 / 2, 1 / 2, 1 / 2, 1 / 2] else [0, 0, 0, 0]) := by
  have hinfo : ForwardFourierTransformChannel_fourier_info Image.gray2
      ChannelType.GrayChannels modulus
      = { channel := ChannelType.GrayChannels, modulus := modulus, width := 2, height := 2,
          center := 2 } := by
    cases modulus <;> decide
  rw [hinfo]
  cases modulus <;>
  simp [ForwardFourier, ForwardQuadrantSwap_side2, CorrectPhaseLHS, ForwardFourier_rows,
    forLoopBreak, forLoopBreak.go, CacheView.succeeding, forLoop, List.range', load, store]

/-- C10, on the code: `ForwardFourierTransformChannel` returns true although
the scratch acquisition of the first quadrant swap fails, although no row of
the source image can be obtained, although no row of the magnitude image can
be obtained, and although the sync of every written magnitude row fails. -/
theorem ForwardFourierTransformChannel_masks_failures :
    ForwardFourierTransformChannel (355 / 113 : ℚ) Image.gray2 ChannelType.GrayChannels true
        [Image.gray2, Image.gray2]
        { ForwardEnv.succeeding [1, 0, 0, 0] [0, 0, 0, 0] with roll_info_magnitude := none }
        = true
      ∧ ForwardFourierTransformChannel (355 / 113 : ℚ) Image.gray2 ChannelType.GrayChannels true
        [Image.gray2, Image.gray2]
        { ForwardEnv.succeeding [1, 0, 0, 0] [0, 0, 0, 0] with
          image_view := { pixels := fun _ => false, sync := fun _ => true } }
        = true
      ∧ ForwardFourierTransformChannel (355 / 113 : ℚ) Image.gray2 ChannelType.GrayChannels true
        [Image.gray2, Image.gray2]
        { ForwardEnv.succeeding [1, 0, 0, 0] [0, 0, 0, 0] with
          magnitude_view := { pixels := fun _ => false, sync := fun _ => true } }
        = true
      ∧ ForwardFourierTransformChannel (355 / 113 : ℚ) Image.gray2 ChannelType.GrayChannels true
        [Image.gray2, Image.gray2]
        { ForwardEnv.succeeding [1, 0, 0, 0] [0, 0, 0, 0] with
          magnitude_view := { pixels := fun _ => true, sync := fun _ => false } }
        = true := by
  decide

/-! ## Instances of the conditional statements -/

theorem RollFourier_cyclic_roll_witness :
    (RollFourier 3 2 1 (-1) (some (fun _ => 0)) [1, 2, 3, 4, 5, (6 : Nat)]).1 = true
      ∧ (RollFourier 3 2 1 (-1) (some (fun _ => 0)) [1, 2, 3, 4, 5, (6 : Nat)]).2.length
        = [1, 2, 3, 4, 5, (6 : Nat)].length
      ∧ ∀ x y : Nat, x < 3 → y < 2 → ∃ a, [1, 2, 3, 4, 5, (6 : Nat)][y * 3 + x]? = some a
        ∧ (RollFourier 3 2 1 (-1) (some (fun _ => 0)) [1, 2, 3, 4, 5, (6 : Nat)]).2[
            ((((y : Int) + (-1)) % ((2 : Nat) : Int)) * ((3 : Nat) : Int)
              + ((x : Int) + 1) % ((3 : Nat) : Int)).toNat]? = some a :=
  RollFourier_cyclic_roll 3 2 (by decide) (by decide) 1 (-1) (by decide) (by decide)
    (fun _ => 0) [1, 2, 3, 4, 5, 6] (by decide)

theorem RollFourier_bijection_witness :
    (∃ σ : Equiv.Perm (Fin (3 * 2)), ∀ i : Fin (3 * 2),
        (RollFourier 3 2 1 (-1) (some (fun _ => 0)) [1, 2, 3, 4, 5, (6 : Nat)]).2[(σ i : Nat)]?
          = [1, 2, 3, 4, 5, (6 : Nat)][(i : Nat)]?)
      ∧ List.Perm (RollFourier 3 2 1 (-1) (some (fun _ => 0)) [1, 2, 3, 4, 5, (6 : Nat)]).2
          [1, 2, 3, 4, 5, (6 : Nat)]
      ∧ RollFourier 3 2 (-1) (-(-1)) (some (fun _ => 7))
          (RollFourier 3 2 1 (-1) (some (fun _ => 0)) [1, 2, 3, 4, 5, (6 : Nat)]).2
        = (true, [1, 2, 3, 4, 5, (6 : Nat)]) :=
  RollFourier_bijection 3 2 (by decide) (by decide) 1 (-1) (by decide) (by decide)
    (fun _ => 0) (fun _ => 7) [1, 2, 3, 4, 5, 6] (by decide)

/-! ## Cells of the display buffers -/

theorem mem_store (block : List α) (i : Int) (value : Option α) (a : α)
    (h : a ∈ store block i value) : a ∈ block ∨ value = some a := by
  unfold store at h
  cases value with
  | none => exact Or.inl h
  | some b =>
    by_cases hi : 0 ≤ i
    · simp only [hi, if_true] at h
      rcases List.mem_or_eq_of_mem_set h with h1 | h1
      · exact Or.inl h1
      · exact Or.inr (by rw [h1])
    · simp only [hi, if_false] at h
      exact Or.inl h

theorem mem_of_load (block : List α) (i : Int) (a : α) (h : load block i = some a) :
    a ∈ block := by
  unfold load at h
  by_cases hi : 0 ≤ i
  · simp only [hi, if_true] at h
    exact List.getElem?_mem h
  · simp [hi] at h

/-- A property of the state kept by every iteration is kept by the loop. -/
theorem forLoop_preserves {σ : Type} (P : σ → Prop) (lo hi : Nat) (body : Nat → σ → σ)
    (s : σ) (h0 : P s) (hstep : ∀ i st, P st → P (body i st)) :
    P (forLoop lo hi body s) := by
  unfold forLoop
  generalize List.range' lo (hi - lo) = l
  induction l generalizing s with
  | nil => exact h0
  | cons i t ih => exact ih (body i s) (hstep i s h0)

/-- Storing a cell of a block whose cells satisfy `P` into a block whose cells
satisfy `P` keeps `P` on every cell, and the length. -/
theorem store_load_cells (P : α → Prop) (dst src : List α) (i j : Int)
    (hd : ∀ a ∈ dst, P a) (hs : ∀ a ∈ src, P a) :
    ∀ a ∈ store dst i (load src j), P a := by
  intro a ha
  rcases mem_store dst i _ a ha with h | h
  · exact hd a h
  · exact hs a (mem_of_load src j a h)

/-- Every cell of the block returned by `RollFourier` is a cell of the block
it was given. -/
theorem RollFourier_mem (W H : Nat) (dx dy : Int)
    (hx1 : -(W : Int) ≤ dx) (hx2 : dx ≤ (W : Int))
    (hy1 : -(H : Int) ≤ dy) (hy2 : dy ≤ (H : Int))
    (roll_info : Option (Nat → α)) (buf : List α) (hbuf : buf.length = H * W) :
    ∀ a ∈ (RollFourier W H dx dy roll_info buf).2, a ∈ buf := by
  cases roll_info with
  | none => intro a ha; exact ha
  | some junk =>
    obtain ⟨_, hlen, hcells⟩ := RollFourier_spec W H dx dy hx1 hx2 hy1 hy2 junk buf hbuf
    intro a ha
    obtain ⟨j, hj, hja⟩ := List.getElem_of_mem ha
    rw [hlen] at hj
    have hW : 0 < W := by
      rcases Nat.eq_zero_or_pos W with h | h
      · subst h; simp at hj
      · exact h
    have hyj : j / W < H := index_div_lt W H j hj
    have hxj : j % W < W := Nat.mod_lt _ hW
    have hv := RollFourier_v_bounds H (-dy) (j / W) hyj (by omega) (by omega)
    have hu := RollFourier_v_bounds W (-dx) (j % W) hxj (by omega) (by omega)
    have hvn : (RollFourier_v H (-dy) (j / W)).toNat < H := by omega
    have hun : (RollFourier_v W (-dx) (j % W)).toNat < W := by omega
    have c := hcells _ _ hvn hun
    obtain ⟨_, t2, _⟩ := RollFourier_index_spec W H dx dy _ _ hvn hun hx1 hx2 hy1 hy2
    have b1 := RollFourier_v_neg H (-dy) (j / W) hyj (by omega) (by omega)
    have b2 := RollFourier_v_neg W (-dx) (j % W) hxj (by omega) (by omega)
    rw [neg_neg] at b1 b2
    rw [t2, RollFourier_u_eq_v, b1, b2] at c
    simp only [Int.toNat_natCast] at c
    rw [index_decompose W j] at c
    have hjlen : j < (RollFourier W H dx dy (some junk) buf).2.length := by rw [hlen]; exact hj
    rw [List.getElem?_eq_getElem hjlen, hja] at c
    exact List.getElem?_mem c.symm
/-- Every cell of the display block left by `ForwardQuadrantSwap` satisfies a
property that holds of every cell of the half-spectrum and of every initial
cell of the display block; the display block keeps its length. -/
theorem ForwardQuadrantSwap_cells (P : α → Prop) (width height : Nat)
    (roll_info : Option (Nat → α)) (source destination : List α)
    (hlen : source.length = height * (width / 2 + 1))
    (hs : ∀ a ∈ source, P a) (hd : ∀ a ∈ destination, P a) :
    (ForwardQuadrantSwap width height roll_info source destination).2.2.length
        = destination.length
      ∧ ∀ a ∈ (ForwardQuadrantSwap width height roll_info source destination).2.2, P a := by
  have hdiv : Int.tdiv (height : Int) 2 = (height : Int) / 2 :=
    Int.tdiv_eq_ediv (Int.natCast_nonneg _) (by decide)
  have hroll : ∀ a ∈ (RollFourier (width / 2 + 1) height 0 (Int.tdiv (height : Int) 2)
      roll_info source).2, P a := by
    intro a ha
    exact hs a (RollFourier_mem (width / 2 + 1) height 0 _ (by omega) (by omega)
      (by rw [hdiv]; omega) (by rw [hdiv]; omega) roll_info source hlen a ha)
  unfold ForwardQuadrantSwap
  simp only []
  split_ifs with hst
  · exact ⟨rfl, hd⟩
  · refine forLoop_preserves
      (fun d : List α => d.length = destination.length ∧ ∀ a ∈ d, P a) _ _ _ _ ?_ ?_
    · refine forLoop_preserves
        (fun d : List α => d.length = destination.length ∧ ∀ a ∈ d, P a) _ _ _ _ ?_ ?_
      · refine forLoop_preserves
          (fun d : List α => d.length = destination.length ∧ ∀ a ∈ d, P a) _ _ _ _
          ⟨rfl, hd⟩ ?_
        intro y d hP
        refine forLoop_preserves
          (fun d : List α => d.length = destination.length ∧ ∀ a ∈ d, P a) _ _ _ _ hP ?_
        intro x d hP
        exact ⟨by rw [length_store]; exact hP.1, store_load_cells P d _ _ _ hP.2 hroll⟩
      · intro y d hP
        refine forLoop_preserves
          (fun d : List α => d.length = destination.length ∧ ∀ a ∈ d, P a) _ _ _ _ hP ?_
        intro x d hP
        exact ⟨by rw [length_store]; exact hP.1, store_load_cells P d _ _ _ hP.2 hroll⟩
    · intro x d hP
      exact ⟨by rw [length_store]; exact hP.1, store_load_cells P d d _ _ hP.2 hP.2⟩

/-- The function `CorrectPhaseLHS` keeps the length of the block and every
property of its cells that is stable under multiplication by `-1`. -/
theorem CorrectPhaseLHS_cells [Mul α] [Neg α] [One α] (P : α → Prop) (width height : Nat)
    (fourier : List α) (hneg : ∀ a, P a → P (a * (-1))) (hf : ∀ a ∈ fourier, P a) :
    (CorrectPhaseLHS width height fourier).length = fourier.length
      ∧ ∀ a ∈ CorrectPhaseLHS width height fourier, P a := by
  unfold CorrectPhaseLHS
  refine forLoop_preserves
    (fun d : List α => d.length = fourier.length ∧ ∀ a ∈ d, P a) _ _ _ _ ⟨rfl, hf⟩ ?_
  intro y d hP
  refine forLoop_preserves
    (fun d : List α => d.length = fourier.length ∧ ∀ a ∈ d, P a) _ _ _ _ hP ?_
  intro x d hP
  refine ⟨by rw [length_store]; exact hP.1, ?_⟩
  intro a ha
  rcases mem_store d _ _ a ha with h | h
  · exact hP.2 a h
  · rw [Option.map_eq_some'] at h
    obtain ⟨b, hb, rfl⟩ := h
    exact hneg b (hP.2 b (mem_of_load d _ b hb))
/-- The loop of `ForwardFourier` that rescales the phase block applies the two
assignments once to every cell. -/
theorem phase_scale_cells (P Q : α → Prop) (f1 f2 : α → α)
    (hPQ : ∀ a, P a → Q (f2 (f1 a))) (width height : Nat) (pixels : List α)
    (hlen : pixels.length = height * width) (hP : ∀ a ∈ pixels, P a) :
    (forLoop 0 height (fun _ st =>
        forLoop 0 width (fun _ (st : Int × List α) =>
          let pixels := store st.2 st.1 ((load st.2 st.1).map f1)
          let pixels := store pixels st.1 ((load pixels st.1).map f2)
          (st.1 + 1, pixels)) st) (0, pixels)).2.length = pixels.length
      ∧ ∀ a ∈ (forLoop 0 height (fun _ st =>
        forLoop 0 width (fun _ (st : Int × List α) =>
          let pixels := store st.2 st.1 ((load st.2 st.1).map f1)
          let pixels := store pixels st.1 ((load pixels st.1).map f2)
          (st.1 + 1, pixels)) st) (0, pixels)).2, Q a := by
  have key := forLoop_invariant
    (fun y (st : Int × List α) => st.1 = ((y * width : Nat) : Int)
      ∧ st.2.length = height * width
      ∧ (∀ (k : Nat) a, (k : Int) < st.1 → st.2[k]? = some a → Q a)
      ∧ ∀ (k : Nat) a, st.1 ≤ (k : Int) → st.2[k]? = some a → P a)
    0 height
    (fun _ st =>
        forLoop 0 width (fun _ (st : Int × List α) =>
          let pixels := store st.2 st.1 ((load st.2 st.1).map f1)
          let pixels := store pixels st.1 ((load pixels st.1).map f2)
          (st.1 + 1, pixels)) st)
    (0, pixels) (Nat.zero_le _)
    ⟨by simp, hlen, fun k a h _ => absurd h (by simp),
      fun k a _ h => hP a (List.getElem?_mem h)⟩
    (by
      intro y st _ hyH hI
      have inner := forLoop_invariant
        (fun x (st : Int × List α) => st.1 = ((y * width + x : Nat) : Int)
          ∧ st.2.length = height * width
          ∧ (∀ (k : Nat) a, (k : Int) < st.1 → st.2[k]? = some a → Q a)
          ∧ ∀ (k : Nat) a, st.1 ≤ (k : Int) → st.2[k]? = some a → P a)
        0 width
        (fun _ (st : Int × List α) =>
          let pixels := store st.2 st.1 ((load st.2 st.1).map f1)
          let pixels := store pixels st.1 ((load pixels st.1).map f2)
          (st.1 + 1, pixels))
        st (Nat.zero_le _) ⟨by simpa using hI.1, hI.2.1, hI.2.2.1, hI.2.2.2⟩
        (by
          intro x st _ hxW hJ
          obtain ⟨hi, hl, hQ, hP'⟩ := hJ
          have hin : y * width + x < st.2.length := by
            rw [hl]; exact index_lt width height y x hyH hxW
          have hb : st.2[y * width + x]? = some (st.2[y * width + x]) :=
            List.getElem?_eq_getElem hin
          simp only [hi, load_natCast, hb, Option.map_some', store_natCast,
            List.getElem?_set_self hin, List.set_set]
          refine ⟨by push_cast; ring, by simpa using hl, ?_, ?_⟩
          · intro k a hk hka
            by_cases hkn : k = y * width + x
            · subst hkn
              rw [List.getElem?_set_self hin] at hka
              have := Option.some.inj hka
              rw [← this]
              exact hPQ _ (hP' _ _ (by rw [hi]) hb)
            · rw [List.getElem?_set_ne (fun h => hkn h.symm)] at hka
              exact hQ k a (by rw [hi]; omega) hka
          · intro k a hk hka
            rw [List.getElem?_set_ne (by omega)] at hka
            exact hP' k a (by rw [hi]; omega) hka)
      obtain ⟨hi, hl, hQ, hP'⟩ := inner
      exact ⟨by rw [hi]; push_cast; ring, hl, hQ, hP'⟩)
  obtain ⟨hi, hl, hQ, _⟩ := key
  refine ⟨by rw [hl, hlen], ?_⟩
  intro a ha
  obtain ⟨k, hk⟩ := List.mem_iff_getElem?.mp ha
  have hklt : k < (forLoop 0 height (fun _ st =>
        forLoop 0 width (fun _ (st : Int × List α) =>
          let pixels := store st.2 st.1 ((load st.2 st.1).map f1)
          let pixels := store pixels st.1 ((load pixels st.1).map f2)
          (st.1 + 1, pixels)) st) (0, pixels)).2.length := by
    by_contra hc
    rw [List.getElem?_eq_none (by omega)] at hk
    exact Option.noConfusion hk
  exact hQ k a (by rw [hi]; rw [hl] at hklt; exact_mod_cast hklt) hk
/-- The phase samples of `ForwardFourier` in magnitude/phase mode, over any
ordered field and for any positive value of `MagickPI`. -/
theorem ForwardFourier_phase_cells {F : Type} [LinearOrderedField F] (MagickPI : F)
    (hpi : 0 < MagickPI) (W : Nat) (channel : ChannelType)
    (magnitude_image phase_image : Image) (env : ForwardEnv F)
    (hmag : env.magnitude_info = true) (hph : env.phase_info = true)
    (hlen : env.phase.length = W * (W / 2 + 1))
    (hphase : ∀ a ∈ env.phase, -MagickPI ≤ a ∧ a ≤ MagickPI) :
    (ForwardFourier MagickPI
        { channel := channel, modulus := true, width := W, height := W,
          center := ((W / 2 : Nat) : Int) + 1 }
        [magnitude_image, phase_image] env).2.2.length = W * W
      ∧ ∀ a ∈ (ForwardFourier MagickPI
        { channel := channel, modulus := true, width := W, height := W,
          center := ((W / 2 : Nat) : Int) + 1 }
        [magnitude_image, phase_image] env).2.2, 0 ≤ a ∧ a ≤ 1 := by
  have hzero : ∀ a ∈ List.replicate (W * W) (0 : F), -MagickPI ≤ a ∧ a ≤ MagickPI := by
    intro a ha
    rw [List.eq_of_mem_replicate ha]
    constructor <;> linarith
  have hswap : ∀ (sw : Bool × List F × List F),
      (sw = ForwardQuadrantSwap W W env.roll_info_phase env.phase (List.replicate (W * W) 0)
        ∨ sw.2.2 = List.replicate (W * W) 0) →
      sw.2.2.length = W * W ∧ ∀ a ∈ sw.2.2, -MagickPI ≤ a ∧ a ≤ MagickPI := by
    intro sw h
    rcases h with h | h
    · rw [h]
      have := ForwardQuadrantSwap_cells (fun a : F => -MagickPI ≤ a ∧ a ≤ MagickPI) W W
        env.roll_info_phase env.phase (List.replicate (W * W) 0) hlen hphase hzero
      simpa using this
    · rw [h]
      exact ⟨by simp, hzero⟩
  have hfinal : ∀ pixels : List F, pixels.length = W * W →
      (∀ a ∈ pixels, -MagickPI ≤ a ∧ a ≤ MagickPI) →
      (forLoop 0 W (fun _ st =>
        forLoop 0 W (fun _ (st : Int × List F) =>
          let pixels := store st.2 st.1
            ((load st.2 st.1).map (fun a => a / (2 * MagickPI)))
          let pixels := store pixels st.1
            ((load pixels st.1).map (fun a => a + 1 / 2))
          (st.1 + 1, pixels)) st)
        (0, CorrectPhaseLHS W W pixels)).2.length = W * W
      ∧ ∀ a ∈ (forLoop 0 W (fun _ st =>
        forLoop 0 W (fun _ (st : Int × List F) =>
          let pixels := store st.2 st.1
            ((load st.2 st.1).map (fun a => a / (2 * MagickPI)))
          let pixels := store pixels st.1
            ((load pixels st.1).map (fun a => a + 1 / 2))
          (st.1 + 1, pixels)) st)
        (0, CorrectPhaseLHS W W pixels)).2, 0 ≤ a ∧ a ≤ 1 := by
    intro pixels hl hp
    obtain ⟨cl, cp⟩ := CorrectPhaseLHS_cells (fun a : F => -MagickPI ≤ a ∧ a ≤ MagickPI) W W
      pixels (fun a ha => by constructor <;> linarith [ha.1, ha.2]) hp
    have := phase_scale_cells (fun a : F => -MagickPI ≤ a ∧ a ≤ MagickPI)
      (fun a : F => 0 ≤ a ∧ a ≤ 1) (fun a => a / (2 * MagickPI)) (fun a => a + 1 / 2)
      (by
        intro a ha
        have h2 : 0 < 2 * MagickPI := by linarith
        constructor
        · have : -(1 / 2) ≤ a / (2 * MagickPI) := by
            rw [le_div_iff₀ h2]; linarith [ha.1]
          linarith
        · have : a / (2 * MagickPI) ≤ 1 / 2 := by
            rw [div_le_iff₀ h2]; linarith [ha.2]
          linarith)
      W W (CorrectPhaseLHS W W pixels) (by rw [cl, hl]) cp
    exact ⟨by rw [this.1, cl, hl], this.2⟩
  simp only [ForwardFourier, List.tail_cons, List.head?_cons, hmag, hph]
  simp only [Bool.true_eq_false, or_self, if_false, ne_eq, not_false_eq_true, if_true]
  split_ifs with hst
  · exact hfinal _ (hswap (_, env.phase, List.replicate (W * W) 0) (Or.inr rfl)).1
      (hswap (_, env.phase, List.replicate (W * W) 0) (Or.inr rfl)).2
  · exact hfinal _ (hswap _ (Or.inl rfl)).1 (hswap _ (Or.inl rfl)).2

/-- C16: in magnitude/phase mode, for an even side `W = H ≥ 2` and a
half-spectrum phase buffer of `H × (W/2+1)` entries of `[-π,π]`, every one of
the `H × W` phase samples that `ForwardFourier` computes (quadrant swap into
the zeroed block, sign correction of the left half, then `p/(2π) + 0.5`) lies
in `[0,1]`, over the reals. -/
theorem ForwardFourier_phase_range (W : Nat) (_hW : 2 ≤ W) (_heven : W % 2 = 0)
    (channel : ChannelType) (magnitude_image phase_image : Image) (env : ForwardEnv ℝ)
    (hmag : env.magnitude_info = true) (hph : env.phase_info = true)
    (hlen : env.phase.length = W * (W / 2 + 1))
    (hphase : ∀ a ∈ env.phase, -Real.pi ≤ a ∧ a ≤ Real.pi) :
    (ForwardFourier Real.pi
        { channel := channel, modulus := true, width := W, height := W,
          center := ((W / 2 : Nat) : Int) + 1 }
        [magnitude_image, phase_image] env).2.2.length = W * W
      ∧ ∀ a ∈ (ForwardFourier Real.pi
        { channel := channel, modulus := true, width := W, height := W,
          center := ((W / 2 : Nat) : Int) + 1 }
        [magnitude_image, phase_image] env).2.2, 0 ≤ a ∧ a ≤ 1 :=
  ForwardFourier_phase_cells Real.pi Real.pi_pos W channel magnitude_image phase_image env
    hmag hph hlen hphase

/-! ## Shape of the inverse transform -/

theorem InverseQuadrantSwap_status (width height : Nat) (junk : Nat → α)
    (source destination : List α) :
    (InverseQuadrantSwap width height (some junk) source destination).1 = true := by
  simp only [InverseQuadrantSwap, RollFourier]

/-- When every acquisition succeeds `InverseFourierTransformChannel` returns
true, whatever the two images. -/
theorem InverseFourierTransformChannel_succeeds [Field α] (MagickPI : α)
    (magnitude_image phase_image fourier_image : Image) (channel : ChannelType)
    (modulus : Bool) (magnitude_pixels phase_pixels : List α)
    (junk1 junk2 junk3 junk4 : Nat → α) (view : CacheView) :
    InverseFourierTransformChannel MagickPI magnitude_image phase_image channel modulus
        fourier_image
        { channel_magnitude := true, channel_phase := true, channel_fourier := true,
          magnitude_pixels := some magnitude_pixels, phase_pixels := some phase_pixels,
          magnitude := some junk1, roll_info_magnitude := some junk2,
          phase := some junk3, roll_info_phase := some junk4,
          source := true, image_view := view } = true := by
  simp [InverseFourierTransformChannel, InverseFourier, InverseFourierTransform,
    InverseQuadrantSwap_status]

/-- C15, the claim as stated fails: for a magnitude image of 2×2 and a phase
image of 4×4 pixels, every acquisition succeeding, `InverseFourierTransformImage`
returns an image of 2×2 pixels. -/
theorem mismatched_shapes_are_transformed :
    (InverseFourierTransformImage Image.gray2 (some Image.gray4) (fun _ => true) true
        (fun channel => InverseFourierTransformChannel (355 / 113 : ℚ) Image.gray2
          Image.gray4 channel true Image.gray2
          (InverseEnv.succeeding [0, 0, 1, 0] [1 / 2, 1 / 2, 1 / 2, 1 / 2]))).1
      = some Image.gray2 := by
  decide

/-- C15 as amended: `InverseFourierTransformImage` returns null, without
running any channel, when the phase image is absent; it does not compare the
dimensions of the two images: whatever they are, once the output image is
created and every acquisition of the channel transformers succeeds, it
returns an image with the columns and rows of the magnitude image. -/
theorem InverseFourierTransformImage_shape [Field α] (MagickPI : α)
    (magnitude_image phase_image : Image) (IsGrayImage : Image → Bool) (modulus : Bool)
    (acquired : Bool) (transform : ChannelType → Bool)
    (magnitude_pixels phase_pixels : List α) (junk1 junk2 junk3 junk4 : Nat → α)
    (view : CacheView) :
    InverseFourierTransformImage magnitude_image none IsGrayImage acquired transform
        = (none, [])
      ∧ (InverseFourierTransformImage magnitude_image (some phase_image) IsGrayImage true
          (fun channel => InverseFourierTransformChannel MagickPI magnitude_image
            phase_image channel modulus magnitude_image
            { channel_magnitude := true, channel_phase := true, channel_fourier := true,
              magnitude_pixels := some magnitude_pixels, phase_pixels := some phase_pixels,
              magnitude := some junk1, roll_info_magnitude := some junk2,
              phase := some junk3, roll_info_phase := some junk4,
              source := true, image_view := view })).1 = some magnitude_image := by
  refine ⟨rfl, ?_⟩
  rw [InverseFourierTransformImage_eq magnitude_image phase_image IsGrayImage _ _ rfl]
  rw [if_neg]
  intro h
  obtain ⟨c, _, hc⟩ := (dispatchSections_status_false _ _ _ _).mp h
  rw [InverseFourierTransformChannel_succeeds] at hc
  exact Bool.noConfusion hc

/-! ## The 3×5 image -/

/-- C17, the claim as stated fails: the side chosen for an image of 3 columns
by 5 rows is 6, not 8. -/
theorem side_of_3_by_5_is_not_8 :
    ForwardFourierTransformImage_width
        { columns := 3, rows := 5, matte := false,
          colorspace := ColorspaceType.sRGBColorspace,
          storage_class := ClassType.DirectClass, depth := 8 } = 6
      ∧ ForwardFourierTransformImage_width
        { columns := 3, rows := 5, matte := false,
          colorspace := ColorspaceType.sRGBColorspace,
          storage_class := ClassType.DirectClass, depth := 8 } ≠ 8 := by
  decide

/-- C17 as amended: for an input image of 3 columns by 5 rows the side chosen
by the padding decision of `ForwardFourierTransformImage` (and by the plan of
`ForwardFourierTransformChannel`) is 6, and the magnitude and phase images
are 6×6. -/
theorem side_of_3_by_5_is_6 (matte : Bool) (colorspace : ColorspaceType)
    (storage_class : ClassType) (depth : Nat) (channel : ChannelType) (modulus : Bool)
    (IsGrayImage : Image → Bool) :
    ForwardFourierTransformImage_width
        { columns := 3, rows := 5, matte := matte, colorspace := colorspace,
          storage_class := storage_class, depth := depth } = 6
      ∧ (ForwardFourierTransformChannel_fourier_info
          { columns := 3, rows := 5, matte := matte, colorspace := colorspace,
            storage_class := storage_class, depth := depth } channel modulus).width = 6
      ∧ (ForwardFourierTransformImage
          { columns := 3, rows := 5, matte := matte, colorspace := colorspace,
            storage_class := storage_class, depth := depth }
          IsGrayImage true true (fun _ => true)).1.map (fun i => (i.columns, i.rows))
        = [(6, 6), (6, 6)] := by
  refine ⟨by simp [ForwardFourierTransformImage_width],
    by simp [ForwardFourierTransformChannel_fourier_info], ?_⟩
  have hs := dispatchSections_status_false (IsGrayImage
      { columns := 3, rows := 5, matte := matte, colorspace := colorspace,
        storage_class := storage_class, depth := depth }) matte colorspace (fun _ => true)
  have hne : ¬ (dispatchSections (IsGrayImage
      { columns := 3, rows := 5, matte := matte, colorspace := colorspace,
        storage_class := storage_class, depth := depth }) matte colorspace
      (fun _ => true)).status = false := by
    intro h
    obtain ⟨c, _, hc⟩ := hs.mp h
    exact Bool.noConfusion hc
  simp [ForwardFourierTransformImage, CloneImage, ForwardFourierTransformImage_width, hne]

/-! ## The display of the spectrum -/

/-- C18, on the code: at side 4 a half-spectrum whose 12 entries all equal `c`
is displayed as `0 0 c 0 / 0 c c 0 / 0 c c 0 / 0 c c 0`: 7 of the 16 samples of
the zeroed block are never written. -/
theorem uniform_spectrum_display [Zero α] (c : α) (junk : Nat → α) :
    ForwardQuadrantSwap 4 4 (some junk) (List.replicate 12 c) (List.replicate 16 0)
      = (true, List.replicate 12 c,
          [0, 0, c, 0, 0, c, c, 0, 0, c, c, 0, 0, c, c, 0]) := by
  simp [ForwardQuadrantSwap, RollFourier, RollFourier_loops, forLoop, List.range',
    load, store, GetVirtualMemoryBlob, CopyMagickMemory, RollFourier_v, RollFourier_u,
    List.replicate, (by decide : Int.tdiv 4 2 = 2),
    (by decide : List.range 12 = [0, 1, 2, 3, 4, 5, 6, 7, 8, 9, 10, 11])]

/-- C20, on the code: at side 4, for the half-spectrum `1..12` (rolled:
`7 8 9 / 10 11 12 / 1 2 3 / 4 5 6`), `ForwardQuadrantSwap` leaves the last
column of the display at its initial value 0: `dst[0][3] = 0`, not
`r[0][1] = 8`. -/
theorem right_half_plane_misses_last_column :
    ForwardQuadrantSwap 4 4 (some (fun _ => 0))
        [1, 2, 3, 4, 5, 6, 7, 8, 9, 10, 11, (12 : Int)] (List.replicate 16 0)
      = (true, [7, 8, 9, 10, 11, 12, 1, 2, 3, 4, 5, 6],
          [0, 0, 7, 0, 0, 5, 10, 0, 0, 2, 1, 0, 0, 11, 4, 0]) := by
  decide

theorem ForwardFourier_phase_range_witness :
    (ForwardFourier Real.pi
        { channel := ChannelType.GrayChannels, modulus := true, width := 2, height := 2,
          center := ((2 / 2 : Nat) : Int) + 1 }
        [Image.gray2, Image.gray2]
        { channel_magnitude_info := true, channel_phase_info := true, source_info := true,
          image_view := CacheView.succeeding, destination_info := true,
          magnitude := [1, 0, 0, 0], phase := [0, 0, 0, 0],
          magnitude_info := true, phase_info := true,
          roll_info_magnitude := some (fun _ => 0), roll_info_phase := some (fun _ => 0),
          magnitude_view := CacheView.succeeding,
          phase_view := CacheView.succeeding }).2.2.length = 2 * 2
      ∧ ∀ a ∈ (ForwardFourier Real.pi
        { channel := ChannelType.GrayChannels, modulus := true, width := 2, height := 2,
          center := ((2 / 2 : Nat) : Int) + 1 }
        [Image.gray2, Image.gray2]
        { channel_magnitude_info := true, channel_phase_info := true, source_info := true,
          image_view := CacheView.succeeding, destination_info := true,
          magnitude := [1, 0, 0, 0], phase := [0, 0, 0, 0],
          magnitude_info := true, phase_info := true,
          roll_info_magnitude := some (fun _ => 0), roll_info_phase := some (fun _ => 0),
          magnitude_view := CacheView.succeeding,
          phase_view := CacheView.succeeding }).2.2, 0 ≤ a ∧ a ≤ 1 :=
  ForwardFourier_phase_range 2 (by decide) (by decide) ChannelType.GrayChannels Image.gray2
    Image.gray2
    { channel_magnitude_info := true, channel_phase_info := true, source_info := true,
      image_view := CacheView.succeeding, destination_info := true,
      magnitude := [1, 0, 0, 0], phase := [0, 0, 0, 0],
      magnitude_info := true, phase_info := true,
      roll_info_magnitude := some (fun _ => 0), roll_info_phase := some (fun _ => 0),
      magnitude_view := CacheView.succeeding, phase_view := CacheView.succeeding }
    rfl rfl rfl
    (fun a ha => by
      have h0 : a = 0 := by simpa using ha
      rw [h0]
      exact ⟨neg_nonpos.mpr Real.pi_pos.le, Real.pi_pos.le⟩)

/-! ## The sign correction of the left half-plane -/

theorem mod_of_row (W y j : Nat) (h1 : y * W ≤ j) (h2 : j < y * W + W) :
    j % W = j - y * W := by
  have e : j = (j - y * W) + y * W := by omega
  conv_lhs => rw [e]
  rw [Nat.add_mul_mod_self_right, Nat.mod_eq_of_lt (by omega)]

/-- A loop that rewrites the cells `base`, ..., `base+n-1` of a block in place
by `f` leaves the other cells as they are. -/
theorem forLoop_modify_row (f : α → α) (base n : Nat) (idx : Nat → Int)
    (hidx : ∀ k, idx k = ((base + k : Nat) : Int)) (l : List α) :
    ∀ j : Nat, (forLoop 0 n (fun x fourier =>
        store fourier (idx x) ((load fourier (idx x)).map f)) l)[j]?
      = if base ≤ j ∧ j < base + n then (l[j]?).map f else l[j]? := by
  have key := forLoop_invariant
    (fun k (st : List α) => ∀ j : Nat,
      st[j]? = if base ≤ j ∧ j < base + k then (l[j]?).map f else l[j]?)
    0 n (fun x fourier => store fourier (idx x) ((load fourier (idx x)).map f)) l
    (Nat.zero_le _)
    (by intro j; rw [if_neg (by omega)])
    (by
      intro k st _ _ hP j
      simp only
      rw [hidx k, load_natCast]
      have hk : st[base + k]? = l[base + k]? := by rw [hP, if_neg (by omega)]
      cases hl : l[base + k]? with
      | none =>
        rw [hk, hl]
        simp only [Option.map_none', store]
        rw [hP j]
        by_cases hj : j = base + k
        · subst hj
          rw [hl]
          simp
        · by_cases c : base ≤ j ∧ j < base + k
          · rw [if_pos c, if_pos (by omega)]
          · rw [if_neg c, if_neg (by omega)]
      | some a =>
        rw [hk, hl]
        simp only [Option.map_some']
        rw [store_natCast, List.getElem?_set]
        have hlt : base + k < st.length := by
          rcases Nat.lt_or_ge (base + k) st.length with h | h
          · exact h
          · rw [List.getElem?_eq_none h, hl] at hk
            exact absurd hk (by simp)
        by_cases hj : base + k = j
        · subst hj
          rw [if_pos rfl, if_pos hlt, if_pos (by omega), hl]
          rfl
        · rw [if_neg hj, hP j]
          by_cases c : base ≤ j ∧ j < base + k
          · rw [if_pos c, if_pos (by omega)]
          · rw [if_neg c, if_neg (by omega)])
  exact key

/-- The cells of the block left by `CorrectPhaseLHS`. -/
theorem CorrectPhaseLHS_getElem [Ring α] (W H : Nat) (buf : List α) (j : Nat) :
    (CorrectPhaseLHS W H buf)[j]?
      = if j < H * W ∧ j % W < W / 2 then (buf[j]?).map (fun a => a * (-1)) else buf[j]? := by
  have key := forLoop_invariant
    (fun y (st : List α) => ∀ j : Nat,
      st[j]? = if j < y * W ∧ j % W < W / 2 then (buf[j]?).map (fun a => a * (-1))
        else buf[j]?)
    0 H (fun y fourier =>
      forLoop 0 (W / 2) (fun x fourier =>
        store fourier ((y : Int) * (W : Int) + (x : Int))
          ((load fourier ((y : Int) * (W : Int) + (x : Int))).map (fun a => a * (-1))))
        fourier) buf
    (Nat.zero_le _)
    (by intro j; rw [if_neg (by omega)])
    (by
      intro y st _ _ hP j
      simp only
      rw [forLoop_modify_row (fun a => a * (-1)) (y * W) (W / 2)
        (fun x => (y : Int) * (W : Int) + (x : Int)) (fun k => by push_cast; ring) st j]
      have hsucc : (y + 1) * W = y * W + W := by ring
      by_cases c : y * W ≤ j ∧ j < y * W + W / 2
      · have hm := mod_of_row W y j c.1 (by omega)
        rw [if_pos c, hP j, if_neg (by omega), if_pos (by omega)]
      · rw [if_neg c, hP j]
        by_cases c2 : j < y * W ∧ j % W < W / 2
        · rw [if_pos c2, if_pos (by omega)]
        · rw [if_neg c2, if_neg]
          intro h
          by_cases c3 : j < y * W
          · exact c2 ⟨c3, h.2⟩
          · have hm := mod_of_row W y j (by omega) (by omega)
            omega)
  exact key j

theorem CorrectPhaseLHS_length [Ring α] (W H : Nat) (buf : List α) :
    (CorrectPhaseLHS W H buf).length = buf.length := by
  unfold CorrectPhaseLHS
  apply forLoop_preserves (fun l : List α => l.length = buf.length) _ _ _ _ rfl
  intro y l hl
  apply forLoop_preserves (fun l : List α => l.length = buf.length) _ _ _ _ hl
  intro x l hl
  rw [length_store, hl]

/-- C23: for every `W`, `H` and every block of `W*H` values,
`CorrectPhaseLHS(W,H,buf)` replaces the cell in row `y` and column `x` by its
opposite when `x < W/2` and leaves it unchanged when `x ≥ W/2`; applied twice it
gives back the original block. -/
theorem CorrectPhaseLHS_negates_left_half [Ring α] (W H : Nat) (buf : List α)
    (hlen : buf.length = W * H) :
    (CorrectPhaseLHS W H buf).length = W * H
      ∧ (∀ y x : Nat, y < H → x < W →
          (CorrectPhaseLHS W H buf)[y * W + x]?
            = if x < W / 2 then (buf[y * W + x]?).map (fun a => -a) else buf[y * W + x]?)
      ∧ CorrectPhaseLHS W H (CorrectPhaseLHS W H buf) = buf := by
  refine ⟨by rw [CorrectPhaseLHS_length, hlen], ?_, ?_⟩
  · intro y x hy hx
    rw [CorrectPhaseLHS_getElem]
    have hm : (y * W + x) % W = x := by
      rw [mod_of_row W y (y * W + x) (by omega) (by omega)]
      omega
    have hlt : y * W + x < H * W := index_lt W H y x hy hx
    rw [hm]
    by_cases c : x < W / 2
    · rw [if_pos ⟨hlt, c⟩, if_pos c]
      congr 1
      funext a
      exact mul_neg_one a
    · rw [if_neg (fun h => c h.2), if_neg c]
  · apply List.ext_getElem?
    intro j
    rw [CorrectPhaseLHS_getElem, CorrectPhaseLHS_getElem]
    by_cases c : j < H * W ∧ j % W < W / 2
    · rw [if_pos c, if_pos c, Option.map_map]
      cases buf[j]? with
      | none => rfl
      | some a => simp
    · rw [if_neg c, if_neg c]

/-! ## Bounds of the roll offsets -/

theorem RollFourier_v_bounds_iff (height : Nat) (hH : 1 ≤ height) (y_offset : Int) :
    (∀ y : Nat, y < height →
        0 ≤ RollFourier_v height y_offset y ∧ RollFourier_v height y_offset y < (height : Int))
      ↔ (-(height : Int) ≤ y_offset ∧ y_offset ≤ (height : Int)) := by
  constructor
  · intro h
    have h0 := h 0 (by omega)
    have h1 := h (height - 1) (by omega)
    have e : ((height - 1 : Nat) : Int) = (height : Int) - 1 := by omega
    unfold RollFourier_v at h0 h1
    rw [e] at h1
    simp only [Nat.cast_zero, zero_add] at h0
    split_ifs at h0 h1 <;> omega
  · intro h y hy
    exact RollFourier_v_bounds height y_offset y hy h.1 h.2

/-- C27: for `W ≥ 1` and `H ≥ 1`, the target row `v` computed by `RollFourier`
lies in `[0,H)` for every source row `y` of `[0,H)` exactly when
`-H ≤ y_offset ≤ H`, the target column `u` lies in `[0,W)` for every `x` of
`[0,W)` exactly when `-W ≤ x_offset ≤ W`, and within those bounds every write
index `v*W+u` lies in `[0,W*H)`. -/
theorem RollFourier_wraps_at_most_once (W H : Nat) (hW : 1 ≤ W) (hH : 1 ≤ H)
    (x_offset y_offset : Int) :
    ((∀ y : Nat, y < H →
          0 ≤ RollFourier_v H y_offset y ∧ RollFourier_v H y_offset y < (H : Int))
        ↔ (-(H : Int) ≤ y_offset ∧ y_offset ≤ (H : Int)))
      ∧ ((∀ x : Nat, x < W →
          0 ≤ RollFourier_u W x_offset x ∧ RollFourier_u W x_offset x < (W : Int))
        ↔ (-(W : Int) ≤ x_offset ∧ x_offset ≤ (W : Int)))
      ∧ (-(H : Int) ≤ y_offset ∧ y_offset ≤ (H : Int) →
          -(W : Int) ≤ x_offset ∧ x_offset ≤ (W : Int) →
          ∀ y x : Nat, y < H → x < W →
            0 ≤ RollFourier_v H y_offset y * (W : Int) + RollFourier_u W x_offset x
              ∧ RollFourier_v H y_offset y * (W : Int) + RollFourier_u W x_offset x
                < (W : Int) * (H : Int)) := by
  refine ⟨RollFourier_v_bounds_iff H hH y_offset, RollFourier_v_bounds_iff W hW x_offset, ?_⟩
  intro hy_off hx_off y x hy hx
  have hv := RollFourier_v_bounds H y_offset y hy hy_off.1 hy_off.2
  have hu := RollFourier_v_bounds W x_offset x hx hx_off.1 hx_off.2
  rw [RollFourier_u_eq_v]
  generalize RollFourier_v H y_offset y = v at hv
  generalize RollFourier_v W x_offset x = u at hu
  have h1 : 0 ≤ v * (W : Int) := mul_nonneg hv.1 (by omega)
  have h2 : (v + 1) * (W : Int) ≤ (H : Int) * (W : Int) :=
    mul_le_mul_of_nonneg_right (by omega) (by omega)
  have h3 : (v + 1) * (W : Int) = v * (W : Int) + (W : Int) := by ring
  have h4 : (W : Int) * (H : Int) = (H : Int) * (W : Int) := by ring
  constructor <;> omega

/-! ## The padding decision applied twice -/

theorem land_one_eq_mod (n : Nat) : (n &&& 0x01 = 1) ↔ n % 2 = 1 := by
  rw [Nat.and_one_is_mod]

/-- C29: if `s` is the side chosen by the padding decision for an image, the
padding decision applied to an `s`×`s` image chooses `s` again, and every image
returned by `ForwardFourierTransformImage` (the magnitude image and the phase
image) gives `InverseFourierTransformChannel` a plan with the width, the
height and the centre of the plan of `ForwardFourierTransformChannel`. -/
theorem padding_idempotent (image : Image) (IsGrayImage : Image → Bool)
    (acquired_magnitude acquired_phase : Bool) (transform : ChannelType → Bool)
    (channel : ChannelType) (modulus : Bool) :
    ForwardFourierTransformImage_width
        { image with columns := ForwardFourierTransformImage_width image,
                     rows := ForwardFourierTransformImage_width image }
        = ForwardFourierTransformImage_width image
      ∧ ∀ fourier_image ∈ (ForwardFourierTransformImage image IsGrayImage
            acquired_magnitude acquired_phase transform).1,
          fourier_image.columns = ForwardFourierTransformImage_width image
            ∧ fourier_image.rows = ForwardFourierTransformImage_width image
            ∧ (InverseFourierTransformChannel_fourier_info fourier_image channel modulus).width
              = (ForwardFourierTransformChannel_fourier_info image channel modulus).width
            ∧ (InverseFourierTransformChannel_fourier_info fourier_image channel modulus).height
              = (ForwardFourierTransformChannel_fourier_info image channel modulus).height
            ∧ (InverseFourierTransformChannel_fourier_info fourier_image channel modulus).center
              = (ForwardFourierTransformChannel_fourier_info image channel modulus).center := by
  have hs : ForwardFourierTransformImage_width image % 2 = 0 := by
    unfold ForwardFourierTransformImage_width
    simp only [land_one_eq_mod]
    split_ifs <;> omega
  have hside : ∀ m : Image, m.columns = ForwardFourierTransformImage_width image →
      m.rows = ForwardFourierTransformImage_width image →
      ForwardFourierTransformImage_width m = ForwardFourierTransformImage_width image := by
    intro m hc hr
    have hno : ¬ (m.columns ≠ m.rows ∨ m.columns % 2 ≠ 0 ∨ m.rows % 2 ≠ 0) := by
      rw [hc, hr]
      omega
    conv_lhs => unfold ForwardFourierTransformImage_width
    rw [if_neg hno, hc]
  refine ⟨hside _ rfl rfl, ?_⟩
  intro m hm
  have hshape : m.columns = ForwardFourierTransformImage_width image
      ∧ m.rows = ForwardFourierTransformImage_width image := by
    unfold ForwardFourierTransformImage CloneImage at hm
    cases acquired_magnitude <;> cases acquired_phase <;>
      simp only [Bool.false_eq_true, if_false, if_true, List.not_mem_nil] at hm
    split_ifs at hm
    · simp at hm
    · simp only [List.mem_cons, List.mem_singleton, List.not_mem_nil, or_false] at hm
      rcases hm with h | h <;> rw [h] <;> exact ⟨rfl, rfl⟩
  have hw := hside m hshape.1 hshape.2
  have e1 : (InverseFourierTransformChannel_fourier_info m channel modulus).width
      = ForwardFourierTransformImage_width m := rfl
  have e2 : (ForwardFourierTransformChannel_fourier_info image channel modulus).width
      = ForwardFourierTransformImage_width image := rfl
  have e3 : (InverseFourierTransformChannel_fourier_info m channel modulus).height
      = ForwardFourierTransformImage_width m := rfl
  have e4 : (ForwardFourierTransformChannel_fourier_info image channel modulus).height
      = ForwardFourierTransformImage_width image := rfl
  have e5 : (InverseFourierTransformChannel_fourier_info m channel modulus).center
      = ((ForwardFourierTransformImage_width m / 2 : Nat) : Int) + 1 := rfl
  have e6 : (ForwardFourierTransformChannel_fourier_info image channel modulus).center
      = ((ForwardFourierTransformImage_width image / 2 : Nat) : Int) + 1 := rfl
  refine ⟨hshape.1, hshape.2, ?_, ?_, ?_⟩
  · rw [e1, e2, hw]
  · rw [e3, e4, hw]
  · rw [e5, e6, hw]

/-! ## The left half-plane and the centre of the display -/

/-- C21, on the code: at side 4, for every half-spectrum `a0..a11` (rolled:
`a6 a7 a8 / a9 a10 a11 / a0 a1 a2 / a3 a4 a5`) and every initial content
`d0..d15` of the destination, `ForwardQuadrantSwap` writes in the left
half-plane only the cells `dst[1][1]`, `dst[2][1]`, `dst[3][1]` from the
half-spectrum; column 0 of rows 1 to 3 keeps its initial content, and row 0
receives `dst[0][1] = d3` and `dst[0][0] = d4`, initial contents of other
cells, where the mirror would put `r[0][1] = a7` and `r[0][2] = a8`. -/
theorem left_half_plane_misses_first_column (junk : Nat → α)
    (a0 a1 a2 a3 a4 a5 a6 a7 a8 a9 a10 a11 : α)
    (d0 d1 d2 d3 d4 d5 d6 d7 d8 d9 d10 d11 d12 d13 d14 d15 : α) :
    ForwardQuadrantSwap 4 4 (some junk) [a0, a1, a2, a3, a4, a5, a6, a7, a8, a9, a10, a11]
        [d0, d1, d2, d3, d4, d5, d6, d7, d8, d9, d10, d11, d12, d13, d14, d15]
      = (true, [a6, a7, a8, a9, a10, a11, a0, a1, a2, a3, a4, a5],
          [d4, d3, a6, d3, d4, a4, a9, d7, d8, a1, a0, d11, d12, a10, a3, d15]) := by
  simp [ForwardQuadrantSwap, RollFourier, RollFourier_loops, forLoop, List.range',
    load, store, GetVirtualMemoryBlob, CopyMagickMemory, RollFourier_v, RollFourier_u,
    (by decide : Int.tdiv 4 2 = 2),
    (by decide : List.range 12 = [0, 1, 2, 3, 4, 5, 6, 7, 8, 9, 10, 11])]

/-- C22, on the code: at side 2, for every half-spectrum `a0..a3` and every
initial content `d0..d3` of the destination, `ForwardQuadrantSwap` writes no
cell from the half-spectrum: the centre `dst[1][1]` keeps its initial content
`d3` and does not receive the DC coefficient `a0`. -/
theorem dc_not_centred_at_side_2 (junk : Nat → α) (a0 a1 a2 a3 d0 d1 d2 d3 : α) :
    ForwardQuadrantSwap 2 2 (some junk) [a0, a1, a2, a3] [d0, d1, d2, d3]
      = (true, [a2, a3, a0, a1], [d2, d1, d2, d3]) := by
  simp [ForwardQuadrantSwap, RollFourier, RollFourier_loops, forLoop, List.range',
    load, store, GetVirtualMemoryBlob, CopyMagickMemory, RollFourier_v, RollFourier_u,
    (by decide : Int.tdiv 2 2 = 1),
    (by decide : List.range 4 = [0, 1, 2, 3])]

/-! ## Copy loops -/

theorem load_store_same (block : List α) (i : Int) (a : α) (h0 : 0 ≤ i)
    (h1 : i < (block.length : Int)) : load (store block i (some a)) i = some a := by
  have hlt : i.toNat < block.length := by omega
  simp only [load, store, if_pos h0]
  rw [List.getElem?_set_self hlt]

theorem load_store_other (block : List α) (i j : Int) (value : Option α) (h : i ≠ j) :
    load (store block i value) j = load block j := by
  cases value with
  | none => rfl
  | some a =>
    by_cases hi : 0 ≤ i
    · by_cases hj : 0 ≤ j
      · simp only [load, store, if_pos hi, if_pos hj]
        rw [List.getElem?_set_ne (by omega)]
      · simp only [load, if_neg hj]
    · simp only [store, if_neg hi]

theorem load_isSome (block : List α) (i : Int) (h0 : 0 ≤ i) (h1 : i < (block.length : Int)) :
    ∃ a, load block i = some a := by
  have hlt : i.toNat < block.length := by omega
  exact ⟨block[i.toNat], by simp only [load, if_pos h0]; exact List.getElem?_eq_getElem hlt⟩

/-- A loop of assignments `block[w x]=value` to pairwise distinct cells inside
the block, each value being determined as soon as the cells outside the set of
written cells hold their initial content: every written cell ends with its
value and every other cell keeps its content. -/
theorem store_loop_spec (w : Nat → Int) (val : Nat → List α → Option α)
    (v : Nat → Option α) (d0 : List α) (lo hi : Nat)
    (hinj : ∀ x x', lo ≤ x → x < hi → lo ≤ x' → x' < hi → w x = w x' → x = x')
    (hw : ∀ x, lo ≤ x → x < hi → 0 ≤ w x ∧ w x < (d0.length : Int))
    (hsome : ∀ x, lo ≤ x → x < hi → ∃ a, v x = some a)
    (hval : ∀ x d, lo ≤ x → x < hi → d.length = d0.length →
      (∀ j, (∀ x', lo ≤ x' → x' < hi → w x' ≠ j) → load d j = load d0 j) →
      val x d = v x) :
    (forLoop lo hi (fun x d => store d (w x) (val x d)) d0).length = d0.length
      ∧ (∀ x, lo ≤ x → x < hi →
          load (forLoop lo hi (fun x d => store d (w x) (val x d)) d0) (w x) = v x)
      ∧ (∀ j, (∀ x, lo ≤ x → x < hi → w x ≠ j) →
          load (forLoop lo hi (fun x d => store d (w x) (val x d)) d0) j = load d0 j) := by
  rcases Nat.lt_or_ge hi lo with hlt | hle
  · rw [forLoop_empty lo hi _ d0 (by omega)]
    exact ⟨rfl, fun x h1 h2 => by omega, fun j _ => rfl⟩
  have key := forLoop_invariant
    (fun k (st : List α) => st.length = d0.length
      ∧ (∀ x, lo ≤ x → x < k → load st (w x) = v x)
      ∧ (∀ j, (∀ x, lo ≤ x → x < k → w x ≠ j) → load st j = load d0 j))
    lo hi (fun x d => store d (w x) (val x d)) d0 hle
    ⟨rfl, fun x h1 h2 => by omega, fun j _ => rfl⟩
    (by
      intro k st hk1 hk2 hP
      obtain ⟨hlen, hdone, hrest⟩ := hP
      have hv : val k st = v k := hval k st hk1 hk2 hlen
        (fun j hj => hrest j (fun x h1 h2 => hj x h1 (by omega)))
      obtain ⟨a, ha⟩ := hsome k hk1 hk2
      have hwk := hw k hk1 hk2
      simp only
      rw [hv, ha]
      refine ⟨by rw [length_store, hlen], ?_, ?_⟩
      · intro x h1 h2
        rcases Nat.lt_or_ge x k with hx | hx
        · have hne : w k ≠ w x := fun e => by
            have := hinj k x hk1 hk2 h1 (by omega) e
            omega
          rw [load_store_other _ _ _ _ hne]
          exact hdone x h1 hx
        · have e : x = k := by omega
          subst e
          rw [load_store_same _ _ _ hwk.1 (by rw [hlen]; exact hwk.2)]
          exact ha.symm
      · intro j hj
        have hne : w k ≠ j := hj k hk1 (by omega)
        rw [load_store_other _ _ _ _ hne]
        exact hrest j (fun x h1 h2 => hj x h1 (by omega)))
  exact key

/-- Two nested loops of assignments `block[w y x]=value` to pairwise distinct
cells inside the block: every written cell ends with its value and every other
cell keeps its content. -/
theorem store_loop2_spec (w : Nat → Nat → Int) (val : Nat → Nat → List α → Option α)
    (v : Nat → Nat → Option α) (d0 : List α) (ylo yhi xlo xhi : Nat)
    (hinj : ∀ y x y' x', ylo ≤ y → y < yhi → xlo ≤ x → x < xhi →
      ylo ≤ y' → y' < yhi → xlo ≤ x' → x' < xhi → w y x = w y' x' → y = y' ∧ x = x')
    (hw : ∀ y x, ylo ≤ y → y < yhi → xlo ≤ x → x < xhi →
      0 ≤ w y x ∧ w y x < (d0.length : Int))
    (hsome : ∀ y x, ylo ≤ y → y < yhi → xlo ≤ x → x < xhi → ∃ a, v y x = some a)
    (hval : ∀ y x d, ylo ≤ y → y < yhi → xlo ≤ x → x < xhi → d.length = d0.length →
      (∀ j, (∀ y' x', ylo ≤ y' → y' < yhi → xlo ≤ x' → x' < xhi → w y' x' ≠ j) →
        load d j = load d0 j) →
      val y x d = v y x) :
    (forLoop ylo yhi (fun y d =>
        forLoop xlo xhi (fun x d => store d (w y x) (val y x d)) d) d0).length = d0.length
      ∧ (∀ y x, ylo ≤ y → y < yhi → xlo ≤ x → x < xhi →
          load (forLoop ylo yhi (fun y d =>
            forLoop xlo xhi (fun x d => store d (w y x) (val y x d)) d) d0) (w y x) = v y x)
      ∧ (∀ j, (∀ y x, ylo ≤ y → y < yhi → xlo ≤ x → x < xhi → w y x ≠ j) →
          load (forLoop ylo yhi (fun y d =>
            forLoop xlo xhi (fun x d => store d (w y x) (val y x d)) d) d0) j
            = load d0 j) := by
  rcases Nat.lt_or_ge yhi ylo with hlt | hle
  · rw [forLoop_empty ylo yhi _ d0 (by omega)]
    exact ⟨rfl, fun y x h1 h2 => by omega, fun j _ => rfl⟩
  have key := forLoop_invariant
    (fun k (st : List α) => st.length = d0.length
      ∧ (∀ y x, ylo ≤ y → y < k → xlo ≤ x → x < xhi → load st (w y x) = v y x)
      ∧ (∀ j, (∀ y x, ylo ≤ y → y < k → xlo ≤ x → x < xhi → w y x ≠ j) →
          load st j = load d0 j))
    ylo yhi (fun y d => forLoop xlo xhi (fun x d => store d (w y x) (val y x d)) d) d0 hle
    ⟨rfl, fun y x h1 h2 => by omega, fun j _ => rfl⟩
    (by
      intro k st hk1 hk2 hP
      obtain ⟨hlen, hdone, hrest⟩ := hP
      obtain ⟨ilen, idone, irest⟩ := store_loop_spec (w k) (val k) (v k) st xlo xhi
        (fun x x' h1 h2 h3 h4 e => (hinj k x k x' hk1 hk2 h1 h2 hk1 hk2 h3 h4 e).2)
        (fun x h1 h2 => by rw [hlen]; exact hw k x hk1 hk2 h1 h2)
        (fun x h1 h2 => hsome k x hk1 hk2 h1 h2)
        (fun x d h1 h2 hd hagree => hval k x d hk1 hk2 h1 h2 (by rw [hd, hlen])
          (fun j hj => by
            rw [hagree j (fun x' h3 h4 => hj k x' hk1 hk2 h3 h4)]
            exact hrest j (fun y' x' g1 g2 g3 g4 => hj y' x' g1 (by omega) g3 g4)))
      simp only
      refine ⟨by rw [ilen, hlen], ?_, ?_⟩
      · intro y x h1 h2 h3 h4
        rcases Nat.lt_or_ge y k with hy | hy
        · rw [irest (w y x) (fun x' g1 g2 e => by
            have := hinj k x' y x hk1 hk2 g1 g2 h1 (by omega) h3 h4 e
            omega)]
          exact hdone y x h1 hy h3 h4
        · have e : y = k := by omega
          subst e
          exact idone x h3 h4
      · intro j hj
        rw [irest j (fun x' g1 g2 => hj k x' hk1 (by omega) g1 g2)]
        exact hrest j (fun y' x' g1 g2 g3 g4 => hj y' x' g1 (by omega) g3 g4))
  exact key

/-! ## Cell arithmetic -/

theorem cell_inj (N a b a' b' : Int) (hb : 0 ≤ b) (hb2 : b < N) (hb' : 0 ≤ b')
    (hb2' : b' < N) (h : a * N + b = a' * N + b') : a = a' ∧ b = b' := by
  have ha : a = a' := by
    rcases lt_trichotomy a a' with hlt | heq | hgt
    · have h1 : (a + 1) * N ≤ a' * N := mul_le_mul_of_nonneg_right (by omega) (by omega)
      have e : (a + 1) * N = a * N + N := by ring
      omega
    · exact heq
    · have h1 : (a' + 1) * N ≤ a * N := mul_le_mul_of_nonneg_right (by omega) (by omega)
      have e : (a' + 1) * N = a' * N + N := by ring
      omega
  subst ha
  exact ⟨rfl, by omega⟩

theorem cell_lt (N H a b : Int) (ha : 0 ≤ a) (ha2 : a < H) (hb : 0 ≤ b) (hb2 : b < N) :
    0 ≤ a * N + b ∧ a * N + b < H * N := by
  have h0 : 0 ≤ a * N := mul_nonneg ha (by omega)
  have h1 : (a + 1) * N ≤ H * N := mul_le_mul_of_nonneg_right (by omega) (by omega)
  have e : (a + 1) * N = a * N + N := by ring
  constructor <;> omega

theorem load_replicate (n : Nat) (a : α) (j : Int) (h0 : 0 ≤ j) (h1 : j < (n : Int)) :
    load (List.replicate n a) j = some a := by
  have hlt : j.toNat < n := by omega
  simp only [load, if_pos h0]
  rw [List.getElem?_replicate, if_pos hlt]

/-- Rolling the rows of a block of `2*h` rows by `h` or by `-h` moves row `y`
to row `y+h` when `y < h` and to row `y-h` otherwise. -/
theorem RollFourier_index_half (h y c : Nat) (hy : y < 2 * h) (hc : c < h + 1) (dy : Int)
    (hdy : dy = (h : Int) ∨ dy = -(h : Int)) :
    RollFourier_index (h + 1) (2 * h) 0 dy y c
      = (if y < h then y + h else y - h) * (h + 1) + c := by
  have s := (RollFourier_index_spec (h + 1) (2 * h) 0 dy y c hy hc (by omega) (by omega)
    (by rcases hdy with e | e <;> omega) (by rcases hdy with e | e <;> omega)).2.1
  have hv : (RollFourier_v (2 * h) dy y).toNat = if y < h then y + h else y - h := by
    unfold RollFourier_v
    rcases hdy with e | e <;> subst e <;> split_ifs <;> omega
  have hu : (RollFourier_u (h + 1) 0 c).toNat = c := by
    unfold RollFourier_u
    split_ifs <;> omega
  rw [s, hv, hu]

theorem RollFourier_status (W H : Nat) (dx dy : Int) (junk : Nat → α) (buf : List α) :
    (RollFourier W H dx dy (some junk) buf).1 = true := rfl

/-- The three copy loops of `ForwardQuadrantSwap` at the even width `2*h`,
once the scratch block of the roll is acquired. -/
theorem ForwardQuadrantSwap_unfold (h H : Nat) (junk : Nat → α) (src d0 : List α) :
    ForwardQuadrantSwap (2 * h) H (some junk) src d0
      = (true, (RollFourier (h + 1) H 0 (Int.tdiv (H : Int) 2) (some junk) src).2,
          forLoop 0 h (fun x d =>
            store d (-(x : Int) + (h : Int) - 1) (load d ((x : Int) + (h : Int) + 1)))
          (forLoop 1 H (fun y d =>
            forLoop 0 (h - 1) (fun x d =>
              store d (2 * (h : Int) * ((H : Int) - (y : Int)) + (h : Int) - (x : Int) - 1)
                (load (RollFourier (h + 1) H 0 (Int.tdiv (H : Int) 2) (some junk) src).2
                  (((h : Int) + 1) * (y : Int) + (x : Int) + 1))) d)
          (forLoop 0 H (fun y d =>
            forLoop 0 (h - 1) (fun x d =>
              store d (2 * (h : Int) * (y : Int) + (x : Int) + (h : Int))
                (load (RollFourier (h + 1) H 0 (Int.tdiv (H : Int) 2) (some junk) src).2
                  (((h : Int) + 1) * (y : Int) + (x : Int)))) d) d0))) := by
  have e : 2 * h / 2 = h := Nat.mul_div_cancel_left h (by decide)
  simp only [ForwardQuadrantSwap, e, RollFourier_status, Bool.true_eq_false, if_false]
  push_cast
  rfl

/-- The display left by `ForwardQuadrantSwap` at the even side `2*h ≥ 4`: the
cells copied from the rolled half-spectrum `r` and the cells that keep the
initial content of the destination. -/
theorem ForwardQuadrantSwap_display (h : Nat) (hh : 2 ≤ h) (junk : Nat → α)
    (half d0 : List α) (hhalf : half.length = 2 * h * (h + 1))
    (hd0 : d0.length = 2 * h * (2 * h)) :
    ∃ r S : List α, ForwardQuadrantSwap (2 * h) (2 * h) (some junk) half d0 = (true, r, S)
      ∧ r = (RollFourier (h + 1) (2 * h) 0 (Int.tdiv ((2 * h : Nat) : Int) 2) (some junk)
          half).2
      ∧ S.length = 2 * h * (2 * h)
      ∧ (∀ y x : Nat, y < 2 * h → x + 1 < h →
          load S ((y : Int) * (2 * (h : Int)) + ((h : Int) + (x : Int)))
            = load r ((y : Int) * ((h : Int) + 1) + (x : Int)))
      ∧ (∀ y k : Nat, 1 ≤ y → y < 2 * h → 1 ≤ k → k < h →
          load S ((y : Int) * (2 * (h : Int)) + ((h : Int) - (k : Int)))
            = load r ((2 * (h : Int) - (y : Int)) * ((h : Int) + 1) + (k : Int)))
      ∧ (∀ y : Nat, 1 ≤ y → y < 2 * h →
          load S ((y : Int) * (2 * (h : Int)) + 0) = load d0 ((y : Int) * (2 * (h : Int)) + 0))
      ∧ (∀ k : Nat, 1 ≤ k → k + 1 < h → load S ((h : Int) - (k : Int)) = load r (k : Int))
      ∧ load S 1 = load d0 (2 * (h : Int) - 1)
      ∧ load S 0 = load d0 (2 * (h : Int))
      ∧ (∀ y : Nat, y < 2 * h →
          load S ((y : Int) * (2 * (h : Int)) + (2 * (h : Int) - 1))
            = load d0 ((y : Int) * (2 * (h : Int)) + (2 * (h : Int) - 1))) := by
  have htdiv : Int.tdiv ((2 * h : Nat) : Int) 2 = (h : Int) := by
    rw [Int.tdiv_eq_ediv (by omega) (by omega)]
    omega
  obtain ⟨_, hrlen, _⟩ := RollFourier_spec (h + 1) (2 * h) 0
    (Int.tdiv ((2 * h : Nat) : Int) 2) (by omega) (by omega) (by rw [htdiv]; omega)
    (by rw [htdiv]; omega) junk half hhalf
  rw [ForwardQuadrantSwap_unfold]
  generalize (RollFourier (h + 1) (2 * h) 0 (Int.tdiv ((2 * h : Nat) : Int) 2) (some junk)
    half).2 = r at hrlen ⊢
  have hrl : (r.length : Int) = 2 * (h : Int) * ((h : Int) + 1) := by
    rw [hrlen]; push_cast; ring
  have hdl : (d0.length : Int) = 2 * (h : Int) * (2 * (h : Int)) := by
    rw [hd0]; push_cast; ring
  have hN : (2 : Int) * (2 * (h : Int)) ≤ 2 * (h : Int) * (2 * (h : Int)) :=
    mul_le_mul_of_nonneg_right (by omega) (by omega)
  -- first loop: the right half-plane
  obtain ⟨l1, c1, u1⟩ := store_loop2_spec
    (fun y x => 2 * (h : Int) * (y : Int) + (x : Int) + (h : Int))
    (fun y x _ => load r (((h : Int) + 1) * (y : Int) + (x : Int)))
    (fun y x => load r (((h : Int) + 1) * (y : Int) + (x : Int)))
    d0 0 (2 * h) 0 (h - 1)
    (fun y x y' x' _ hy _ hx _ hy' _ hx' e => by
      beta_reduce at e
      have := cell_inj (2 * (h : Int)) (y : Int) ((x : Int) + h) (y' : Int) ((x' : Int) + h)
        (by omega) (by omega) (by omega) (by omega) (by linarith)
      omega)
    (fun y x _ hy _ hx => by
      beta_reduce
      have := cell_lt (2 * (h : Int)) (2 * (h : Int)) (y : Int) ((x : Int) + h)
        (by omega) (by omega) (by omega) (by omega)
      rw [hdl]
      constructor <;> linarith)
    (fun y x _ hy _ hx => by
      have := cell_lt ((h : Int) + 1) (2 * (h : Int)) (y : Int) (x : Int)
        (by omega) (by omega) (by omega) (by omega)
      exact load_isSome r _ (by linarith) (by rw [hrl]; linarith))
    (fun _ _ _ _ _ _ _ _ _ => rfl)
  generalize forLoop 0 (2 * h) (fun y d =>
      forLoop 0 (h - 1) (fun x d =>
        store d (2 * (h : Int) * (y : Int) + (x : Int) + (h : Int))
          (load r (((h : Int) + 1) * (y : Int) + (x : Int)))) d) d0 = S1 at l1 c1 u1 ⊢
  -- second loop: the left half-plane of the rows 1 to 2*h-1
  obtain ⟨l2, c2, u2⟩ := store_loop2_spec
    (fun y x => 2 * (h : Int) * (((2 * h : Nat) : Int) - (y : Int)) + (h : Int) - (x : Int) - 1)
    (fun y x _ => load r (((h : Int) + 1) * (y : Int) + (x : Int) + 1))
    (fun y x => load r (((h : Int) + 1) * (y : Int) + (x : Int) + 1))
    S1 1 (2 * h) 0 (h - 1)
    (fun y x y' x' _ hy _ hx _ hy' _ hx' e => by
      beta_reduce at e
      have := cell_inj (2 * (h : Int)) (2 * (h : Int) - (y : Int)) ((h : Int) - x - 1)
        (2 * (h : Int) - (y' : Int)) ((h : Int) - x' - 1)
        (by omega) (by omega) (by omega) (by omega) (by push_cast at e; linarith)
      omega)
    (fun y x hy1 hy _ hx => by
      beta_reduce
      have := cell_lt (2 * (h : Int)) (2 * (h : Int)) (2 * (h : Int) - (y : Int))
        ((h : Int) - x - 1) (by omega) (by omega) (by omega) (by omega)
      rw [l1, hdl]
      push_cast
      constructor <;> linarith)
    (fun y x _ hy _ hx => by
      have := cell_lt ((h : Int) + 1) (2 * (h : Int)) (y : Int) ((x : Int) + 1)
        (by omega) (by omega) (by omega) (by omega)
      exact load_isSome r _ (by linarith) (by rw [hrl]; linarith))
    (fun _ _ _ _ _ _ _ _ _ => rfl)
  generalize forLoop 1 (2 * h) (fun y d =>
      forLoop 0 (h - 1) (fun x d =>
        store d (2 * (h : Int) * (((2 * h : Nat) : Int) - (y : Int)) + (h : Int) - (x : Int) - 1)
          (load r (((h : Int) + 1) * (y : Int) + (x : Int) + 1))) d) S1 = S2 at l2 c2 u2 ⊢
  have hS2l : (S2.length : Int) = 2 * (h : Int) * (2 * (h : Int)) := by
    rw [l2, l1, hdl]
  -- third loop: the left half of row 0
  obtain ⟨l3, c3, u3⟩ := store_loop_spec
    (fun x => -(x : Int) + (h : Int) - 1)
    (fun x d => load d ((x : Int) + (h : Int) + 1))
    (fun x => load S2 ((x : Int) + (h : Int) + 1))
    S2 0 h
    (fun x x' _ _ _ _ e => by beta_reduce at e; omega)
    (fun x _ hx => by beta_reduce; rw [hS2l]; constructor <;> omega)
    (fun x _ hx => load_isSome S2 _ (by omega) (by rw [hS2l]; omega))
    (fun x d _ hx _ hagree => hagree _ (fun x' _ hx' => by beta_reduce; omega))
  generalize forLoop 0 h (fun x d =>
      store d (-(x : Int) + (h : Int) - 1) (load d ((x : Int) + (h : Int) + 1))) S2
    = S at l3 c3 u3 ⊢
  -- cells outside the sets of written cells
  have a3 : ∀ j : Int, (h : Int) ≤ j → load S j = load S2 j := fun j hj =>
    u3 j (fun x _ hx => by omega)
  have a2 : ∀ a b : Int, 0 ≤ b → b < 2 * (h : Int) → (a = 0 ∨ b = 0 ∨ (h : Int) ≤ b) →
      load S2 (a * (2 * (h : Int)) + b) = load S1 (a * (2 * (h : Int)) + b) :=
    fun a b hb1 hb2 hab => u2 _ (fun y x hy1 hy _ hx e => by
      have := cell_inj (2 * (h : Int)) (2 * (h : Int) - (y : Int)) ((h : Int) - x - 1) a b
        (by omega) (by omega) hb1 hb2 (by push_cast at e; linarith)
      omega)
  have a1 : ∀ a b : Int, 0 ≤ b → b < 2 * (h : Int) → (b < (h : Int) ∨ b = 2 * (h : Int) - 1) →
      load S1 (a * (2 * (h : Int)) + b) = load d0 (a * (2 * (h : Int)) + b) :=
    fun a b hb1 hb2 hab => u1 _ (fun y x _ hy _ hx e => by
      have := cell_inj (2 * (h : Int)) (y : Int) ((x : Int) + h) a b
        (by omega) (by omega) hb1 hb2 (by linarith)
      omega)
  have row : ∀ y : Nat, 1 ≤ y → (2 : Int) * (h : Int) ≤ (y : Int) * (2 * (h : Int)) :=
    fun y hy => by
      have : (1 : Int) * (2 * (h : Int)) ≤ (y : Int) * (2 * (h : Int)) :=
        mul_le_mul_of_nonneg_right (by omega) (by omega)
      linarith
  refine ⟨r, S, rfl, rfl, by rw [l3, l2, l1, hd0], ?_, ?_, ?_, ?_, ?_, ?_, ?_⟩
  · intro y x hy hx
    have hy0 : (0 : Int) ≤ (y : Int) * (2 * (h : Int)) := mul_nonneg (by omega) (by omega)
    rw [a3 _ (by linarith), a2 _ _ (by omega) (by omega) (Or.inr (Or.inr (by omega)))]
    have e := c1 y x (Nat.zero_le _) hy (Nat.zero_le _) (by omega)
    have e1 : 2 * (h : Int) * (y : Int) + (x : Int) + (h : Int)
        = (y : Int) * (2 * (h : Int)) + ((h : Int) + (x : Int)) := by ring
    have e2 : ((h : Int) + 1) * (y : Int) + (x : Int)
        = (y : Int) * ((h : Int) + 1) + (x : Int) := by ring
    rw [e1, e2] at e
    exact e
  · intro y k hy1 hy hk1 hk
    rw [a3 _ (by have := row y hy1; omega)]
    have e := c2 (2 * h - y) (k - 1) (by omega) (by omega) (Nat.zero_le _) (by omega)
    have ey : ((2 * h - y : Nat) : Int) = 2 * (h : Int) - (y : Int) := by omega
    have ek : ((k - 1 : Nat) : Int) = (k : Int) - 1 := by omega
    have eh : ((2 * h : Nat) : Int) = 2 * (h : Int) := by omega
    rw [ey, ek, eh] at e
    have e1 : 2 * (h : Int) * (2 * (h : Int) - (2 * (h : Int) - (y : Int))) + (h : Int)
          - ((k : Int) - 1) - 1
        = (y : Int) * (2 * (h : Int)) + ((h : Int) - (k : Int)) := by ring
    have e2 : ((h : Int) + 1) * (2 * (h : Int) - (y : Int)) + ((k : Int) - 1) + 1
        = (2 * (h : Int) - (y : Int)) * ((h : Int) + 1) + (k : Int) := by ring
    rw [e1, e2] at e
    exact e
  · intro y hy1 hy
    rw [a3 _ (by have := row y hy1; omega),
      a2 _ _ (le_refl _) (by omega) (Or.inr (Or.inl rfl)),
      a1 _ _ (le_refl _) (by omega) (Or.inl (by omega))]
  · intro k hk1 hk
    have e := c3 (k - 1) (Nat.zero_le _) (by omega)
    have ek : ((k - 1 : Nat) : Int) = (k : Int) - 1 := by omega
    rw [ek] at e
    have e1 : -((k : Int) - 1) + (h : Int) - 1 = (h : Int) - (k : Int) := by ring
    have e2 : (k : Int) - 1 + (h : Int) + 1
        = ((0 : Nat) : Int) * (2 * (h : Int)) + ((h : Int) + (k : Int)) := by
      push_cast; ring
    rw [e1, e2, a2 _ _ (by omega) (by omega) (Or.inl (by simp))] at e
    rw [e]
    have f := c1 0 k (le_refl _) (by omega) (Nat.zero_le _) (by omega)
    have f1 : 2 * (h : Int) * ((0 : Nat) : Int) + (k : Int) + (h : Int)
        = ((0 : Nat) : Int) * (2 * (h : Int)) + ((h : Int) + (k : Int)) := by
      push_cast; ring
    have f2 : ((h : Int) + 1) * ((0 : Nat) : Int) + (k : Int) = (k : Int) := by
      push_cast; ring
    rw [f1, f2] at f
    exact f
  · have e := c3 (h - 2) (Nat.zero_le _) (by omega)
    have ek : ((h - 2 : Nat) : Int) = (h : Int) - 2 := by omega
    rw [ek] at e
    have e1 : -((h : Int) - 2) + (h : Int) - 1 = 1 := by ring
    have e2 : (h : Int) - 2 + (h : Int) + 1
        = (0 : Int) * (2 * (h : Int)) + (2 * (h : Int) - 1) := by ring
    rw [e1, e2, a2 _ _ (by omega) (by omega) (Or.inl rfl),
      a1 _ _ (by omega) (by omega) (Or.inr rfl)] at e
    rw [e]
    congr 1
    ring
  · have e := c3 (h - 1) (Nat.zero_le _) (by omega)
    have ek : ((h - 1 : Nat) : Int) = (h : Int) - 1 := by omega
    rw [ek] at e
    have e1 : -((h : Int) - 1) + (h : Int) - 1 = 0 := by ring
    have e2 : (h : Int) - 1 + (h : Int) + 1 = (1 : Int) * (2 * (h : Int)) + 0 := by ring
    rw [e1, e2, a2 _ _ (le_refl _) (by omega) (Or.inr (Or.inl rfl)),
      a1 _ _ (le_refl _) (by omega) (Or.inl (by omega))] at e
    rw [e]
    congr 1
    ring
  · intro y hy
    have hy0 : (0 : Int) ≤ (y : Int) * (2 * (h : Int)) := mul_nonneg (by omega) (by omega)
    rw [a3 _ (by linarith), a2 _ _ (by omega) (by omega) (Or.inr (Or.inr (by omega))),
      a1 _ _ (by omega) (by omega) (Or.inr rfl)]

/-- At every even side `2*h ≥ 4` the DC coefficient `half[0][0]` reaches the
centre `dst[h][h]` of the display. -/
theorem ForwardQuadrantSwap_dc_centre (h : Nat) (hh : 2 ≤ h) (junk : Nat → α)
    (half d0 : List α) (hhalf : half.length = 2 * h * (h + 1))
    (hd0 : d0.length = 2 * h * (2 * h)) :
    (ForwardQuadrantSwap (2 * h) (2 * h) (some junk) half d0).2.2[h * (2 * h) + h]?
      = half[0]? := by
  have htdiv : Int.tdiv ((2 * h : Nat) : Int) 2 = (h : Int) := by
    rw [Int.tdiv_eq_ediv (by omega) (by omega)]
    omega
  obtain ⟨r, S, hF, hr, _, F2, _⟩ := ForwardQuadrantSwap_display h hh junk half d0 hhalf hd0
  obtain ⟨_, _, hroll⟩ := RollFourier_spec (h + 1) (2 * h) 0
    (Int.tdiv ((2 * h : Nat) : Int) 2) (by omega) (by omega) (by rw [htdiv]; omega)
    (by rw [htdiv]; omega) junk half hhalf
  rw [← hr] at hroll
  have v := hroll 0 0 (by omega) (by omega)
  rw [RollFourier_index_half h 0 0 (by omega) (by omega) _ (Or.inl htdiv),
    if_pos (by omega)] at v
  have f := F2 h 0 (by omega) (by omega)
  rw [hF]
  simp only
  rw [← load_natCast S, ← load_natCast r] at *
  push_cast at v f ⊢
  simp only [zero_add, add_zero, zero_mul] at v f ⊢
  rw [f, v]

/-- The three copy loops of `InverseQuadrantSwap` at the even width `2*h`,
followed by the roll. -/
theorem InverseQuadrantSwap_unfold (h H : Nat) (roll_info : Option (Nat → α))
    (src d0 : List α) :
    InverseQuadrantSwap (2 * h) H roll_info src d0
      = RollFourier (h + 1) H 0 (Int.tdiv (H : Int) (-2)) roll_info
          (forLoop 0 (h + 1) (fun x d =>
            store d (x : Int) (load src ((h : Int) + 1 - (x : Int) - 1)))
          (forLoop 0 H (fun y d =>
            store d (((h : Int) + 1) * (y : Int))
              (load src ((y : Int) * (2 * (h : Int)) + (h : Int))))
          (forLoop 1 H (fun y d =>
            forLoop 0 (h + 1) (fun x d =>
              store d (((h : Int) + 1) * ((H : Int) - (y : Int)) - (x : Int) + (h : Int))
                (load src ((y : Int) * (2 * (h : Int)) + (x : Int)))) d) d0))) := by
  have e : 2 * h / 2 = h := Nat.mul_div_cancel_left h (by decide)
  simp only [InverseQuadrantSwap, e]
  push_cast
  rfl

/-- The half-spectrum block built by the three copy loops of
`InverseQuadrantSwap` at the even side `2*h`, before the roll: row 0 is the
left half of row 0 of the display read backwards from column `h`, column 0 is
column `h` of the display, and the cell in row `y ≥ 1` and column `c ≥ 1` is
the cell in row `2*h-y` and column `h-c` of the display. -/
theorem InverseQuadrantSwap_cells (h : Nat) (hh : 1 ≤ h) (roll_info : Option (Nat → α))
    (S d0 : List α) (hS : S.length = 2 * h * (2 * h))
    (hd0 : d0.length = 2 * h * (h + 1)) :
    ∃ D : List α, InverseQuadrantSwap (2 * h) (2 * h) roll_info S d0
        = RollFourier (h + 1) (2 * h) 0 (Int.tdiv ((2 * h : Nat) : Int) (-2)) roll_info D
      ∧ D.length = 2 * h * (h + 1)
      ∧ (∀ c : Nat, c ≤ h → load D (c : Int) = load S ((h : Int) - (c : Int)))
      ∧ (∀ y : Nat, 1 ≤ y → y < 2 * h →
          load D ((y : Int) * ((h : Int) + 1) + 0)
            = load S ((y : Int) * (2 * (h : Int)) + (h : Int)))
      ∧ (∀ y c : Nat, 1 ≤ y → y < 2 * h → 1 ≤ c → c ≤ h →
          load D ((y : Int) * ((h : Int) + 1) + (c : Int))
            = load S ((2 * (h : Int) - (y : Int)) * (2 * (h : Int)) + ((h : Int) - (c : Int)))) := by
  rw [InverseQuadrantSwap_unfold]
  have hSl : (S.length : Int) = 2 * (h : Int) * (2 * (h : Int)) := by
    rw [hS]; push_cast; ring
  have hdl : (d0.length : Int) = 2 * (h : Int) * ((h : Int) + 1) := by
    rw [hd0]; push_cast; ring
  have hC : (1 : Int) * ((h : Int) + 1) ≤ 2 * (h : Int) * ((h : Int) + 1) :=
    mul_le_mul_of_nonneg_right (by omega) (by omega)
  have hN : (1 : Int) * (2 * (h : Int)) ≤ 2 * (h : Int) * (2 * (h : Int)) :=
    mul_le_mul_of_nonneg_right (by omega) (by omega)
  -- first loop: the rows 1 to 2*h-1
  obtain ⟨l1, c1, u1⟩ := store_loop2_spec
    (fun y x => ((h : Int) + 1) * (((2 * h : Nat) : Int) - (y : Int)) - (x : Int) + (h : Int))
    (fun y x _ => load S ((y : Int) * (2 * (h : Int)) + (x : Int)))
    (fun y x => load S ((y : Int) * (2 * (h : Int)) + (x : Int)))
    d0 1 (2 * h) 0 (h + 1)
    (fun y x y' x' _ hy _ hx _ hy' _ hx' e => by
      beta_reduce at e
      have := cell_inj ((h : Int) + 1) (2 * (h : Int) - (y : Int)) ((h : Int) - x)
        (2 * (h : Int) - (y' : Int)) ((h : Int) - x')
        (by omega) (by omega) (by omega) (by omega) (by push_cast at e; linarith)
      omega)
    (fun y x hy1 hy _ hx => by
      beta_reduce
      have := cell_lt ((h : Int) + 1) (2 * (h : Int)) (2 * (h : Int) - (y : Int))
        ((h : Int) - x) (by omega) (by omega) (by omega) (by omega)
      rw [hdl]
      push_cast
      constructor <;> linarith)
    (fun y x _ hy _ hx => by
      have := cell_lt (2 * (h : Int)) (2 * (h : Int)) (y : Int) (x : Int)
        (by omega) (by omega) (by omega) (by omega)
      exact load_isSome S _ (by linarith) (by rw [hSl]; linarith))
    (fun _ _ _ _ _ _ _ _ _ => rfl)
  generalize forLoop 1 (2 * h) (fun y d =>
      forLoop 0 (h + 1) (fun x d =>
        store d (((h : Int) + 1) * (((2 * h : Nat) : Int) - (y : Int)) - (x : Int) + (h : Int))
          (load S ((y : Int) * (2 * (h : Int)) + (x : Int)))) d) d0 = D1 at l1 c1 u1 ⊢
  -- second loop: column 0
  obtain ⟨l2, c2, u2⟩ := store_loop_spec
    (fun y => ((h : Int) + 1) * (y : Int))
    (fun y _ => load S ((y : Int) * (2 * (h : Int)) + (h : Int)))
    (fun y => load S ((y : Int) * (2 * (h : Int)) + (h : Int)))
    D1 0 (2 * h)
    (fun y y' _ hy _ hy' e => by
      beta_reduce at e
      have := cell_inj ((h : Int) + 1) (y : Int) 0 (y' : Int) 0
        (by omega) (by omega) (by omega) (by omega) (by linarith)
      omega)
    (fun y _ hy => by
      beta_reduce
      have := cell_lt ((h : Int) + 1) (2 * (h : Int)) (y : Int) 0
        (by omega) (by omega) (by omega) (by omega)
      rw [l1, hdl]
      constructor <;> linarith)
    (fun y _ hy => by
      have := cell_lt (2 * (h : Int)) (2 * (h : Int)) (y : Int) (h : Int)
        (by omega) (by omega) (by omega) (by omega)
      exact load_isSome S _ (by linarith) (by rw [hSl]; linarith))
    (fun _ _ _ _ _ _ => rfl)
  generalize forLoop 0 (2 * h) (fun y d =>
      store d (((h : Int) + 1) * (y : Int))
        (load S ((y : Int) * (2 * (h : Int)) + (h : Int)))) D1 = D2 at l2 c2 u2 ⊢
  have hD2l : (D2.length : Int) = 2 * (h : Int) * ((h : Int) + 1) := by
    rw [l2, l1, hdl]
  -- third loop: row 0
  obtain ⟨l3, c3, u3⟩ := store_loop_spec
    (fun x => (x : Int))
    (fun x _ => load S ((h : Int) + 1 - (x : Int) - 1))
    (fun x => load S ((h : Int) + 1 - (x : Int) - 1))
    D2 0 (h + 1)
    (fun x x' _ _ _ _ e => by beta_reduce at e; omega)
    (fun x _ hx => by beta_reduce; rw [hD2l]; constructor <;> omega)
    (fun x _ hx => load_isSome S _ (by omega) (by rw [hSl]; omega))
    (fun _ _ _ _ _ _ => rfl)
  generalize forLoop 0 (h + 1) (fun x d =>
      store d (x : Int) (load S ((h : Int) + 1 - (x : Int) - 1))) D2 = D at l3 c3 u3 ⊢
  have row : ∀ y : Nat, 1 ≤ y → (h : Int) + 1 ≤ (y : Int) * ((h : Int) + 1) :=
    fun y hy => by
      have : (1 : Int) * ((h : Int) + 1) ≤ (y : Int) * ((h : Int) + 1) :=
        mul_le_mul_of_nonneg_right (by omega) (by omega)
      linarith
  have a3 : ∀ j : Int, (h : Int) + 1 ≤ j → load D j = load D2 j := fun j hj =>
    u3 j (fun x _ hx => by omega)
  refine ⟨D, rfl, by rw [l3, l2, l1, hd0], ?_, ?_, ?_⟩
  · intro c hc
    have e := c3 c (Nat.zero_le _) (by omega)
    have e1 : (h : Int) + 1 - (c : Int) - 1 = (h : Int) - (c : Int) := by ring
    rw [e1] at e
    exact e
  · intro y hy1 hy
    rw [a3 _ (by have := row y hy1; omega)]
    have e := c2 y (Nat.zero_le _) hy
    have e1 : ((h : Int) + 1) * (y : Int) = (y : Int) * ((h : Int) + 1) + 0 := by ring
    rw [e1] at e
    exact e
  · intro y c hy1 hy hc1 hc
    rw [a3 _ (by have := row y hy1; omega),
      u2 _ (fun y' _ hy' e => by
        have := cell_inj ((h : Int) + 1) (y' : Int) 0 (y : Int) (c : Int)
          (by omega) (by omega) (by omega) (by omega) (by linarith)
        omega)]
    have e := c1 (2 * h - y) (h - c) (by omega) (by omega) (Nat.zero_le _) (by omega)
    have ey : ((2 * h - y : Nat) : Int) = 2 * (h : Int) - (y : Int) := by omega
    have ec : ((h - c : Nat) : Int) = (h : Int) - (c : Int) := by omega
    have eh : ((2 * h : Nat) : Int) = 2 * (h : Int) := by omega
    rw [ey, ec, eh] at e
    have e1 : ((h : Int) + 1) * (2 * (h : Int) - (2 * (h : Int) - (y : Int)))
          - ((h : Int) - (c : Int)) + (h : Int)
        = (y : Int) * ((h : Int) + 1) + (c : Int) := by ring
    rw [e1] at e
    exact e

/-! ## The round trip of the quadrant swaps -/

/-- C26: for every even side `W = H ≥ 4`, every half-spectrum block `half` of
`H*(W/2+1)` values and a zero-initialised destination of the forward swap,
`InverseQuadrantSwap` applied to the display left by `ForwardQuadrantSwap`
succeeds and gives back `half[y][c]` in every row `y` and every column
`c ≤ W/2-1`, except in the cell `(H/2, W/2-1)`; that cell and the whole column
`W/2` hold 0. -/
theorem swap_roundtrip_preserved_cells [Zero α] (W : Nat) (hW : 4 ≤ W) (heven : W % 2 = 0)
    (junk junk' : Nat → α) (half dst : List α)
    (hhalf : half.length = W * (W / 2 + 1)) (hdst : dst.length = W * (W / 2 + 1)) :
    (InverseQuadrantSwap W W (some junk')
        (ForwardQuadrantSwap W W (some junk) half (List.replicate (W * W) 0)).2.2 dst).1 = true
      ∧ (∀ y c : Nat, y < W → c + 1 ≤ W / 2 → ¬ (y = W / 2 ∧ c = W / 2 - 1) →
          (InverseQuadrantSwap W W (some junk')
              (ForwardQuadrantSwap W W (some junk) half (List.replicate (W * W) 0)).2.2
              dst).2[y * (W / 2 + 1) + c]?
            = half[y * (W / 2 + 1) + c]?)
      ∧ (∀ y : Nat, y < W →
          (InverseQuadrantSwap W W (some junk')
              (ForwardQuadrantSwap W W (some junk) half (List.replicate (W * W) 0)).2.2
              dst).2[y * (W / 2 + 1) + W / 2]? = some 0)
      ∧ (InverseQuadrantSwap W W (some junk')
              (ForwardQuadrantSwap W W (some junk) half (List.replicate (W * W) 0)).2.2
              dst).2[W / 2 * (W / 2 + 1) + (W / 2 - 1)]? = some 0 := by
  obtain ⟨h, rfl⟩ : ∃ h, W = 2 * h := ⟨W / 2, by omega⟩
  have e2 : 2 * h / 2 = h := Nat.mul_div_cancel_left h (by decide)
  rw [e2] at hhalf hdst ⊢
  have htdiv : Int.tdiv ((2 * h : Nat) : Int) 2 = (h : Int) := by
    rw [Int.tdiv_eq_ediv (by omega) (by omega)]
    omega
  have htdivn : Int.tdiv ((2 * h : Nat) : Int) (-2) = -(h : Int) := by
    rw [Int.tdiv_neg, htdiv]
  obtain ⟨r, S, hF, hr, hSlen, F2, F3, F4, F5, F6, F7, _⟩ :=
    ForwardQuadrantSwap_display h (by omega) junk half (List.replicate (2 * h * (2 * h)) 0)
      hhalf (List.length_replicate _ _)
  obtain ⟨D, hI, hDlen, Irow, Icol, Irest⟩ :=
    InverseQuadrantSwap_cells h (by omega) (some junk') S dst hSlen hdst
  obtain ⟨_, _, hroll⟩ := RollFourier_spec (h + 1) (2 * h) 0
    (Int.tdiv ((2 * h : Nat) : Int) 2) (by omega) (by omega) (by rw [htdiv]; omega)
    (by rw [htdiv]; omega) junk half hhalf
  rw [← hr] at hroll
  obtain ⟨hst, _, hunroll⟩ := RollFourier_spec (h + 1) (2 * h) 0
    (Int.tdiv ((2 * h : Nat) : Int) (-2)) (by omega) (by omega) (by rw [htdivn]; omega)
    (by rw [htdivn]; omega) junk' D hDlen
  rw [hF]
  simp only
  rw [hI]
  generalize (RollFourier (h + 1) (2 * h) 0 (Int.tdiv ((2 * h : Nat) : Int) (-2)) (some junk')
    D).2 = out at hunroll
  have hN : (2 : Int) * (2 * (h : Int)) ≤ 2 * (h : Int) * (2 * (h : Int)) :=
    mul_le_mul_of_nonneg_right (by omega) (by omega)
  have hzero : ∀ a b : Int, 0 ≤ a → a < 2 * (h : Int) → 0 ≤ b → b < 2 * (h : Int) →
      load (List.replicate (2 * h * (2 * h)) (0 : α)) (a * (2 * (h : Int)) + b) = some 0 :=
    fun a b ha1 ha2 hb1 hb2 => by
      have := cell_lt (2 * (h : Int)) (2 * (h : Int)) a b ha1 ha2 hb1 hb2
      exact load_replicate _ _ _ this.1 (by push_cast; linarith)
  -- the cell (p, c) of the block before the roll, p being the row that the roll moves to y
  have hcell : ∀ p c : Nat, p < 2 * h → c ≤ h →
      load D ((p : Int) * ((h : Int) + 1) + (c : Int))
        = if c = h ∨ (p = 0 ∧ c = h - 1) then some 0
          else load r ((p : Int) * ((h : Int) + 1) + (c : Int)) := by
    intro p c hp hc
    rcases Nat.eq_zero_or_pos p with hp0 | hp1
    · subst hp0
      have e0 : ((0 : Nat) : Int) * ((h : Int) + 1) + (c : Int) = (c : Int) := by
        push_cast; ring
      rw [e0, Irow c hc]
      rcases Nat.lt_trichotomy c (h - 1) with hlt | heq | hgt
      · rw [if_neg (by omega)]
        rcases Nat.eq_zero_or_pos c with hc0 | hc1
        · subst hc0
          have f := F2 0 0 (by omega) (by omega)
          have f1 : ((0 : Nat) : Int) * (2 * (h : Int)) + ((h : Int) + ((0 : Nat) : Int))
              = (h : Int) - ((0 : Nat) : Int) := by push_cast; ring
          have f2 : ((0 : Nat) : Int) * ((h : Int) + 1) + ((0 : Nat) : Int)
              = ((0 : Nat) : Int) := by push_cast; ring
          rw [f1, f2] at f
          exact f
        · exact F5 c hc1 (by omega)
      · rw [if_pos (Or.inr ⟨rfl, heq⟩)]
        have e1 : (h : Int) - (c : Int) = 1 := by omega
        rw [e1, F6]
        have := hzero 0 (2 * (h : Int) - 1) (by omega) (by omega) (by omega) (by omega)
        rw [← this]
        congr 1
        ring
      · rw [if_pos (Or.inl (by omega))]
        have e1 : (h : Int) - (c : Int) = 0 := by omega
        rw [e1, F7]
        have := hzero 1 0 (by omega) (by omega) (by omega) (by omega)
        rw [← this]
        congr 1
        ring
    · rcases Nat.eq_zero_or_pos c with hc0 | hc1
      · subst hc0
        rw [if_neg (by omega)]
        have e0 : (p : Int) * ((h : Int) + 1) + ((0 : Nat) : Int)
            = (p : Int) * ((h : Int) + 1) + 0 := by push_cast; ring
        rw [e0, Icol p hp1 hp]
        have f := F2 p 0 hp (by omega)
        have f1 : (p : Int) * (2 * (h : Int)) + ((h : Int) + ((0 : Nat) : Int))
            = (p : Int) * (2 * (h : Int)) + (h : Int) := by push_cast; ring
        have f2 : (p : Int) * ((h : Int) + 1) + ((0 : Nat) : Int)
            = (p : Int) * ((h : Int) + 1) + 0 := by push_cast; ring
        rw [f1, f2] at f
        exact f
      · rw [Irest p c hp1 hp hc1 hc]
        rcases Nat.lt_or_ge c h with hlt | hge
        · rw [if_neg (by omega)]
          have f := F3 (2 * h - p) c (by omega) (by omega) hc1 hlt
          have ep : ((2 * h - p : Nat) : Int) = 2 * (h : Int) - (p : Int) := by omega
          rw [ep] at f
          have f2 : (2 * (h : Int) - (2 * (h : Int) - (p : Int))) * ((h : Int) + 1) + (c : Int)
              = (p : Int) * ((h : Int) + 1) + (c : Int) := by ring
          rw [f2] at f
          exact f
        · rw [if_pos (Or.inl (by omega))]
          have f := F4 (2 * h - p) (by omega) (by omega)
          have ep : ((2 * h - p : Nat) : Int) = 2 * (h : Int) - (p : Int) := by omega
          rw [ep] at f
          have e1 : (h : Int) - (c : Int) = 0 := by omega
          rw [e1, f]
          exact hzero _ 0 (by omega) (by omega) (by omega) (by omega)
  -- the cell (y, c) of the result
  have hout : ∀ y c : Nat, y < 2 * h → c ≤ h →
      out[y * (h + 1) + c]?
        = if c = h ∨ (y = h ∧ c = h - 1) then some 0 else half[y * (h + 1) + c]? := by
    intro y c hy hc
    obtain ⟨p, hp, hpp, hp0, hpy⟩ : ∃ p : Nat, p < 2 * h
        ∧ (if p < h then p + h else p - h) = y ∧ (p = 0 ↔ y = h)
        ∧ p = (if y < h then y + h else y - h) :=
      ⟨if y < h then y + h else y - h, by split_ifs <;> omega, by split_ifs <;> omega,
        by split_ifs <;> omega, rfl⟩
    have u := hunroll p c hp (by omega)
    rw [RollFourier_index_half h p c hp (by omega) _ (Or.inr htdivn), hpp] at u
    have v := hroll y c hy (by omega)
    rw [RollFourier_index_half h y c hy (by omega) _ (Or.inl htdiv), ← hpy] at v
    have d := hcell p c hp hc
    simp only [hp0] at d
    rw [u, ← v, ← load_natCast D, ← load_natCast r]
    push_cast
    exact d
  refine ⟨hst, ?_, ?_, ?_⟩
  · intro y c hy hc hne
    rw [hout y c hy (by omega), if_neg (by omega)]
  · intro y hy
    rw [hout y h hy (le_refl _), if_pos (Or.inl rfl)]
  · rw [hout h (h - 1) (by omega) (by omega), if_pos (Or.inr ⟨rfl, rfl⟩)]

/-! ## The assignments executed by the packaging helpers -/

/-- Two loops over the same range whose bodies preserve a relation between
their states end in related states. -/
theorem forLoop_sim {σ τ : Type} (R : σ → τ → Prop) (lo hi : Nat) (f : Nat → σ → σ)
    (g : Nat → τ → τ) (s : σ) (t : τ) (h0 : R s t)
    (hstep : ∀ i s t, R s t → R (f i s) (g i t)) :
    R (forLoop lo hi f s) (forLoop lo hi g t) := by
  unfold forLoop
  generalize List.range' lo (hi - lo) = l
  induction l generalizing s t with
  | nil => exact h0
  | cons i l ih => exact ih (f i s) (g i t) (hstep i s t h0)

theorem Assignment.copy_append (origin : List α) (assignments : List Assignment)
    (a : Assignment) (target : List α) :
    Assignment.copy origin (assignments ++ [a]) target
      = store (Assignment.copy origin assignments target) a.write (load origin a.read) := by
  simp [Assignment.copy, List.foldl_append]

theorem Assignment.move_append (assignments : List Assignment) (a : Assignment)
    (block : List α) :
    Assignment.move (assignments ++ [a]) block
      = store (Assignment.move assignments block) a.write
          (load (Assignment.move assignments block) a.read) := by
  simp [Assignment.move, List.foldl_append]

/-- The scratch block of `RollFourier` is the effect of its assignments. -/
theorem RollFourier_eq_assignments (W H : Nat) (dx dy : Int) (junk : Nat → α)
    (buf : List α) :
    RollFourier W H dx dy (some junk) buf
      = (true, CopyMagickMemory buf
          (Assignment.copy buf (RollFourier_assignments W H dx dy)
            (GetVirtualMemoryBlob junk (H * W))) (H * W)) := by
  have key := forLoop_sim
    (fun (st : Nat × List α) (tr : Nat × List Assignment) => st.1 = tr.1
      ∧ st.2 = Assignment.copy buf tr.2 (GetVirtualMemoryBlob junk (H * W)))
    0 H
    (fun y st =>
      forLoop 0 W (fun x st =>
        (st.1 + 1,
          store st.2 (RollFourier_v H dy y * (W : Int) + RollFourier_u W dx x)
            (load buf (st.1 : Int)))) st)
    (fun y st =>
      forLoop 0 W (fun x st =>
        (st.1 + 1, st.2 ++ [{ write := RollFourier_v H dy y * (W : Int) + RollFourier_u W dx x,
                              read := (st.1 : Int) }])) st)
    (0, GetVirtualMemoryBlob junk (H * W)) (0, []) ⟨rfl, rfl⟩
    (by
      intro y s t hR
      exact forLoop_sim
        (fun (st : Nat × List α) (tr : Nat × List Assignment) => st.1 = tr.1
          ∧ st.2 = Assignment.copy buf tr.2 (GetVirtualMemoryBlob junk (H * W)))
        0 W _ _ s t hR
        (by
          intro x s t hR
          obtain ⟨h1, h2⟩ := hR
          refine ⟨by simp only [h1], ?_⟩
          simp only [Assignment.copy_append, h1, h2]))
  simp only [RollFourier, RollFourier_loops, RollFourier_assignments]
  rw [key.2]

/-- The display of `ForwardQuadrantSwap` is the effect of the assignments of
its three loops. -/
theorem ForwardQuadrantSwap_eq_assignments (W H : Nat) (junk : Nat → α)
    (src dst : List α) :
    ForwardQuadrantSwap W H (some junk) src dst
      = (true,
          (RollFourier (W / 2 + 1) H 0 (Int.tdiv (H : Int) 2) (some junk) src).2,
          Assignment.move (ForwardQuadrantSwap_third W)
            (Assignment.copy
              (RollFourier (W / 2 + 1) H 0 (Int.tdiv (H : Int) 2) (some junk) src).2
              (ForwardQuadrantSwap_second W H)
              (Assignment.copy
                (RollFourier (W / 2 + 1) H 0 (Int.tdiv (H : Int) 2) (some junk) src).2
                (ForwardQuadrantSwap_first W H) dst))) := by
  simp only [ForwardQuadrantSwap, RollFourier_status, Bool.true_eq_false, if_false]
  generalize (RollFourier (W / 2 + 1) H 0 (Int.tdiv (H : Int) 2) (some junk) src).2 = r
  have k1 : ∀ d0 : List α, forLoop 0 H (fun y destination =>
      forLoop 0 (W / 2 - 1) (fun x destination =>
        store destination
          ((W : Int) * (y : Int) + (x : Int) + ((W / 2 : Nat) : Int))
          (load r (((W / 2 + 1 : Nat) : Int) * (y : Int) + (x : Int)))) destination) d0
      = Assignment.copy r (ForwardQuadrantSwap_first W H) d0 := by
    intro d0
    exact forLoop_sim (fun (d : List α) (tr : List Assignment) => d = Assignment.copy r tr d0)
      0 H _ _ d0 [] rfl
      (fun y s t hR => forLoop_sim
        (fun (d : List α) (tr : List Assignment) => d = Assignment.copy r tr d0)
        0 (W / 2 - 1) _ _ s t hR
        (fun x s t hR => by beta_reduce at hR ⊢; rw [Assignment.copy_append, ← hR]))
  have k2 : ∀ d0 : List α, forLoop 1 H (fun y destination =>
      forLoop 0 (W / 2 - 1) (fun x destination =>
        store destination
          ((W : Int) * ((H : Int) - (y : Int)) + ((W / 2 : Nat) : Int) - (x : Int) - 1)
          (load r (((W / 2 + 1 : Nat) : Int) * (y : Int) + (x : Int) + 1))) destination) d0
      = Assignment.copy r (ForwardQuadrantSwap_second W H) d0 := by
    intro d0
    exact forLoop_sim (fun (d : List α) (tr : List Assignment) => d = Assignment.copy r tr d0)
      1 H _ _ d0 [] rfl
      (fun y s t hR => forLoop_sim
        (fun (d : List α) (tr : List Assignment) => d = Assignment.copy r tr d0)
        0 (W / 2 - 1) _ _ s t hR
        (fun x s t hR => by beta_reduce at hR ⊢; rw [Assignment.copy_append, ← hR]))
  have k3 : ∀ d0 : List α, forLoop 0 (W / 2) (fun x destination =>
      store destination (-(x : Int) + ((W / 2 : Nat) : Int) - 1)
        (load destination ((x : Int) + ((W / 2 : Nat) : Int) + 1))) d0
      = Assignment.move (ForwardQuadrantSwap_third W) d0 := by
    intro d0
    exact forLoop_sim (fun (d : List α) (tr : List Assignment) => d = Assignment.move tr d0)
      0 (W / 2) _ _ d0 [] rfl
      (fun x s t hR => by beta_reduce at hR ⊢; rw [Assignment.move_append, ← hR])
  rw [k1, k2, k3]

/-- The block rolled by `InverseQuadrantSwap` is the effect of the assignments
of its three loops. -/
theorem InverseQuadrantSwap_eq_assignments (W H : Nat) (roll_info : Option (Nat → α))
    (src dst : List α) :
    InverseQuadrantSwap W H roll_info src dst
      = RollFourier (W / 2 + 1) H 0 (Int.tdiv (H : Int) (-2)) roll_info
          (Assignment.copy src (InverseQuadrantSwap_third W)
            (Assignment.copy src (InverseQuadrantSwap_second W H)
              (Assignment.copy src (InverseQuadrantSwap_first W H) dst))) := by
  simp only [InverseQuadrantSwap]
  have k1 : ∀ d0 : List α, forLoop 1 H (fun y destination =>
      forLoop 0 (W / 2 + 1) (fun x destination =>
        store destination
          (((W / 2 + 1 : Nat) : Int) * ((H : Int) - (y : Int)) - (x : Int)
            + ((W / 2 : Nat) : Int))
          (load src ((y : Int) * (W : Int) + (x : Int)))) destination) d0
      = Assignment.copy src (InverseQuadrantSwap_first W H) d0 := by
    intro d0
    exact forLoop_sim (fun (d : List α) (tr : List Assignment) => d = Assignment.copy src tr d0)
      1 H _ _ d0 [] rfl
      (fun y s t hR => forLoop_sim
        (fun (d : List α) (tr : List Assignment) => d = Assignment.copy src tr d0)
        0 (W / 2 + 1) _ _ s t hR
        (fun x s t hR => by beta_reduce at hR ⊢; rw [Assignment.copy_append, ← hR]))
  have k2 : ∀ d0 : List α, forLoop 0 H (fun y destination =>
      store destination (((W / 2 + 1 : Nat) : Int) * (y : Int))
        (load src ((y : Int) * (W : Int) + ((W / 2 : Nat) : Int)))) d0
      = Assignment.copy src (InverseQuadrantSwap_second W H) d0 := by
    intro d0
    exact forLoop_sim (fun (d : List α) (tr : List Assignment) => d = Assignment.copy src tr d0)
      0 H _ _ d0 [] rfl
      (fun x s t hR => by beta_reduce at hR ⊢; rw [Assignment.copy_append, ← hR])
  have k3 : ∀ d0 : List α, forLoop 0 (W / 2 + 1) (fun x destination =>
      store destination (x : Int) (load src (((W / 2 + 1 : Nat) : Int) - (x : Int) - 1))) d0
      = Assignment.copy src (InverseQuadrantSwap_third W) d0 := by
    intro d0
    exact forLoop_sim (fun (d : List α) (tr : List Assignment) => d = Assignment.copy src tr d0)
      0 (W / 2 + 1) _ _ d0 [] rfl
      (fun x s t hR => by beta_reduce at hR ⊢; rw [Assignment.copy_append, ← hR])
  rw [k1, k2, k3]

/-- The elements collected by a loop whose body adds elements to a list. -/
theorem mem_forLoop {β : Type} (Q : Nat → β → Prop) (body : Nat → List β → List β)
    (hbody : ∀ i acc a, a ∈ body i acc ↔ a ∈ acc ∨ Q i a) (lo hi : Nat) (init : List β)
    (a : β) :
    a ∈ forLoop lo hi body init ↔ a ∈ init ∨ ∃ i, lo ≤ i ∧ i < hi ∧ Q i a := by
  rcases Nat.lt_or_ge hi lo with hlt | hle
  · rw [forLoop_empty lo hi _ init (by omega)]
    constructor
    · exact Or.inl
    · rintro (h | ⟨i, h1, h2, _⟩)
      · exact h
      · omega
  have key := forLoop_invariant
    (fun k (acc : List β) => ∀ a, a ∈ acc ↔ a ∈ init ∨ ∃ i, lo ≤ i ∧ i < k ∧ Q i a)
    lo hi body init hle
    (by
      intro a
      constructor
      · exact Or.inl
      · rintro (h | ⟨i, h1, h2, _⟩)
        · exact h
        · omega)
    (by
      intro k acc hk1 hk2 hP a
      rw [hbody, hP]
      constructor
      · rintro ((h | ⟨i, h1, h2, h3⟩) | h)
        · exact Or.inl h
        · exact Or.inr ⟨i, h1, by omega, h3⟩
        · exact Or.inr ⟨k, hk1, by omega, h⟩
      · rintro (h | ⟨i, h1, h2, h3⟩)
        · exact Or.inl (Or.inl h)
        · rcases Nat.lt_or_ge i k with hi | hi
          · exact Or.inl (Or.inr ⟨i, h1, hi, h3⟩)
          · have e : i = k := by omega
            subst e
            exact Or.inr h3)
  exact key a

/-- The elements collected by a loop that appends one element per iteration. -/
theorem mem_forLoop_one {β : Type} (f : Nat → β) (lo hi : Nat) (a : β) :
    a ∈ forLoop lo hi (fun x acc => acc ++ [f x]) [] ↔ ∃ x, lo ≤ x ∧ x < hi ∧ a = f x := by
  rw [mem_forLoop (fun x a => a = f x) _ (fun i acc a => by simp) lo hi [] a]
  simp

/-- The elements collected by two nested loops that append one element per
iteration. -/
theorem mem_forLoop_two {β : Type} (f : Nat → Nat → β) (ylo yhi xlo xhi : Nat) (a : β) :
    a ∈ forLoop ylo yhi (fun y acc => forLoop xlo xhi (fun x acc => acc ++ [f y x]) acc) []
      ↔ ∃ y x, ylo ≤ y ∧ y < yhi ∧ xlo ≤ x ∧ x < xhi ∧ a = f y x := by
  rw [mem_forLoop (fun y a => ∃ x, xlo ≤ x ∧ x < xhi ∧ a = f y x) _
    (fun y acc a => by
      rw [mem_forLoop (fun x a => a = f y x) _ (fun i acc a => by simp) xlo xhi acc a])
    ylo yhi [] a]
  simp

/-- The indices of the assignments of `RollFourier` lie inside the two blocks
of `height*width` cells when the offsets wrap at most once. -/
theorem RollFourier_assignments_bounds (W H : Nat) (dx dy : Int)
    (hx1 : -(W : Int) ≤ dx) (hx2 : dx ≤ (W : Int))
    (hy1 : -(H : Int) ≤ dy) (hy2 : dy ≤ (H : Int)) :
    ∀ a ∈ RollFourier_assignments W H dx dy,
      0 ≤ a.write ∧ a.write < ((H * W : Nat) : Int)
        ∧ 0 ≤ a.read ∧ a.read < ((H * W : Nat) : Int) := by
  have key := forLoop_invariant
    (fun y (st : Nat × List Assignment) => st.1 = y * W
      ∧ ∀ a ∈ st.2, 0 ≤ a.write ∧ a.write < ((H * W : Nat) : Int)
        ∧ 0 ≤ a.read ∧ a.read < ((H * W : Nat) : Int))
    0 H
    (fun y st =>
      forLoop 0 W (fun x st =>
        (st.1 + 1, st.2 ++ [{ write := RollFourier_v H dy y * (W : Int) + RollFourier_u W dx x,
                              read := (st.1 : Int) }])) st)
    (0, []) (Nat.zero_le _) ⟨by simp, by simp⟩
    (by
      intro y st _ hy hP
      have inner := forLoop_invariant
        (fun x (st : Nat × List Assignment) => st.1 = y * W + x
          ∧ ∀ a ∈ st.2, 0 ≤ a.write ∧ a.write < ((H * W : Nat) : Int)
            ∧ 0 ≤ a.read ∧ a.read < ((H * W : Nat) : Int))
        0 W
        (fun x st =>
          (st.1 + 1,
            st.2 ++ [{ write := RollFourier_v H dy y * (W : Int) + RollFourier_u W dx x,
                       read := (st.1 : Int) }]))
        st (Nat.zero_le _) ⟨by rw [hP.1]; rfl, hP.2⟩
        (by
          intro x st _ hx hQ
          obtain ⟨h1, h2⟩ := hQ
          refine ⟨by simp only [h1]; omega, ?_⟩
          intro a ha
          rw [List.mem_append, List.mem_singleton] at ha
          rcases ha with ha | ha
          · exact h2 a ha
          · subst ha
            obtain ⟨s1, _, s3⟩ := RollFourier_index_spec W H dx dy y x hy hx hx1 hx2 hy1 hy2
            have hi := index_lt W H y x hy hx
            simp only [s1, h1]
            refine ⟨by omega, by omega, by omega, by omega⟩)
      refine ⟨?_, inner.2⟩
      rw [inner.1]
      ring)
  exact key.2

/-- C28: for every even side `W = H ≥ 2`, every index of the assignments of
`ForwardQuadrantSwap` (the roll of the half-spectrum and the three loops, the
read of `destination[W]` by the third loop included) and of
`InverseQuadrantSwap` (the three loops and the roll) lies inside its block:
`[0, H*(W/2+1))` for the half-spectrum and the scratch block, `[0, H*W)` for
the display; and every cell of the half-spectrum block built by
`InverseQuadrantSwap` is written by one of its three loops. -/
theorem quadrant_swap_index_safety (W : Nat) (hW : 2 ≤ W) (heven : W % 2 = 0) :
    (∀ a ∈ RollFourier_assignments (W / 2 + 1) W 0 (Int.tdiv (W : Int) 2),
        0 ≤ a.write ∧ a.write < ((W * (W / 2 + 1) : Nat) : Int)
          ∧ 0 ≤ a.read ∧ a.read < ((W * (W / 2 + 1) : Nat) : Int))
      ∧ (∀ a ∈ ForwardQuadrantSwap_first W W ++ ForwardQuadrantSwap_second W W,
        0 ≤ a.write ∧ a.write < ((W * W : Nat) : Int)
          ∧ 0 ≤ a.read ∧ a.read < ((W * (W / 2 + 1) : Nat) : Int))
      ∧ (∀ a ∈ ForwardQuadrantSwap_third W,
        0 ≤ a.write ∧ a.write < ((W * W : Nat) : Int)
          ∧ 0 ≤ a.read ∧ a.read < ((W * W : Nat) : Int))
      ∧ (∃ a ∈ ForwardQuadrantSwap_third W, a.read = (W : Int))
      ∧ (∀ a ∈ InverseQuadrantSwap_first W W ++ InverseQuadrantSwap_second W W
            ++ InverseQuadrantSwap_third W,
        0 ≤ a.write ∧ a.write < ((W * (W / 2 + 1) : Nat) : Int)
          ∧ 0 ≤ a.read ∧ a.read < ((W * W : Nat) : Int))
      ∧ (∀ a ∈ RollFourier_assignments (W / 2 + 1) W 0 (Int.tdiv (W : Int) (-2)),
        0 ≤ a.write ∧ a.write < ((W * (W / 2 + 1) : Nat) : Int)
          ∧ 0 ≤ a.read ∧ a.read < ((W * (W / 2 + 1) : Nat) : Int))
      ∧ (∀ j : Nat, j < W * (W / 2 + 1) →
          ∃ a ∈ InverseQuadrantSwap_first W W ++ InverseQuadrantSwap_second W W
            ++ InverseQuadrantSwap_third W, a.write = (j : Int)) := by
  obtain ⟨h, rfl⟩ : ∃ h, W = 2 * h := ⟨W / 2, by omega⟩
  have e2 : 2 * h / 2 = h := Nat.mul_div_cancel_left h (by decide)
  have htdiv : Int.tdiv ((2 * h : Nat) : Int) 2 = (h : Int) := by
    rw [Int.tdiv_eq_ediv (by omega) (by omega)]
    omega
  have htdivn : Int.tdiv ((2 * h : Nat) : Int) (-2) = -(h : Int) := by
    rw [Int.tdiv_neg, htdiv]
  have hNN : ((2 * h * (2 * h) : Nat) : Int) = 2 * (h : Int) * (2 * (h : Int)) := by
    push_cast; ring
  have hNC : ((2 * h * (2 * h / 2 + 1) : Nat) : Int) = 2 * (h : Int) * ((h : Int) + 1) := by
    rw [e2]; push_cast; ring
  have hN : (2 : Int) * (2 * (h : Int)) ≤ 2 * (h : Int) * (2 * (h : Int)) :=
    mul_le_mul_of_nonneg_right (by omega) (by omega)
  have hC : (1 : Int) * ((h : Int) + 1) ≤ 2 * (h : Int) * ((h : Int) + 1) :=
    mul_le_mul_of_nonneg_right (by omega) (by omega)
  have mfirst : ∀ a ∈ ForwardQuadrantSwap_first (2 * h) (2 * h),
      0 ≤ a.write ∧ a.write < ((2 * h * (2 * h) : Nat) : Int)
        ∧ 0 ≤ a.read ∧ a.read < ((2 * h * (2 * h / 2 + 1) : Nat) : Int) := by
    intro a ha
    simp only [ForwardQuadrantSwap_first, e2] at ha
    rw [mem_forLoop_two] at ha
    obtain ⟨y, x, _, hy, _, hx, rfl⟩ := ha
    have b1 := cell_lt (2 * (h : Int)) (2 * (h : Int)) (y : Int) ((x : Int) + h)
      (by omega) (by omega) (by omega) (by omega)
    have b2 := cell_lt ((h : Int) + 1) (2 * (h : Int)) (y : Int) (x : Int)
      (by omega) (by omega) (by omega) (by omega)
    rw [hNN, hNC]
    push_cast
    refine ⟨by linarith, by linarith, by linarith, by linarith⟩
  have msecond : ∀ a ∈ ForwardQuadrantSwap_second (2 * h) (2 * h),
      0 ≤ a.write ∧ a.write < ((2 * h * (2 * h) : Nat) : Int)
        ∧ 0 ≤ a.read ∧ a.read < ((2 * h * (2 * h / 2 + 1) : Nat) : Int) := by
    intro a ha
    simp only [ForwardQuadrantSwap_second, e2] at ha
    rw [mem_forLoop_two] at ha
    obtain ⟨y, x, hy1, hy, _, hx, rfl⟩ := ha
    have b1 := cell_lt (2 * (h : Int)) (2 * (h : Int)) (2 * (h : Int) - (y : Int))
      ((h : Int) - x - 1) (by omega) (by omega) (by omega) (by omega)
    have b2 := cell_lt ((h : Int) + 1) (2 * (h : Int)) (y : Int) ((x : Int) + 1)
      (by omega) (by omega) (by omega) (by omega)
    rw [hNN, hNC]
    push_cast
    refine ⟨by linarith, by linarith, by linarith, by linarith⟩
  have ifirst : ∀ a ∈ InverseQuadrantSwap_first (2 * h) (2 * h),
      0 ≤ a.write ∧ a.write < ((2 * h * (2 * h / 2 + 1) : Nat) : Int)
        ∧ 0 ≤ a.read ∧ a.read < ((2 * h * (2 * h) : Nat) : Int) := by
    intro a ha
    simp only [InverseQuadrantSwap_first, e2] at ha
    rw [mem_forLoop_two] at ha
    obtain ⟨y, x, hy1, hy, _, hx, rfl⟩ := ha
    have b1 := cell_lt ((h : Int) + 1) (2 * (h : Int)) (2 * (h : Int) - (y : Int))
      ((h : Int) - x) (by omega) (by omega) (by omega) (by omega)
    have b2 := cell_lt (2 * (h : Int)) (2 * (h : Int)) (y : Int) (x : Int)
      (by omega) (by omega) (by omega) (by omega)
    rw [hNN, hNC]
    push_cast
    refine ⟨by linarith, by linarith, by linarith, by linarith⟩
  have isecond : ∀ a ∈ InverseQuadrantSwap_second (2 * h) (2 * h),
      0 ≤ a.write ∧ a.write < ((2 * h * (2 * h / 2 + 1) : Nat) : Int)
        ∧ 0 ≤ a.read ∧ a.read < ((2 * h * (2 * h) : Nat) : Int) := by
    intro a ha
    simp only [InverseQuadrantSwap_second, e2] at ha
    rw [mem_forLoop_one] at ha
    obtain ⟨y, _, hy, rfl⟩ := ha
    have b1 := cell_lt ((h : Int) + 1) (2 * (h : Int)) (y : Int) 0
      (by omega) (by omega) (by omega) (by omega)
    have b2 := cell_lt (2 * (h : Int)) (2 * (h : Int)) (y : Int) (h : Int)
      (by omega) (by omega) (by omega) (by omega)
    rw [hNN, hNC]
    push_cast
    refine ⟨by linarith, by linarith, by linarith, by linarith⟩
  have ithird : ∀ a ∈ InverseQuadrantSwap_third (2 * h),
      0 ≤ a.write ∧ a.write < ((2 * h * (2 * h / 2 + 1) : Nat) : Int)
        ∧ 0 ≤ a.read ∧ a.read < ((2 * h * (2 * h) : Nat) : Int) := by
    intro a ha
    simp only [InverseQuadrantSwap_third, e2] at ha
    rw [mem_forLoop_one] at ha
    obtain ⟨x, _, hx, rfl⟩ := ha
    rw [hNN, hNC]
    push_cast
    refine ⟨by omega, by omega, by omega, by omega⟩
  refine ⟨?_, ?_, ?_, ?_, ?_, ?_, ?_⟩
  · have := RollFourier_assignments_bounds (2 * h / 2 + 1) (2 * h) 0
      (Int.tdiv ((2 * h : Nat) : Int) 2) (by omega) (by omega) (by rw [htdiv]; omega)
      (by rw [htdiv]; omega)
    exact this
  · intro a ha
    rw [List.mem_append] at ha
    rcases ha with ha | ha
    · exact mfirst a ha
    · exact msecond a ha
  · intro a ha
    simp only [ForwardQuadrantSwap_third, e2] at ha
    rw [mem_forLoop_one] at ha
    obtain ⟨x, _, hx, rfl⟩ := ha
    rw [hNN]
    dsimp only
    refine ⟨by omega, by omega, by omega, by omega⟩
  · refine ⟨{ write := -(((h - 1 : Nat) : Int)) + (h : Int) - 1,
              read := ((h - 1 : Nat) : Int) + (h : Int) + 1 }, ?_, ?_⟩
    · simp only [ForwardQuadrantSwap_third, e2]
      rw [mem_forLoop_one]
      exact ⟨h - 1, Nat.zero_le _, by omega, rfl⟩
    · simp only
      omega
  · intro a ha
    rw [List.mem_append, List.mem_append] at ha
    rcases ha with (ha | ha) | ha
    · exact ifirst a ha
    · exact isecond a ha
    · exact ithird a ha
  · have := RollFourier_assignments_bounds (2 * h / 2 + 1) (2 * h) 0
      (Int.tdiv ((2 * h : Nat) : Int) (-2)) (by omega) (by omega) (by rw [htdivn]; omega)
      (by rw [htdivn]; omega)
    exact this
  · intro j hj
    rw [e2] at hj
    have hy : j / (h + 1) < 2 * h := index_div_lt (h + 1) (2 * h) j hj
    have hc : j % (h + 1) < h + 1 := Nat.mod_lt _ (by omega)
    have hj2 := index_decompose (h + 1) j
    rcases Nat.eq_zero_or_pos (j / (h + 1)) with h0 | h1
    · refine ⟨{ write := ((j % (h + 1) : Nat) : Int),
                read := (((h + 1 : Nat)) : Int) - ((j % (h + 1) : Nat) : Int) - 1 }, ?_, ?_⟩
      · rw [List.mem_append]
        right
        simp only [InverseQuadrantSwap_third, e2]
        rw [mem_forLoop_one]
        exact ⟨j % (h + 1), Nat.zero_le _, hc, rfl⟩
      · simp only
        rw [h0] at hj2
        omega
    · refine ⟨{ write := (((h + 1 : Nat)) : Int)
                  * (((2 * h : Nat) : Int) - ((2 * h - j / (h + 1) : Nat) : Int))
                  - ((h - j % (h + 1) : Nat) : Int) + ((h : Nat) : Int),
                read := ((2 * h - j / (h + 1) : Nat) : Int) * ((2 * h : Nat) : Int)
                  + ((h - j % (h + 1) : Nat) : Int) }, ?_, ?_⟩
      · rw [List.mem_append, List.mem_append]
        left
        left
        simp only [InverseQuadrantSwap_first, e2]
        rw [mem_forLoop_two]
        exact ⟨2 * h - j / (h + 1), h - j % (h + 1), by omega, by omega, Nat.zero_le _,
          by omega, rfl⟩
      · simp only
        have ey : ((2 * h - j / (h + 1) : Nat) : Int) = 2 * (h : Int) - ((j / (h + 1) : Nat) : Int) := by
          omega
        have ec : ((h - j % (h + 1) : Nat) : Int) = (h : Int) - ((j % (h + 1) : Nat) : Int) := by
          omega
        have ej : (j : Int) = ((j / (h + 1) : Nat) : Int) * ((h : Int) + 1)
            + ((j % (h + 1) : Nat) : Int) := by
          have : (j : Int) = ((j / (h + 1) * (h + 1) + j % (h + 1) : Nat) : Int) := by
            rw [hj2]
          rw [this]
          push_cast
          ring
        rw [ey, ec, ej]
        push_cast
        ring

/-! ## Instances of the conditional statements on the packaging helpers -/

theorem CorrectPhaseLHS_negates_left_half_witness :
    (CorrectPhaseLHS 4 2 [1, 2, 3, 4, 5, 6, 7, (8 : Int)]).length = 4 * 2
      ∧ (∀ y x : Nat, y < 2 → x < 4 →
          (CorrectPhaseLHS 4 2 [1, 2, 3, 4, 5, 6, 7, (8 : Int)])[y * 4 + x]?
            = if x < 4 / 2 then ([1, 2, 3, 4, 5, 6, 7, (8 : Int)][y * 4 + x]?).map (fun a => -a)
              else [1, 2, 3, 4, 5, 6, 7, (8 : Int)][y * 4 + x]?)
      ∧ CorrectPhaseLHS 4 2 (CorrectPhaseLHS 4 2 [1, 2, 3, 4, 5, 6, 7, (8 : Int)])
        = [1, 2, 3, 4, 5, 6, 7, (8 : Int)] :=
  CorrectPhaseLHS_negates_left_half 4 2 [1, 2, 3, 4, 5, 6, 7, 8] (by decide)

theorem RollFourier_wraps_at_most_once_witness :
    ((∀ y : Nat, y < 4 →
          0 ≤ RollFourier_v 4 2 y ∧ RollFourier_v 4 2 y < ((4 : Nat) : Int))
        ↔ (-((4 : Nat) : Int) ≤ 2 ∧ (2 : Int) ≤ ((4 : Nat) : Int)))
      ∧ ((∀ x : Nat, x < 3 →
          0 ≤ RollFourier_u 3 0 x ∧ RollFourier_u 3 0 x < ((3 : Nat) : Int))
        ↔ (-((3 : Nat) : Int) ≤ 0 ∧ (0 : Int) ≤ ((3 : Nat) : Int)))
      ∧ (-((4 : Nat) : Int) ≤ 2 ∧ (2 : Int) ≤ ((4 : Nat) : Int) →
          -((3 : Nat) : Int) ≤ 0 ∧ (0 : Int) ≤ ((3 : Nat) : Int) →
          ∀ y x : Nat, y < 4 → x < 3 →
            0 ≤ RollFourier_v 4 2 y * ((3 : Nat) : Int) + RollFourier_u 3 0 x
              ∧ RollFourier_v 4 2 y * ((3 : Nat) : Int) + RollFourier_u 3 0 x
                < ((3 : Nat) : Int) * ((4 : Nat) : Int)) :=
  RollFourier_wraps_at_most_once 3 4 (by decide) (by decide) 0 2

theorem swap_roundtrip_preserved_cells_witness :
    (InverseQuadrantSwap 4 4 (some (fun _ => 0))
        (ForwardQuadrantSwap 4 4 (some (fun _ => 0))
          [1, 2, 3, 4, 5, 6, 7, 8, 9, 10, 11, (12 : Int)] (List.replicate (4 * 4) 0)).2.2
        (List.replicate 12 0)).1 = true
      ∧ (∀ y c : Nat, y < 4 → c + 1 ≤ 4 / 2 → ¬ (y = 4 / 2 ∧ c = 4 / 2 - 1) →
          (InverseQuadrantSwap 4 4 (some (fun _ => 0))
              (ForwardQuadrantSwap 4 4 (some (fun _ => 0))
                [1, 2, 3, 4, 5, 6, 7, 8, 9, 10, 11, (12 : Int)] (List.replicate (4 * 4) 0)).2.2
              (List.replicate 12 0)).2[y * (4 / 2 + 1) + c]?
            = [1, 2, 3, 4, 5, 6, 7, 8, 9, 10, 11, (12 : Int)][y * (4 / 2 + 1) + c]?)
      ∧ (∀ y : Nat, y < 4 →
          (InverseQuadrantSwap 4 4 (some (fun _ => 0))
              (ForwardQuadrantSwap 4 4 (some (fun _ => 0))
                [1, 2, 3, 4, 5, 6, 7, 8, 9, 10, 11, (12 : Int)] (List.replicate (4 * 4) 0)).2.2
              (List.replicate 12 0)).2[y * (4 / 2 + 1) + 4 / 2]? = some 0)
      ∧ (InverseQuadrantSwap 4 4 (some (fun _ => 0))
              (ForwardQuadrantSwap 4 4 (some (fun _ => 0))
                [1, 2, 3, 4, 5, 6, 7, 8, 9, 10, 11, (12 : Int)] (List.replicate (4 * 4) 0)).2.2
              (List.replicate 12 0)).2[4 / 2 * (4 / 2 + 1) + (4 / 2 - 1)]? = some 0 :=
  swap_roundtrip_preserved_cells 4 (by decide) (by decide) (fun _ => 0) (fun _ => 0)
    [1, 2, 3, 4, 5, 6, 7, 8, 9, 10, 11, 12] (List.replicate 12 0) (by decide) (by decide)

theorem quadrant_swap_index_safety_witness :
    (∀ a ∈ RollFourier_assignments (4 / 2 + 1) 4 0 (Int.tdiv ((4 : Nat) : Int) 2),
        0 ≤ a.write ∧ a.write < ((4 * (4 / 2 + 1) : Nat) : Int)
          ∧ 0 ≤ a.read ∧ a.read < ((4 * (4 / 2 + 1) : Nat) : Int))
      ∧ (∀ a ∈ ForwardQuadrantSwap_first 4 4 ++ ForwardQuadrantSwap_second 4 4,
        0 ≤ a.write ∧ a.write < ((4 * 4 : Nat) : Int)
          ∧ 0 ≤ a.read ∧ a.read < ((4 * (4 / 2 + 1) : Nat) : Int))
      ∧ (∀ a ∈ ForwardQuadrantSwap_third 4,
        0 ≤ a.write ∧ a.write < ((4 * 4 : Nat) : Int)
          ∧ 0 ≤ a.read ∧ a.read < ((4 * 4 : Nat) : Int))
      ∧ (∃ a ∈ ForwardQuadrantSwap_third 4, a.read = ((4 : Nat) : Int))
      ∧ (∀ a ∈ InverseQuadrantSwap_first 4 4 ++ InverseQuadrantSwap_second 4 4
            ++ InverseQuadrantSwap_third 4,
        0 ≤ a.write ∧ a.write < ((4 * (4 / 2 + 1) : Nat) : Int)
          ∧ 0 ≤ a.read ∧ a.read < ((4 * 4 : Nat) : Int))
      ∧ (∀ a ∈ RollFourier_assignments (4 / 2 + 1) 4 0 (Int.tdiv ((4 : Nat) : Int) (-2)),
        0 ≤ a.write ∧ a.write < ((4 * (4 / 2 + 1) : Nat) : Int)
          ∧ 0 ≤ a.read ∧ a.read < ((4 * (4 / 2 + 1) : Nat) : Int))
      ∧ (∀ j : Nat, j < 4 * (4 / 2 + 1) →
          ∃ a ∈ InverseQuadrantSwap_first 4 4 ++ InverseQuadrantSwap_second 4 4
            ++ InverseQuadrantSwap_third 4, a.write = (j : Int)) :=
  quadrant_swap_index_safety 4 (by decide) (by decide)

end Fourier

namespace ConvolveProgram

variable {K : Type} [LinearOrderedField K]

/-! ## The sampling loops as sums -/

/-- A symmetric loop whose body advances the filter index by `d` and adds to
the observed component `φ` a term depending on the loop variable and on the
filter index adds up the terms. -/
theorem forLoopIncl_sum (m d : Nat) (step : Int → Accumulator K → Accumulator K)
    (φ : Accumulator K → K) (T : Int → Nat → K)
    (hi : ∀ v acc, (step v acc).i = acc.i + d)
    (hφ : ∀ v acc, φ (step v acc) = φ acc + T v acc.i) (acc : Accumulator K) :
    (forLoopIncl (-(m : Int)) (m : Int) step acc).i = acc.i + (2 * m + 1) * d
      ∧ φ (forLoopIncl (-(m : Int)) (m : Int) step acc)
        = φ acc + ∑ j in Finset.range (2 * m + 1), T ((j : Int) - (m : Int)) (acc.i + j * d) := by
  have hn : ((m : Int) - -(m : Int) + 1).toNat = 2 * m + 1 := by omega
  unfold forLoopIncl
  rw [hn]
  have key := Fourier.forLoop_invariant
    (fun k (st : Accumulator K) => st.i = acc.i + k * d
      ∧ φ st = φ acc + ∑ j in Finset.range k, T ((j : Int) - (m : Int)) (acc.i + j * d))
    0 (2 * m + 1) (fun k st => step (-(m : Int) + (k : Int)) st) acc (Nat.zero_le _)
    ⟨by simp, by simp⟩
    (by
      intro k st _ _ hP
      obtain ⟨h1, h2⟩ := hP
      refine ⟨by rw [hi, h1]; ring, ?_⟩
      rw [hφ, h2, Finset.sum_range_succ, h1]
      have e : -(m : Int) + (k : Int) = (k : Int) - (m : Int) := by ring
      rw [e]
      ring)
  exact key

/-- Two nested symmetric loops whose inner body advances the filter index by 1
and adds a term to the observed component add up the terms over the taps. -/
theorem nested_sum (mh mw : Nat) (step : Int → Int → Accumulator K → Accumulator K)
    (φ : Accumulator K → K) (term : Int → Int → Nat → K)
    (hi : ∀ v u acc, (step v u acc).i = acc.i + 1)
    (hφ : ∀ v u acc, φ (step v u acc) = φ acc + term v u acc.i) (acc : Accumulator K) :
    φ (forLoopIncl (-(mh : Int)) (mh : Int) (fun v acc =>
        forLoopIncl (-(mw : Int)) (mw : Int) (fun u acc => step v u acc) acc) acc)
      = φ acc + ∑ j in Finset.range (2 * mh + 1), ∑ i in Finset.range (2 * mw + 1),
          term ((j : Int) - (mh : Int)) ((i : Int) - (mw : Int))
            (acc.i + j * (2 * mw + 1) + i) := by
  have inner := fun (v : Int) (a : Accumulator K) =>
    forLoopIncl_sum mw 1 (fun u acc => step v u acc) φ (fun u n => term v u n)
      (fun u acc => hi v u acc) (fun u acc => hφ v u acc) a
  have outer := forLoopIncl_sum mh ((2 * mw + 1) * 1)
    (fun v acc => forLoopIncl (-(mw : Int)) (mw : Int) (fun u acc => step v u acc) acc) φ
    (fun v n => ∑ i in Finset.range (2 * mw + 1), term v ((i : Int) - (mw : Int)) (n + i * 1))
    (fun v a => (inner v a).1) (fun v a => (inner v a).2) acc
  rw [outer.2]
  simp only [Nat.mul_one]

theorem ClampToCanvas_inside (offset : Int) (range : Nat) (h0 : 0 ≤ offset)
    (h1 : offset < (range : Int)) : ClampToCanvas offset range = offset := by
  unfold ClampToCanvas
  split_ifs <;> omega

theorem ClampToCanvas_bounds (offset : Int) (range : Nat) (h : 1 ≤ range) :
    0 ≤ ClampToCanvas offset range ∧ ClampToCanvas offset range < (range : Int) := by
  unfold ClampToCanvas
  split_ifs <;> omega

/-- The method chosen by `Convolve`: the clamped path, or the unclamped one at
a pixel whose whole neighbourhood lies inside the image. -/
theorem Convolve_method_spec (columns rows x y width height : Nat) (matte : Bool)
    (hx : x < columns) (hy : y < rows) :
    Convolve_method columns rows x y width height matte = (if matte then 1 else 0)
      ∨ (Convolve_method columns rows x y width height matte = (if matte then 3 else 2)
        ∧ width ≤ x ∧ x + width + 1 < columns ∧ height ≤ y ∧ y + height + 1 < rows) := by
  by_cases hint : (x : Int) ≥ (width : Int)
        ∧ (x : Int) < ((columns : Int) - (width : Int) - 1) % 18446744073709551616
        ∧ (y : Int) ≥ (height : Int)
        ∧ (y : Int) < ((rows : Int) - (height : Int) - 1) % 18446744073709551616
  · right
    refine ⟨?_, by omega, by omega, by omega, by omega⟩
    simp only [Convolve_method, if_pos hint]
    cases matte <;> rfl
  · left
    simp only [Convolve_method, if_neg hint]
    cases matte <;> rfl

/-- The accumulators left by the sampling loops of method 0, the clamped path without alpha. -/
theorem Convolve_sample_zero (QuantumRange : Nat) (columns rows x y : Nat)
    (input : Nat → CLPixelType) (filter : Nat → K) (mw mh : Nat) :
    (Convolve_sample QuantumRange columns rows x y input filter (2 * mw + 1)
        (2 * mh + 1) 0
        { sum := { x := 0, y := 0, z := 0, w := 0 }, gamma := 0, i := 0 }).gamma
        = contract_gamma QuantumRange columns rows x y input filter (2 * mw + 1)
          (2 * mh + 1) false
      ∧ (Convolve_sample QuantumRange columns rows x y input filter (2 * mw + 1)
        (2 * mh + 1) 0
        { sum := { x := 0, y := 0, z := 0, w := 0 }, gamma := 0, i := 0 }).sum.x
        = contract_sum QuantumRange columns rows x y input filter (2 * mw + 1)
          (2 * mh + 1) false (fun p => p.x)
      ∧ (Convolve_sample QuantumRange columns rows x y input filter (2 * mw + 1)
        (2 * mh + 1) 0
        { sum := { x := 0, y := 0, z := 0, w := 0 }, gamma := 0, i := 0 }).sum.y
        = contract_sum QuantumRange columns rows x y input filter (2 * mw + 1)
          (2 * mh + 1) false (fun p => p.y)
      ∧ (Convolve_sample QuantumRange columns rows x y input filter (2 * mw + 1)
        (2 * mh + 1) 0
        { sum := { x := 0, y := 0, z := 0, w := 0 }, gamma := 0, i := 0 }).sum.z
        = contract_sum QuantumRange columns rows x y input filter (2 * mw + 1)
          (2 * mh + 1) false (fun p => p.z)
      ∧ (Convolve_sample QuantumRange columns rows x y input filter (2 * mw + 1)
        (2 * mh + 1) 0
        { sum := { x := 0, y := 0, z := 0, w := 0 }, gamma := 0, i := 0 }).sum.w = 0 := by
  have e1 : (2 * mw + 1 - 1) / 2 = mw := by omega
  have e2 : (2 * mh + 1 - 1) / 2 = mh := by omega
  simp only [Convolve_sample, e1, e2]
  refine ⟨?_, ?_, ?_, ?_, ?_⟩
  · refine (nested_sum mh mw _ (fun a => a.gamma)
      (fun v u n => filter n)
      (fun _ _ _ => rfl) (fun _ _ _ => rfl) _).trans ?_
    simp only [contract_gamma, contract_sum, contract_opacity, contract_alpha, contract_cell,
      e1, e2, zero_add]
    refine Finset.sum_congr rfl (fun j hj => Finset.sum_congr rfl (fun i hi => ?_))
    rw [Finset.mem_range] at hj hi
    simp only [add_sub_assoc, if_true, Bool.false_eq_true, if_false]
    try ring
  · refine (nested_sum mh mw _ (fun a => a.sum.x)
      (fun v u n => filter n * ((input
          (ClampToCanvas ((y : Int) + v) rows * (columns : Int)
          + ClampToCanvas ((x : Int) + u) columns).toNat).x : K))
      (fun _ _ _ => rfl) (fun _ _ _ => rfl) _).trans ?_
    simp only [contract_gamma, contract_sum, contract_opacity, contract_alpha, contract_cell,
      e1, e2, zero_add]
    refine Finset.sum_congr rfl (fun j hj => Finset.sum_congr rfl (fun i hi => ?_))
    rw [Finset.mem_range] at hj hi
    simp only [add_sub_assoc, if_true, Bool.false_eq_true, if_false]
    try ring
  · refine (nested_sum mh mw _ (fun a => a.sum.y)
      (fun v u n => filter n * ((input
          (ClampToCanvas ((y : Int) + v) rows * (columns : Int)
          + ClampToCanvas ((x : Int) + u) columns).toNat).y : K))
      (fun _ _ _ => rfl) (fun _ _ _ => rfl) _).trans ?_
    simp only [contract_gamma, contract_sum, contract_opacity, contract_alpha, contract_cell,
      e1, e2, zero_add]
    refine Finset.sum_congr rfl (fun j hj => Finset.sum_congr rfl (fun i hi => ?_))
    rw [Finset.mem_range] at hj hi
    simp only [add_sub_assoc, if_true, Bool.false_eq_true, if_false]
    try ring
  · refine (nested_sum mh mw _ (fun a => a.sum.z)
      (fun v u n => filter n * ((input
          (ClampToCanvas ((y : Int) + v) rows * (columns : Int)
          + ClampToCanvas ((x : Int) + u) columns).toNat).z : K))
      (fun _ _ _ => rfl) (fun _ _ _ => rfl) _).trans ?_
    simp only [contract_gamma, contract_sum, contract_opacity, contract_alpha, contract_cell,
      e1, e2, zero_add]
    refine Finset.sum_congr rfl (fun j hj => Finset.sum_congr rfl (fun i hi => ?_))
    rw [Finset.mem_range] at hj hi
    simp only [add_sub_assoc, if_true, Bool.false_eq_true, if_false]
    try ring
  · refine (nested_sum mh mw _ (fun a => a.sum.w) (fun _ _ _ => 0)
      (fun _ _ _ => rfl) (fun _ _ _ => (add_zero _).symm) _).trans ?_
    simp

/-- The accumulators left by the sampling loops of method 1, the clamped path with alpha. -/
theorem Convolve_sample_one (QuantumRange : Nat) (columns rows x y : Nat)
    (input : Nat → CLPixelType) (filter : Nat → K) (mw mh : Nat) :
    (Convolve_sample QuantumRange columns rows x y input filter (2 * mw + 1)
        (2 * mh + 1) 1
        { sum := { x := 0, y := 0, z := 0, w := 0 }, gamma := 0, i := 0 }).gamma
        = contract_gamma QuantumRange columns rows x y input filter (2 * mw + 1)
          (2 * mh + 1) true
      ∧ (Convolve_sample QuantumRange columns rows x y input filter (2 * mw + 1)
        (2 * mh + 1) 1
        { sum := { x := 0, y := 0, z := 0, w := 0 }, gamma := 0, i := 0 }).sum.x
        = contract_sum QuantumRange columns rows x y input filter (2 * mw + 1)
          (2 * mh + 1) true (fun p => p.x)
      ∧ (Convolve_sample QuantumRange columns rows x y input filter (2 * mw + 1)
        (2 * mh + 1) 1
        { sum := { x := 0, y := 0, z := 0, w := 0 }, gamma := 0, i := 0 }).sum.y
        = contract_sum QuantumRange columns rows x y input filter (2 * mw + 1)
          (2 * mh + 1) true (fun p => p.y)
      ∧ (Convolve_sample QuantumRange columns rows x y input filter (2 * mw + 1)
        (2 * mh + 1) 1
        { sum := { x := 0, y := 0, z := 0, w := 0 }, gamma := 0, i := 0 }).sum.z
        = contract_sum QuantumRange columns rows x y input filter (2 * mw + 1)
          (2 * mh + 1) true (fun p => p.z)
      ∧ (Convolve_sample QuantumRange columns rows x y input filter (2 * mw + 1)
        (2 * mh + 1) 1
        { sum := { x := 0, y := 0, z := 0, w := 0 }, gamma := 0, i := 0 }).sum.w
        = contract_opacity columns rows x y input filter (2 * mw + 1) (2 * mh + 1) := by
  have e1 : (2 * mw + 1 - 1) / 2 = mw := by omega
  have e2 : (2 * mh + 1 - 1) / 2 = mh := by omega
  simp only [Convolve_sample, e1, e2]
  refine ⟨?_, ?_, ?_, ?_, ?_⟩
  · refine (nested_sum mh mw _ (fun a => a.gamma)
      (fun v u n => (1 / (QuantumRange : K)
        * ((QuantumRange : K) - ((input
          (ClampToCanvas ((y : Int) + v) rows * (columns : Int)
          + ClampToCanvas ((x : Int) + u) columns).toNat).w : K))) * filter n)
      (fun _ _ _ => rfl) (fun _ _ _ => rfl) _).trans ?_
    simp only [contract_gamma, contract_sum, contract_opacity, contract_alpha, contract_cell,
      e1, e2, zero_add]
    refine Finset.sum_congr rfl (fun j hj => Finset.sum_congr rfl (fun i hi => ?_))
    rw [Finset.mem_range] at hj hi
    simp only [add_sub_assoc, if_true, Bool.false_eq_true, if_false]
    try ring
  · refine (nested_sum mh mw _ (fun a => a.sum.x)
      (fun v u n => (1 / (QuantumRange : K)
        * ((QuantumRange : K) - ((input
          (ClampToCanvas ((y : Int) + v) rows * (columns : Int)
          + ClampToCanvas ((x : Int) + u) columns).toNat).w : K))) * filter n
        * ((input
          (ClampToCanvas ((y : Int) + v) rows * (columns : Int)
          + ClampToCanvas ((x : Int) + u) columns).toNat).x : K))
      (fun _ _ _ => rfl) (fun _ _ _ => rfl) _).trans ?_
    simp only [contract_gamma, contract_sum, contract_opacity, contract_alpha, contract_cell,
      e1, e2, zero_add]
    refine Finset.sum_congr rfl (fun j hj => Finset.sum_congr rfl (fun i hi => ?_))
    rw [Finset.mem_range] at hj hi
    simp only [add_sub_assoc, if_true, Bool.false_eq_true, if_false]
    try ring
  · refine (nested_sum mh mw _ (fun a => a.sum.y)
      (fun v u n => (1 / (QuantumRange : K)
        * ((QuantumRange : K) - ((input
          (ClampToCanvas ((y : Int) + v) rows * (columns : Int)
          + ClampToCanvas ((x : Int) + u) columns).toNat).w : K))) * filter n
        * ((input
          (ClampToCanvas ((y : Int) + v) rows * (columns : Int)
          + ClampToCanvas ((x : Int) + u) columns).toNat).y : K))
      (fun _ _ _ => rfl) (fun _ _ _ => rfl) _).trans ?_
    simp only [contract_gamma, contract_sum, contract_opacity, contract_alpha, contract_cell,
      e1, e2, zero_add]
    refine Finset.sum_congr rfl (fun j hj => Finset.sum_congr rfl (fun i hi => ?_))
    rw [Finset.mem_range] at hj hi
    simp only [add_sub_assoc, if_true, Bool.false_eq_true, if_false]
    try ring
  · refine (nested_sum mh mw _ (fun a => a.sum.z)
      (fun v u n => (1 / (QuantumRange : K)
        * ((QuantumRange : K) - ((input
          (ClampToCanvas ((y : Int) + v) rows * (columns : Int)
          + ClampToCanvas ((x : Int) + u) columns).toNat).w : K))) * filter n
        * ((input
          (ClampToCanvas ((y : Int) + v) rows * (columns : Int)
          + ClampToCanvas ((x : Int) + u) columns).toNat).z : K))
      (fun _ _ _ => rfl) (fun _ _ _ => rfl) _).trans ?_
    simp only [contract_gamma, contract_sum, contract_opacity, contract_alpha, contract_cell,
      e1, e2, zero_add]
    refine Finset.sum_congr rfl (fun j hj => Finset.sum_congr rfl (fun i hi => ?_))
    rw [Finset.mem_range] at hj hi
    simp only [add_sub_assoc, if_true, Bool.false_eq_true, if_false]
    try ring
  · refine (nested_sum mh mw _ (fun a => a.sum.w)
      (fun v u n => filter n * ((input
          (ClampToCanvas ((y : Int) + v) rows * (columns : Int)
          + ClampToCanvas ((x : Int) + u) columns).toNat).w : K))
      (fun _ _ _ => rfl) (fun _ _ _ => rfl) _).trans ?_
    simp only [contract_gamma, contract_sum, contract_opacity, contract_alpha, contract_cell,
      e1, e2, zero_add]
    refine Finset.sum_congr rfl (fun j hj => Finset.sum_congr rfl (fun i hi => ?_))
    rw [Finset.mem_range] at hj hi
    simp only [add_sub_assoc, if_true, Bool.false_eq_true, if_false]
    try ring

/-- The accumulators left by the sampling loops of method 2, the unclamped path without alpha, at an interior pixel. -/
theorem Convolve_sample_two (QuantumRange : Nat) (columns rows x y : Nat)
    (input : Nat → CLPixelType) (filter : Nat → K) (mw mh : Nat)
    (h1 : 2 * mw + 1 ≤ x) (h2 : x + (2 * mw + 1) + 1 < columns)
    (h3 : 2 * mh + 1 ≤ y) (h4 : y + (2 * mh + 1) + 1 < rows) :
    (Convolve_sample QuantumRange columns rows x y input filter (2 * mw + 1)
        (2 * mh + 1) 2
        { sum := { x := 0, y := 0, z := 0, w := 0 }, gamma := 0, i := 0 }).gamma
        = contract_gamma QuantumRange columns rows x y input filter (2 * mw + 1)
          (2 * mh + 1) false
      ∧ (Convolve_sample QuantumRange columns rows x y input filter (2 * mw + 1)
        (2 * mh + 1) 2
        { sum := { x := 0, y := 0, z := 0, w := 0 }, gamma := 0, i := 0 }).sum.x
        = contract_sum QuantumRange columns rows x y input filter (2 * mw + 1)
          (2 * mh + 1) false (fun p => p.x)
      ∧ (Convolve_sample QuantumRange columns rows x y input filter (2 * mw + 1)
        (2 * mh + 1) 2
        { sum := { x := 0, y := 0, z := 0, w := 0 }, gamma := 0, i := 0 }).sum.y
        = contract_sum QuantumRange columns rows x y input filter (2 * mw + 1)
          (2 * mh + 1) false (fun p => p.y)
      ∧ (Convolve_sample QuantumRange columns rows x y input filter (2 * mw + 1)
        (2 * mh + 1) 2
        { sum := { x := 0, y := 0, z := 0, w := 0 }, gamma := 0, i := 0 }).sum.z
        = contract_sum QuantumRange columns rows x y input filter (2 * mw + 1)
          (2 * mh + 1) false (fun p => p.z)
      ∧ (Convolve_sample QuantumRange columns rows x y input filter (2 * mw + 1)
        (2 * mh + 1) 2
        { sum := { x := 0, y := 0, z := 0, w := 0 }, gamma := 0, i := 0 }).sum.w = 0 := by
  have e1 : (2 * mw + 1 - 1) / 2 = mw := by omega
  have e2 : (2 * mh + 1 - 1) / 2 = mh := by omega
  simp only [Convolve_sample, e1, e2]
  refine ⟨?_, ?_, ?_, ?_, ?_⟩
  · refine (nested_sum mh mw _ (fun a => a.gamma)
      (fun v u n => filter n)
      (fun _ _ _ => rfl) (fun _ _ _ => rfl) _).trans ?_
    simp only [contract_gamma, contract_sum, contract_opacity, contract_alpha, contract_cell,
      e1, e2, zero_add]
    refine Finset.sum_congr rfl (fun j hj => Finset.sum_congr rfl (fun i hi => ?_))
    rw [Finset.mem_range] at hj hi
    rw [ClampToCanvas_inside _ _ (by omega) (by omega),
      ClampToCanvas_inside _ _ (by omega) (by omega)]
    simp only [add_sub_assoc, if_true, Bool.false_eq_true, if_false]
    try ring
  · refine (nested_sum mh mw _ (fun a => a.sum.x)
      (fun v u n => filter n * ((input
          (((y : Int) + v) * (columns : Int) + ((x : Int) + u)).toNat).x : K))
      (fun _ _ _ => rfl) (fun _ _ _ => rfl) _).trans ?_
    simp only [contract_gamma, contract_sum, contract_opacity, contract_alpha, contract_cell,
      e1, e2, zero_add]
    refine Finset.sum_congr rfl (fun j hj => Finset.sum_congr rfl (fun i hi => ?_))
    rw [Finset.mem_range] at hj hi
    rw [ClampToCanvas_inside _ _ (by omega) (by omega),
      ClampToCanvas_inside _ _ (by omega) (by omega)]
    simp only [add_sub_assoc, if_true, Bool.false_eq_true, if_false]
    try ring
  · refine (nested_sum mh mw _ (fun a => a.sum.y)
      (fun v u n => filter n * ((input
          (((y : Int) + v) * (columns : Int) + ((x : Int) + u)).toNat).y : K))
      (fun _ _ _ => rfl) (fun _ _ _ => rfl) _).trans ?_
    simp only [contract_gamma, contract_sum, contract_opacity, contract_alpha, contract_cell,
      e1, e2, zero_add]
    refine Finset.sum_congr rfl (fun j hj => Finset.sum_congr rfl (fun i hi => ?_))
    rw [Finset.mem_range] at hj hi
    rw [ClampToCanvas_inside _ _ (by omega) (by omega),
      ClampToCanvas_inside _ _ (by omega) (by omega)]
    simp only [add_sub_assoc, if_true, Bool.false_eq_true, if_false]
    try ring
  · refine (nested_sum mh mw _ (fun a => a.sum.z)
      (fun v u n => filter n * ((input
          (((y : Int) + v) * (columns : Int) + ((x : Int) + u)).toNat).z : K))
      (fun _ _ _ => rfl) (fun _ _ _ => rfl) _).trans ?_
    simp only [contract_gamma, contract_sum, contract_opacity, contract_alpha, contract_cell,
      e1, e2, zero_add]
    refine Finset.sum_congr rfl (fun j hj => Finset.sum_congr rfl (fun i hi => ?_))
    rw [Finset.mem_range] at hj hi
    rw [ClampToCanvas_inside _ _ (by omega) (by omega),
      ClampToCanvas_inside _ _ (by omega) (by omega)]
    simp only [add_sub_assoc, if_true, Bool.false_eq_true, if_false]
    try ring
  · refine (nested_sum mh mw _ (fun a => a.sum.w) (fun _ _ _ => 0)
      (fun _ _ _ => rfl) (fun _ _ _ => (add_zero _).symm) _).trans ?_
    simp

/-- The accumulators left by the sampling loops of method 3, the unclamped path with alpha, at an interior pixel. -/
theorem Convolve_sample_three (QuantumRange : Nat) (columns rows x y : Nat)
    (input : Nat → CLPixelType) (filter : Nat → K) (mw mh : Nat)
    (h1 : 2 * mw + 1 ≤ x) (h2 : x + (2 * mw + 1) + 1 < columns)
    (h3 : 2 * mh + 1 ≤ y) (h4 : y + (2 * mh + 1) + 1 < rows) :
    (Convolve_sample QuantumRange columns rows x y input filter (2 * mw + 1)
        (2 * mh + 1) 3
        { sum := { x := 0, y := 0, z := 0, w := 0 }, gamma := 0, i := 0 }).gamma
        = contract_gamma QuantumRange columns rows x y input filter (2 * mw + 1)
          (2 * mh + 1) true
      ∧ (Convolve_sample QuantumRange columns rows x y input filter (2 * mw + 1)
        (2 * mh + 1) 3
        { sum := { x := 0, y := 0, z := 0, w := 0 }, gamma := 0, i := 0 }).sum.x
        = contract_sum QuantumRange columns rows x y input filter (2 * mw + 1)
          (2 * mh + 1) true (fun p => p.x)
      ∧ (Convolve_sample QuantumRange columns rows x y input filter (2 * mw + 1)
        (2 * mh + 1) 3
        { sum := { x := 0, y := 0, z := 0, w := 0 }, gamma := 0, i := 0 }).sum.y
        = contract_sum QuantumRange columns rows x y input filter (2 * mw + 1)
          (2 * mh + 1) true (fun p => p.y)
      ∧ (Convolve_sample QuantumRange columns rows x y input filter (2 * mw + 1)
        (2 * mh + 1) 3
        { sum := { x := 0, y := 0, z := 0, w := 0 }, gamma := 0, i := 0 }).sum.z
        = contract_sum QuantumRange columns rows x y input filter (2 * mw + 1)
          (2 * mh + 1) true (fun p => p.z)
      ∧ (Convolve_sample QuantumRange columns rows x y input filter (2 * mw + 1)
        (2 * mh + 1) 3
        { sum := { x := 0, y := 0, z := 0, w := 0 }, gamma := 0, i := 0 }).sum.w
        = contract_opacity columns rows x y input filter (2 * mw + 1) (2 * mh + 1) := by
  have e1 : (2 * mw + 1 - 1) / 2 = mw := by omega
  have e2 : (2 * mh + 1 - 1) / 2 = mh := by omega
  simp only [Convolve_sample, e1, e2]
  refine ⟨?_, ?_, ?_, ?_, ?_⟩
  · refine (nested_sum mh mw _ (fun a => a.gamma)
      (fun v u n => (1 / (QuantumRange : K)
        * ((QuantumRange : K) - ((input
          (((y : Int) + v) * (columns : Int) + ((x : Int) + u)).toNat).w : K))) * filter n)
      (fun _ _ _ => rfl) (fun _ _ _ => rfl) _).trans ?_
    simp only [contract_gamma, contract_sum, contract_opacity, contract_alpha, contract_cell,
      e1, e2, zero_add]
    refine Finset.sum_congr rfl (fun j hj => Finset.sum_congr rfl (fun i hi => ?_))
    rw [Finset.mem_range] at hj hi
    rw [ClampToCanvas_inside _ _ (by omega) (by omega),
      ClampToCanvas_inside _ _ (by omega) (by omega)]
    simp only [add_sub_assoc, if_true, Bool.false_eq_true, if_false]
    try ring
  · refine (nested_sum mh mw _ (fun a => a.sum.x)
      (fun v u n => (1 / (QuantumRange : K)
        * ((QuantumRange : K) - ((input
          (((y : Int) + v) * (columns : Int) + ((x : Int) + u)).toNat).w : K))) * filter n
        * ((input
          (((y : Int) + v) * (columns : Int) + ((x : Int) + u)).toNat).x : K))
      (fun _ _ _ => rfl) (fun _ _ _ => rfl) _).trans ?_
    simp only [contract_gamma, contract_sum, contract_opacity, contract_alpha, contract_cell,
      e1, e2, zero_add]
    refine Finset.sum_congr rfl (fun j hj => Finset.sum_congr rfl (fun i hi => ?_))
    rw [Finset.mem_range] at hj hi
    rw [ClampToCanvas_inside _ _ (by omega) (by omega),
      ClampToCanvas_inside _ _ (by omega) (by omega)]
    simp only [add_sub_assoc, if_true, Bool.false_eq_true, if_false]
    try ring
  · refine (nested_sum mh mw _ (fun a => a.sum.y)
      (fun v u n => (1 / (QuantumRange : K)
        * ((QuantumRange : K) - ((input
          (((y : Int) + v) * (columns : Int) + ((x : Int) + u)).toNat).w : K))) * filter n
        * ((input
          (((y : Int) + v) * (columns : Int) + ((x : Int) + u)).toNat).y : K))
      (fun _ _ _ => rfl) (fun _ _ _ => rfl) _).trans ?_
    simp only [contract_gamma, contract_sum, contract_opacity, contract_alpha, contract_cell,
      e1, e2, zero_add]
    refine Finset.sum_congr rfl (fun j hj => Finset.sum_congr rfl (fun i hi => ?_))
    rw [Finset.mem_range] at hj hi
    rw [ClampToCanvas_inside _ _ (by omega) (by omega),
      ClampToCanvas_inside _ _ (by omega) (by omega)]
    simp only [add_sub_assoc, if_true, Bool.false_eq_true, if_false]
    try ring
  · refine (nested_sum mh mw _ (fun a => a.sum.z)
      (fun v u n => (1 / (QuantumRange : K)
        * ((QuantumRange : K) - ((input
          (((y : Int) + v) * (columns : Int) + ((x : Int) + u)).toNat).w : K))) * filter n
        * ((input
          (((y : Int) + v) * (columns : Int) + ((x : Int) + u)).toNat).z : K))
      (fun _ _ _ => rfl) (fun _ _ _ => rfl) _).trans ?_
    simp only [contract_gamma, contract_sum, contract_opacity, contract_alpha, contract_cell,
      e1, e2, zero_add]
    refine Finset.sum_congr rfl (fun j hj => Finset.sum_congr rfl (fun i hi => ?_))
    rw [Finset.mem_range] at hj hi
    rw [ClampToCanvas_inside _ _ (by omega) (by omega),
      ClampToCanvas_inside _ _ (by omega) (by omega)]
    simp only [add_sub_assoc, if_true, Bool.false_eq_true, if_false]
    try ring
  · refine (nested_sum mh mw _ (fun a => a.sum.w)
      (fun v u n => filter n * ((input
          (((y : Int) + v) * (columns : Int) + ((x : Int) + u)).toNat).w : K))
      (fun _ _ _ => rfl) (fun _ _ _ => rfl) _).trans ?_
    simp only [contract_gamma, contract_sum, contract_opacity, contract_alpha, contract_cell,
      e1, e2, zero_add]
    refine Finset.sum_congr rfl (fun j hj => Finset.sum_congr rfl (fun i hi => ?_))
    rw [Finset.mem_range] at hj hi
    rw [ClampToCanvas_inside _ _ (by omega) (by omega),
      ClampToCanvas_inside _ _ (by omega) (by omega)]
    simp only [add_sub_assoc, if_true, Bool.false_eq_true, if_false]
    try ring
/-- The pixel stored by `Convolve`, in terms of the sums of the contract, for a
kernel of odd dimensions `2*mw+1` by `2*mh+1`. -/
theorem Convolve_eq_contract [FloorRing K] (QuantumRange : Nat) (MagickEpsilon : K)
    (columns rows x y : Nat) (input : Nat → CLPixelType) (filter : Nat → K) (mw mh : Nat)
    (matte : Bool) (hx : x < columns) (hy : y < rows) :
    Convolve QuantumRange MagickEpsilon columns rows x y input filter (2 * mw + 1)
        (2 * mh + 1) matte
      = { x := ClampToQuantum QuantumRange
            (contract_sum QuantumRange columns rows x y input filter (2 * mw + 1)
                (2 * mh + 1) matte (fun p => p.x)
              / contract_g MagickEpsilon
                (contract_gamma QuantumRange columns rows x y input filter (2 * mw + 1)
                  (2 * mh + 1) matte)),
          y := ClampToQuantum QuantumRange
            (contract_sum QuantumRange columns rows x y input filter (2 * mw + 1)
                (2 * mh + 1) matte (fun p => p.y)
              / contract_g MagickEpsilon
                (contract_gamma QuantumRange columns rows x y input filter (2 * mw + 1)
                  (2 * mh + 1) matte)),
          z := ClampToQuantum QuantumRange
            (contract_sum QuantumRange columns rows x y input filter (2 * mw + 1)
                (2 * mh + 1) matte (fun p => p.z)
              / contract_g MagickEpsilon
                (contract_gamma QuantumRange columns rows x y input filter (2 * mw + 1)
                  (2 * mh + 1) matte)),
          w := if matte = false then (input (y * columns + x)).w
            else ClampToQuantum QuantumRange
              (contract_opacity columns rows x y input filter (2 * mw + 1) (2 * mh + 1)) } := by
  have hdiv : ∀ a b : K, 1 / a * b = b / a := fun a b => by
    rw [one_div, inv_mul_eq_div]
  rcases Convolve_method_spec columns rows x y (2 * mw + 1) (2 * mh + 1) matte hx hy with
    h | ⟨h, h1, h2, h3, h4⟩
  · cases matte
    · obtain ⟨g, sx, sy, sz, _⟩ := Convolve_sample_zero QuantumRange columns rows x y input
        filter mw mh
      simp only [Convolve, h, Bool.false_eq_true, if_false, if_true, g, sx, sy, sz, hdiv,
        contract_g]
    · obtain ⟨g, sx, sy, sz, sw⟩ := Convolve_sample_one QuantumRange columns rows x y input
        filter mw mh
      simp only [Convolve, h, Bool.true_eq_false, if_false, if_true, g, sx, sy, sz, sw, hdiv,
        contract_g]
  · cases matte
    · obtain ⟨g, sx, sy, sz, _⟩ := Convolve_sample_two QuantumRange columns rows x y input
        filter mw mh h1 h2 h3 h4
      simp only [Convolve, h, Bool.false_eq_true, if_false, if_true, g, sx, sy, sz, hdiv,
        contract_g]
    · obtain ⟨g, sx, sy, sz, sw⟩ := Convolve_sample_three QuantumRange columns rows x y input
        filter mw mh h1 h2 h3 h4
      simp only [Convolve, h, Bool.true_eq_false, if_false, if_true, g, sx, sy, sz, sw, hdiv,
        contract_g]

theorem odd_eq (n : Nat) (h : n % 2 = 1) : n = 2 * ((n - 1) / 2) + 1 := by omega

/-- C11: for a kernel of odd width and odd height and an output pixel `(x,y)`
of the image, the colour components stored by `Convolve` are
`ClampToQuantum(sum_c / g)`, where `sum_c` and `gamma` are the sums of the
contract over the clamped sample points and `g` is 1 when
`|gamma| ≤ MagickEpsilon` and `gamma` otherwise. -/
theorem Convolve_per_pixel_contract [FloorRing K] (QuantumRange : Nat) (MagickEpsilon : K)
    (columns rows x y : Nat) (input : Nat → CLPixelType) (filter : Nat → K)
    (width height : Nat) (matte : Bool) (hx : x < columns) (hy : y < rows)
    (hw : width % 2 = 1) (hh : height % 2 = 1) :
    (Convolve QuantumRange MagickEpsilon columns rows x y input filter width height matte).x
        = ClampToQuantum QuantumRange
          (contract_sum QuantumRange columns rows x y input filter width height matte
              (fun p => p.x)
            / contract_g MagickEpsilon
              (contract_gamma QuantumRange columns rows x y input filter width height matte))
      ∧ (Convolve QuantumRange MagickEpsilon columns rows x y input filter width height
          matte).y
        = ClampToQuantum QuantumRange
          (contract_sum QuantumRange columns rows x y input filter width height matte
              (fun p => p.y)
            / contract_g MagickEpsilon
              (contract_gamma QuantumRange columns rows x y input filter width height matte))
      ∧ (Convolve QuantumRange MagickEpsilon columns rows x y input filter width height
          matte).z
        = ClampToQuantum QuantumRange
          (contract_sum QuantumRange columns rows x y input filter width height matte
              (fun p => p.z)
            / contract_g MagickEpsilon
              (contract_gamma QuantumRange columns rows x y input filter width height
                matte)) := by
  rw [odd_eq width hw, odd_eq height hh,
    Convolve_eq_contract QuantumRange MagickEpsilon columns rows x y input filter _ _ matte
      hx hy]
  exact ⟨rfl, rfl, rfl⟩
/-! ## Clamping -/

/-- C12: for `range ≥ 1`, `ClampToCanvas(offset,range)` is
`min(max(offset,0),range-1)`; it lies in `[0,range)`, equals `offset` when
`0 ≤ offset < range`, and no coordinate of `[0,range)` is nearer to
`offset`. -/
theorem ClampToCanvas_edge_policy (offset : Int) (range : Nat) (hrange : 1 ≤ range) :
    ClampToCanvas offset range = min (max offset 0) ((range : Int) - 1)
      ∧ 0 ≤ ClampToCanvas offset range
      ∧ ClampToCanvas offset range < (range : Int)
      ∧ (0 ≤ offset ∧ offset < (range : Int) → ClampToCanvas offset range = offset)
      ∧ ∀ z : Int, 0 ≤ z → z < (range : Int) →
          |offset - ClampToCanvas offset range| ≤ |offset - z| := by
  have hb := ClampToCanvas_bounds offset range hrange
  refine ⟨?_, hb.1, hb.2, fun h => ClampToCanvas_inside offset range h.1 h.2, ?_⟩
  · unfold ClampToCanvas
    split_ifs <;> omega
  · intro z hz0 hz1
    unfold ClampToCanvas
    split_ifs with c1 c2
    · rw [abs_of_nonpos (by omega : offset - 0 ≤ 0), abs_of_nonpos (by omega : offset - z ≤ 0)]
      omega
    · rw [abs_of_nonneg (by omega : 0 ≤ offset - ((range : Int) - 1)),
        abs_of_nonneg (by omega : 0 ≤ offset - z)]
      omega
    · simp

theorem ClampToQuantum_neg [FloorRing K] (QuantumRange : Nat) (v : K) (h : v < 0) :
    ClampToQuantum QuantumRange v = 0 := by
  unfold ClampToQuantum
  rw [if_pos h]

theorem ClampToQuantum_ge [FloorRing K] (QuantumRange : Nat) (v : K)
    (h : (QuantumRange : K) ≤ v) : ClampToQuantum QuantumRange v = QuantumRange := by
  have h0 : ¬ v < 0 := not_lt.mpr (le_trans (Nat.cast_nonneg _) h)
  unfold ClampToQuantum
  rw [if_neg h0, if_pos h]

theorem ClampToQuantum_mid [FloorRing K] (QuantumRange : Nat) (v : K) (h0 : 0 ≤ v)
    (h1 : v < (QuantumRange : K)) :
    ((ClampToQuantum QuantumRange v : Nat) : Int) = ⌊v + 1 / 2⌋ := by
  unfold ClampToQuantum
  rw [if_neg (not_lt.mpr h0), if_neg (not_le.mpr h1)]
  exact Int.toNat_of_nonneg (Int.floor_nonneg.mpr (by positivity))

theorem ClampToQuantum_le [FloorRing K] (QuantumRange : Nat) (v : K) :
    ClampToQuantum QuantumRange v ≤ QuantumRange := by
  by_cases h0 : v < 0
  · rw [ClampToQuantum_neg QuantumRange v h0]; exact Nat.zero_le _
  · by_cases h1 : (QuantumRange : K) ≤ v
    · rw [ClampToQuantum_ge QuantumRange v h1]
    · have hm := ClampToQuantum_mid QuantumRange v (not_lt.mp h0) (not_le.mp h1)
      have hlt : ⌊v + 1 / 2⌋ < (QuantumRange : Int) + 1 := by
        rw [Int.floor_lt]
        push_cast
        have := not_le.mp h1
        linarith
      omega

theorem ClampToQuantum_abs [FloorRing K] (QuantumRange : Nat) (v : K) (h0 : 0 ≤ v)
    (h1 : v ≤ (QuantumRange : K)) :
    |((ClampToQuantum QuantumRange v : Nat) : K) - v| ≤ 1 / 2 := by
  rcases eq_or_lt_of_le h1 with heq | hlt
  · rw [ClampToQuantum_ge QuantumRange v (le_of_eq heq.symm), heq]
    simp
  · have hm := ClampToQuantum_mid QuantumRange v h0 hlt
    have e : ((ClampToQuantum QuantumRange v : Nat) : K) = ((⌊v + 1 / 2⌋ : Int) : K) := by
      rw [← hm]; simp
    rw [e, abs_le]
    have f1 := Int.floor_le (v + 1 / 2)
    have f2 := Int.lt_floor_add_one (v + 1 / 2)
    constructor <;> linarith

theorem ClampToQuantum_natCast [FloorRing K] (QuantumRange n : Nat) (h : n ≤ QuantumRange) :
    ClampToQuantum QuantumRange (n : K) = n := by
  rcases Nat.eq_or_lt_of_le h with heq | hlt
  · rw [heq]; exact ClampToQuantum_ge QuantumRange _ le_rfl
  · have hm := ClampToQuantum_mid QuantumRange (n : K) (Nat.cast_nonneg _)
      (Nat.cast_lt.mpr hlt)
    have hf : ⌊(n : K) + 1 / 2⌋ = (n : Int) := by
      rw [Int.floor_eq_iff]
      push_cast
      constructor <;> linarith
    rw [hf] at hm
    exact_mod_cast hm

/-- A value between two quanta is clamped to a quantum between them. -/
theorem ClampToQuantum_between [FloorRing K] (QuantumRange lo hi : Nat) (v : K)
    (hlo : (lo : K) ≤ v) (hhi : v ≤ (hi : K)) (hq : lo ≤ QuantumRange) :
    lo ≤ ClampToQuantum QuantumRange v ∧ ClampToQuantum QuantumRange v ≤ hi := by
  have h0 : 0 ≤ v := le_trans (Nat.cast_nonneg _) hlo
  by_cases h1 : (QuantumRange : K) ≤ v
  · rw [ClampToQuantum_ge QuantumRange v h1]
    refine ⟨hq, ?_⟩
    have : (QuantumRange : K) ≤ (hi : K) := le_trans h1 hhi
    exact_mod_cast this
  · have hm := ClampToQuantum_mid QuantumRange v h0 (not_le.mp h1)
    have f1 : (lo : Int) ≤ ⌊v + 1 / 2⌋ := by
      rw [Int.le_floor]
      push_cast
      linarith
    have f2 : ⌊v + 1 / 2⌋ < (hi : Int) + 1 := by
      rw [Int.floor_lt]
      push_cast
      linarith
    omega

/-- C14: in the fixed-point build `ClampToQuantum(v)` is 0 for `v < 0`,
`QuantumRange` for `v ≥ QuantumRange` and `floor(v + 1/2)` otherwise; it is
always an integer of `[0,QuantumRange]`, it is within `1/2` of `v` for
`0 ≤ v ≤ QuantumRange`, and it returns every integer of `[0,QuantumRange]`
unchanged. The value `v` ranges over any ordered field with a floor, the
reals among them. -/
theorem ClampToQuantum_spec [FloorRing K] (QuantumRange : Nat) (v : K) :
    (v < 0 → ClampToQuantum QuantumRange v = 0)
      ∧ ((QuantumRange : K) ≤ v → ClampToQuantum QuantumRange v = QuantumRange)
      ∧ (0 ≤ v → v < (QuantumRange : K) →
          ((ClampToQuantum QuantumRange v : Nat) : Int) = ⌊v + 1 / 2⌋)
      ∧ ClampToQuantum QuantumRange v ≤ QuantumRange
      ∧ (0 ≤ v → v ≤ (QuantumRange : K) →
          |((ClampToQuantum QuantumRange v : Nat) : K) - v| ≤ 1 / 2)
      ∧ ∀ n : Nat, n ≤ QuantumRange → ClampToQuantum QuantumRange (n : K) = n :=
  ⟨ClampToQuantum_neg QuantumRange v, ClampToQuantum_ge QuantumRange v,
    ClampToQuantum_mid QuantumRange v, ClampToQuantum_le QuantumRange v,
    ClampToQuantum_abs QuantumRange v, fun n h => ClampToQuantum_natCast QuantumRange n h⟩
/-! ## The 1×1 kernel -/

theorem contract_cell_center (columns rows x y : Nat) (hx : x < columns) (hy : y < rows) :
    contract_cell columns rows x y 1 1 0 0 = y * columns + x := by
  unfold contract_cell
  have e : ((1 - 1) / 2 : Nat) = 0 := by decide
  rw [e]
  simp only [Nat.cast_zero, add_zero, sub_zero]
  rw [ClampToCanvas_inside _ _ (by omega) (by omega),
    ClampToCanvas_inside _ _ (by omega) (by omega)]
  have : ((y : Int) * (columns : Int) + (x : Int)) = ((y * columns + x : Nat) : Int) := by
    push_cast; ring
  rw [this]
  exact Int.toNat_natCast _

/-- The pixel stored by `Convolve` for a 1×1 kernel. -/
theorem Convolve_one_by_one [FloorRing K] (QuantumRange : Nat) (MagickEpsilon : K)
    (columns rows x y : Nat) (input : Nat → CLPixelType) (filter : Nat → K) (matte : Bool)
    (hx : x < columns) (hy : y < rows) :
    Convolve QuantumRange MagickEpsilon columns rows x y input filter 1 1 matte
      = { x := ClampToQuantum QuantumRange
            (filter 0 * contract_alpha QuantumRange matte input (y * columns + x)
                * ((input (y * columns + x)).x : K)
              / contract_g MagickEpsilon
                (filter 0 * contract_alpha QuantumRange matte input (y * columns + x))),
          y := ClampToQuantum QuantumRange
            (filter 0 * contract_alpha QuantumRange matte input (y * columns + x)
                * ((input (y * columns + x)).y : K)
              / contract_g MagickEpsilon
                (filter 0 * contract_alpha QuantumRange matte input (y * columns + x))),
          z := ClampToQuantum QuantumRange
            (filter 0 * contract_alpha QuantumRange matte input (y * columns + x)
                * ((input (y * columns + x)).z : K)
              / contract_g MagickEpsilon
                (filter 0 * contract_alpha QuantumRange matte input (y * columns + x))),
          w := if matte = false then (input (y * columns + x)).w
            else ClampToQuantum QuantumRange
              (filter 0 * ((input (y * columns + x)).w : K)) } := by
  have h := Convolve_eq_contract QuantumRange MagickEpsilon columns rows x y input filter 0 0
    matte hx hy
  simp only [Nat.mul_zero, Nat.zero_add] at h
  rw [h]
  simp only [contract_sum, contract_gamma, contract_opacity, Finset.sum_range_one,
    contract_cell_center columns rows x y hx hy, Nat.zero_mul, Nat.add_zero]

/-- C13 as amended: with `MagickEpsilon < 1/QuantumRange`, convolving
with the 1×1 kernel of weight 1 reproduces the input pixel exactly, except
that with the alpha flag set a fully transparent pixel (opacity
`QuantumRange`) keeps its opacity and gets the colour components 0. -/
theorem Convolve_identity_kernel [FloorRing K] (QuantumRange : Nat) (MagickEpsilon : K)
    (columns rows x y : Nat) (input : Nat → CLPixelType) (filter : Nat → K) (matte : Bool)
    (hx : x < columns) (hy : y < rows) (hfilter : filter 0 = 1)
    (hq : 1 ≤ QuantumRange)
    (he1 : MagickEpsilon < 1 / (QuantumRange : K))
    (hpx : (input (y * columns + x)).x ≤ QuantumRange)
    (hpy : (input (y * columns + x)).y ≤ QuantumRange)
    (hpz : (input (y * columns + x)).z ≤ QuantumRange)
    (hpw : (input (y * columns + x)).w ≤ QuantumRange) :
    Convolve QuantumRange MagickEpsilon columns rows x y input filter 1 1 matte
      = if matte = true ∧ (input (y * columns + x)).w = QuantumRange then
          { x := 0, y := 0, z := 0, w := (input (y * columns + x)).w }
        else input (y * columns + x) := by
  rw [Convolve_one_by_one QuantumRange MagickEpsilon columns rows x y input filter matte hx hy,
    hfilter]
  have hQ : (0 : K) < (QuantumRange : K) := by exact_mod_cast hq
  have hzero : ClampToQuantum QuantumRange (0 : K) = 0 := by
    have := ClampToQuantum_natCast (K := K) QuantumRange 0 (Nat.zero_le _)
    simpa using this
  cases matte
  · have hg : contract_g MagickEpsilon (1 : K) = 1 := by
      unfold contract_g; split_ifs <;> rfl
    simp only [contract_alpha, Bool.false_eq_true, if_false, false_and, mul_one, one_mul, hg,
      div_one, if_true, ClampToQuantum_natCast QuantumRange _ hpx,
      ClampToQuantum_natCast QuantumRange _ hpy, ClampToQuantum_natCast QuantumRange _ hpz]
  · simp only [contract_alpha, if_true, true_and, one_mul, Bool.true_eq_false, if_false,
      ClampToQuantum_natCast QuantumRange _ hpw]
    by_cases hw : (input (y * columns + x)).w = QuantumRange
    · rw [if_pos hw]
      have ha : ((QuantumRange : K) - ((input (y * columns + x)).w : K)) / (QuantumRange : K)
          = 0 := by
        rw [hw]; simp
      simp only [ha, zero_mul, zero_div, hzero]
    · rw [if_neg hw]
      have hlt : (input (y * columns + x)).w < QuantumRange := lt_of_le_of_ne hpw hw
      have h1 : (1 : K) ≤ (QuantumRange : K) - ((input (y * columns + x)).w : K) := by
        have : (input (y * columns + x)).w + 1 ≤ QuantumRange := hlt
        have : (((input (y * columns + x)).w + 1 : Nat) : K) ≤ (QuantumRange : K) := by
          exact_mod_cast this
        push_cast at this
        linarith
      have ha : 1 / (QuantumRange : K)
          ≤ ((QuantumRange : K) - ((input (y * columns + x)).w : K)) / (QuantumRange : K) :=
        div_le_div_of_nonneg_right h1 (le_of_lt hQ)
      have hapos : 0 < ((QuantumRange : K) - ((input (y * columns + x)).w : K))
          / (QuantumRange : K) := lt_of_lt_of_le (by positivity) ha
      have hg : contract_g MagickEpsilon
          (((QuantumRange : K) - ((input (y * columns + x)).w : K)) / (QuantumRange : K))
          = ((QuantumRange : K) - ((input (y * columns + x)).w : K)) / (QuantumRange : K) := by
        unfold contract_g
        rw [if_neg]
        rw [abs_of_pos hapos]
        exact not_le.mpr (lt_of_lt_of_le he1 ha)
      rw [hg]
      simp only [mul_div_cancel_left₀ _ (ne_of_gt hapos),
        ClampToQuantum_natCast QuantumRange _ hpx, ClampToQuantum_natCast QuantumRange _ hpy,
        ClampToQuantum_natCast QuantumRange _ hpz]
/-! ## Positive kernels -/

theorem contract_cell_lt (columns rows x y width height i j : Nat) (hc : 0 < columns)
    (hr : 0 < rows) : contract_cell columns rows x y width height i j < rows * columns := by
  unfold contract_cell
  have hv := ClampToCanvas_bounds
    ((y : Int) + (j : Int) - (((height - 1) / 2 : Nat) : Int)) rows hr
  have hu := ClampToCanvas_bounds
    ((x : Int) + (i : Int) - (((width - 1) / 2 : Nat) : Int)) columns hc
  generalize ClampToCanvas ((y : Int) + (j : Int) - (((height - 1) / 2 : Nat) : Int)) rows
    = v at hv
  generalize ClampToCanvas ((x : Int) + (i : Int) - (((width - 1) / 2 : Nat) : Int)) columns
    = u at hu
  have ev : ((v.toNat : Nat) : Int) = v := Int.toNat_of_nonneg hv.1
  have eu : ((u.toNat : Nat) : Int) = u := Int.toNat_of_nonneg hu.1
  have e : v * (columns : Int) + u = ((v.toNat * columns + u.toNat : Nat) : Int) := by
    push_cast; rw [ev, eu]
  rw [e, Int.toNat_natCast]
  have h1 : (v.toNat + 1) * columns ≤ rows * columns :=
    Nat.mul_le_mul_right columns (by omega)
  have h2 : (v.toNat + 1) * columns = v.toNat * columns + columns := by ring
  omega

/-- With the alpha flag off, a kernel of positive weights whose sum exceeds
`MagickEpsilon` maps samples between two quanta to a value between them. -/
theorem Convolve_component_between [FloorRing K] (QuantumRange : Nat) (MagickEpsilon : K)
    (columns rows x y : Nat) (input : Nat → CLPixelType) (filter : Nat → K)
    (width height : Nat) (c : CLPixelType → Nat) (lo hi : Nat)
    (hx : x < columns) (hy : y < rows)
    (hpos : ∀ j, j < height → ∀ i, i < width → 0 < filter (j * width + i))
    (hsum : MagickEpsilon
      < ∑ j in Finset.range height, ∑ i in Finset.range width, filter (j * width + i))
    (hsum0 : 0 < ∑ j in Finset.range height, ∑ i in Finset.range width,
      filter (j * width + i))
    (hin : ∀ n, n < rows * columns → lo ≤ c (input n) ∧ c (input n) ≤ hi)
    (hq : lo ≤ QuantumRange) :
    lo ≤ ClampToQuantum QuantumRange
          (contract_sum QuantumRange columns rows x y input filter width height false c
            / contract_g MagickEpsilon
              (contract_gamma QuantumRange columns rows x y input filter width height false))
      ∧ ClampToQuantum QuantumRange
          (contract_sum QuantumRange columns rows x y input filter width height false c
            / contract_g MagickEpsilon
              (contract_gamma QuantumRange columns rows x y input filter width height false))
        ≤ hi := by
  have hc : 0 < columns := by omega
  have hr : 0 < rows := by omega
  have hgamma : contract_gamma QuantumRange columns rows x y input filter width height false
      = ∑ j in Finset.range height, ∑ i in Finset.range width, filter (j * width + i) := by
    simp [contract_gamma, contract_alpha]
  have hg : contract_g MagickEpsilon
      (contract_gamma QuantumRange columns rows x y input filter width height false)
      = ∑ j in Finset.range height, ∑ i in Finset.range width, filter (j * width + i) := by
    rw [hgamma]
    unfold contract_g
    rw [if_neg]
    rw [abs_of_pos hsum0]
    exact not_le.mpr hsum
  have hS : contract_sum QuantumRange columns rows x y input filter width height false c
      = ∑ j in Finset.range height, ∑ i in Finset.range width, filter (j * width + i)
          * ((c (input (contract_cell columns rows x y width height i j)) : Nat) : K) := by
    simp [contract_sum, contract_alpha]
  rw [hg, hS]
  apply ClampToQuantum_between QuantumRange lo hi _ _ _ hq
  · rw [le_div_iff₀ hsum0, Finset.mul_sum]
    refine Finset.sum_le_sum (fun j hj => ?_)
    rw [Finset.mul_sum]
    refine Finset.sum_le_sum (fun i hi' => ?_)
    rw [Finset.mem_range] at hj hi'
    have hb := (hin _ (contract_cell_lt columns rows x y width height i j hc hr)).1
    have hb' : (lo : K) ≤ ((c (input (contract_cell columns rows x y width height i j)) : Nat) : K) := by
      exact_mod_cast hb
    rw [mul_comm]
    exact mul_le_mul_of_nonneg_left hb' (le_of_lt (hpos j hj i hi'))
  · rw [div_le_iff₀ hsum0, Finset.mul_sum]
    refine Finset.sum_le_sum (fun j hj => ?_)
    rw [Finset.mul_sum]
    refine Finset.sum_le_sum (fun i hi' => ?_)
    rw [Finset.mem_range] at hj hi'
    have hb := (hin _ (contract_cell_lt columns rows x y width height i j hc hr)).2
    have hb' : ((c (input (contract_cell columns rows x y width height i j)) : Nat) : K) ≤ (hi : K) := by
      exact_mod_cast hb
    rw [mul_comm (hi : K)]
    exact mul_le_mul_of_nonneg_left hb' (le_of_lt (hpos j hj i hi'))
theorem list_sum_between (lo hi : Nat) (l : List Nat) (h : ∀ a ∈ l, lo ≤ a ∧ a ≤ hi) :
    lo * l.length ≤ l.sum ∧ l.sum ≤ hi * l.length := by
  induction l with
  | nil => simp
  | cons a t ih =>
    have ha := h a (List.mem_cons_self a t)
    have ht := ih (fun b hb => h b (List.mem_cons_of_mem a hb))
    simp only [List.length_cons, List.sum_cons, Nat.mul_succ]
    omega

theorem mean_between (lo hi : Nat) (l : List Nat) (hl : 0 < l.length)
    (h : ∀ a ∈ l, lo ≤ a ∧ a ≤ hi) : (lo : K) ≤ mean l ∧ (mean l : K) ≤ (hi : K) := by
  obtain ⟨h1, h2⟩ := list_sum_between lo hi l h
  have hpos : (0 : K) < ((l.length : Nat) : K) := by exact_mod_cast hl
  unfold mean
  constructor
  · rw [le_div_iff₀ hpos]
    exact_mod_cast h1
  · rw [div_le_iff₀ hpos]
    exact_mod_cast h2

/-- C19, the claim as stated fails: the uniform 5×1 kernel of weights 1 maps
the row `255 0 0` to `153 102 51`, whose mean 102 is 17 quanta above the
mean 85 of the input. -/
theorem uniform_kernel_changes_mean :
    (convolve_pixels 255 (1 / 1000000000000 : ℚ) 3 1 sample_row (fun _ => 1) 5 1 false).map
        (fun p => p.x) = [153, 102, 51]
      ∧ (1 / 2 : ℚ)
        < |mean ((convolve_pixels 255 (1 / 1000000000000 : ℚ) 3 1 sample_row (fun _ => 1) 5 1
              false).map (fun p => p.x))
            - mean ((List.range (1 * 3)).map (fun n => (sample_row n).x))| := by
  have h0 := Convolve_eq_contract 255 (1 / 1000000000000 : ℚ) 3 1 0 0 sample_row (fun _ => 1)
    2 0 false (by decide) (by decide)
  have h1 := Convolve_eq_contract 255 (1 / 1000000000000 : ℚ) 3 1 1 0 sample_row (fun _ => 1)
    2 0 false (by decide) (by decide)
  have h2 := Convolve_eq_contract 255 (1 / 1000000000000 : ℚ) 3 1 2 0 sample_row (fun _ => 1)
    2 0 false (by decide) (by decide)
  simp only [Nat.reduceMul, Nat.reduceAdd] at h0 h1 h2
  have e0 : ((255 + 255 + 255 : ℚ) / if (5 : ℚ) ≤ 1000000000000⁻¹ then 1 else 5)
      = ((153 : ℕ) : ℚ) := by norm_num
  have e1 : ((255 + 255 : ℚ) / if (5 : ℚ) ≤ 1000000000000⁻¹ then 1 else 5)
      = ((102 : ℕ) : ℚ) := by norm_num
  have e2 : ((255 : ℚ) / if (5 : ℚ) ≤ 1000000000000⁻¹ then 1 else 5)
      = ((51 : ℕ) : ℚ) := by norm_num
  have hlist : (convolve_pixels 255 (1 / 1000000000000 : ℚ) 3 1 sample_row (fun _ => 1) 5 1
      false).map (fun p => p.x) = [153, 102, 51] := by
    have hr : List.range (1 * 3) = [0, 1, 2] := by decide
    simp only [convolve_pixels, hr, List.map_cons, List.map_nil, Nat.reduceMod, Nat.reduceDiv,
      h0, h1, h2]
    simp [contract_sum, contract_gamma, contract_alpha, contract_g, contract_cell,
      ClampToCanvas, Finset.sum_range_succ, sample_row, e0, e1, e2]
    exact ⟨by exact_mod_cast ClampToQuantum_natCast (K := ℚ) 255 153 (by decide),
      by exact_mod_cast ClampToQuantum_natCast (K := ℚ) 255 102 (by decide),
      by exact_mod_cast ClampToQuantum_natCast (K := ℚ) 255 51 (by decide)⟩
  refine ⟨hlist, ?_⟩
  rw [hlist]
  have hin : (List.range (1 * 3)).map (fun n => (sample_row n).x) = [255, 0, 0] := by decide
  rw [hin]
  norm_num [mean]
theorem colour_component_eq [FloorRing K] (QuantumRange : Nat) (MagickEpsilon : K)
    (columns rows x y : Nat) (input : Nat → CLPixelType) (filter : Nat → K) (mw mh : Nat)
    (matte : Bool) (c : CLPixelType → Nat) (hx : x < columns) (hy : y < rows)
    (hc : c = (fun p => p.x) ∨ c = (fun p => p.y) ∨ c = (fun p => p.z)) :
    c (Convolve QuantumRange MagickEpsilon columns rows x y input filter (2 * mw + 1)
        (2 * mh + 1) matte)
      = ClampToQuantum QuantumRange
          (contract_sum QuantumRange columns rows x y input filter (2 * mw + 1) (2 * mh + 1)
              matte c
            / contract_g MagickEpsilon
              (contract_gamma QuantumRange columns rows x y input filter (2 * mw + 1)
                (2 * mh + 1) matte)) := by
  rw [Convolve_eq_contract QuantumRange MagickEpsilon columns rows x y input filter mw mh matte
    hx hy]
  rcases hc with h | h | h <;> rw [h]

/-- C19 as amended: with the alpha flag off and an odd-dimension kernel of
positive weights whose sum exceeds `MagickEpsilon`, every sample of a colour
channel of the output, and so the mean of the channel over all pixels, lies
between the least and the greatest input sample of that channel; the output
mean is within `hi - lo` of the input mean. -/
theorem Convolve_positive_kernel_range [FloorRing K] (QuantumRange : Nat) (MagickEpsilon : K)
    (columns rows : Nat) (input : Nat → CLPixelType) (filter : Nat → K)
    (width height : Nat) (c : CLPixelType → Nat) (lo hi : Nat)
    (hc : c = (fun p => p.x) ∨ c = (fun p => p.y) ∨ c = (fun p => p.z))
    (hcol : 0 < columns) (hrow : 0 < rows) (hw : width % 2 = 1) (hh : height % 2 = 1)
    (hpos : ∀ j, j < height → ∀ i, i < width → 0 < filter (j * width + i))
    (hsum : MagickEpsilon
      < ∑ j in Finset.range height, ∑ i in Finset.range width, filter (j * width + i))
    (hin : ∀ n, n < rows * columns → lo ≤ c (input n) ∧ c (input n) ≤ hi)
    (hquanta : ∀ n, n < rows * columns → c (input n) ≤ QuantumRange) :
    (∀ p ∈ convolve_pixels QuantumRange MagickEpsilon columns rows input filter width height
        false, lo ≤ c p ∧ c p ≤ hi)
      ∧ (lo : K) ≤ mean ((convolve_pixels QuantumRange MagickEpsilon columns rows input filter
          width height false).map c)
      ∧ (mean ((convolve_pixels QuantumRange MagickEpsilon columns rows input filter
          width height false).map c) : K) ≤ (hi : K)
      ∧ |(mean ((convolve_pixels QuantumRange MagickEpsilon columns rows input filter
            width height false).map c) : K)
          - mean ((List.range (rows * columns)).map (fun n => c (input n)))|
        ≤ (hi : K) - (lo : K) := by
  obtain ⟨mw, rfl⟩ : ∃ mw, width = 2 * mw + 1 := ⟨(width - 1) / 2, odd_eq width hw⟩
  obtain ⟨mh, rfl⟩ : ∃ mh, height = 2 * mh + 1 := ⟨(height - 1) / 2, odd_eq height hh⟩
  have hlen : 0 < rows * columns := Nat.mul_pos hrow hcol
  have hq : lo ≤ QuantumRange := le_trans (hin 0 hlen).1 (hquanta 0 hlen)
  have hsum0 : 0 < ∑ j in Finset.range (2 * mh + 1), ∑ i in Finset.range (2 * mw + 1),
      filter (j * (2 * mw + 1) + i) :=
    Finset.sum_pos
      (fun j hj => Finset.sum_pos (fun i hi' => hpos j (Finset.mem_range.mp hj) i
        (Finset.mem_range.mp hi')) ⟨0, Finset.mem_range.mpr (by omega)⟩)
      ⟨0, Finset.mem_range.mpr (by omega)⟩
  have hpix : ∀ p ∈ convolve_pixels QuantumRange MagickEpsilon columns rows input filter
      (2 * mw + 1) (2 * mh + 1) false, lo ≤ c p ∧ c p ≤ hi := by
    intro p hp
    simp only [convolve_pixels, List.mem_map, List.mem_range] at hp
    obtain ⟨n, hn, rfl⟩ := hp
    have hx : n % columns < columns := Nat.mod_lt _ hcol
    have hy : n / columns < rows := Nat.div_lt_of_lt_mul (by rw [Nat.mul_comm]; exact hn)
    rw [colour_component_eq QuantumRange MagickEpsilon columns rows _ _ input filter mw mh
      false c hx hy hc]
    exact Convolve_component_between QuantumRange MagickEpsilon columns rows _ _ input filter
      _ _ c lo hi hx hy hpos hsum hsum0 hin hq
  have hout := mean_between (K := K) lo hi
    ((convolve_pixels QuantumRange MagickEpsilon columns rows input filter (2 * mw + 1)
      (2 * mh + 1) false).map c)
    (by simpa [convolve_pixels] using hlen)
    (by
      intro a ha
      rw [List.mem_map] at ha
      obtain ⟨p, hp, rfl⟩ := ha
      exact hpix p hp)
  have hinp := mean_between (K := K) lo hi
    ((List.range (rows * columns)).map (fun n => c (input n)))
    (by simpa using hlen)
    (by
      intro a ha
      simp only [List.mem_map, List.mem_range] at ha
      obtain ⟨n, hn, rfl⟩ := ha
      exact hin n hn)
  refine ⟨hpix, hout.1, hout.2, ?_⟩
  rw [abs_le]
  constructor <;> linarith [hout.1, hout.2, hinp.1, hinp.2]

/-- C13, the claim as stated fails: with the alpha flag set, the 1×1 kernel of
weight 1 maps the fully transparent pixel of colour `(255,0,0)` to the colour
`(0,0,0)`. -/
theorem transparent_pixel_loses_colour :
    Convolve 255 (1 / 1000000000000 : ℚ) 1 1 0 0
        (fun _ => { x := 255, y := 0, z := 0, w := 255 }) (fun _ => 1) 1 1 true
      = { x := 0, y := 0, z := 0, w := 255 } := by
  rw [Convolve_one_by_one 255 (1 / 1000000000000 : ℚ) 1 1 0 0 _ _ true (by decide)
    (by decide)]
  have h0 : ClampToQuantum 255 (0 : ℚ) = 0 := by
    exact_mod_cast ClampToQuantum_natCast (K := ℚ) 255 0 (by decide)
  have h255 : ClampToQuantum 255 (255 : ℚ) = 255 := by
    exact_mod_cast ClampToQuantum_natCast (K := ℚ) 255 255 (by decide)
  simp [contract_alpha, h0, h255]

/-! ## The interior path -/

theorem forLoop_congr {σ : Type} (lo hi : Nat) (f g : Nat → σ → σ) (s : σ)
    (h : ∀ i, lo ≤ i → i < hi → ∀ st, f i st = g i st) :
    Fourier.forLoop lo hi f s = Fourier.forLoop lo hi g s := by
  unfold Fourier.forLoop
  have key : ∀ (l : List Nat) (s : σ), (∀ i ∈ l, ∀ st, f i st = g i st) →
      l.foldl (fun st i => f i st) s = l.foldl (fun st i => g i st) s := by
    intro l
    induction l with
    | nil => intro s _; rfl
    | cons a l ih =>
      intro s hl
      simp only [List.foldl_cons]
      rw [hl a (List.mem_cons_self a l)]
      exact ih _ (fun i hi st => hl i (List.mem_cons_of_mem a hi) st)
  apply key
  intro i hi st
  rw [List.mem_range'_1] at hi
  exact h i hi.1 (by omega) st

theorem forLoopIncl_congr {σ : Type} (lo hi : Int) (f g : Int → σ → σ) (s : σ)
    (h : ∀ v, lo ≤ v → v ≤ hi → ∀ st, f v st = g v st) :
    forLoopIncl lo hi f s = forLoopIncl lo hi g s := by
  unfold forLoopIncl
  apply forLoop_congr
  intro i _ hi2 st
  exact h _ (by omega) (by omega) st

/-- C24: for a kernel of odd dimensions and a work-item `(x,y)` with
`x ≥ width`, `x < columns-width-1`, `y ≥ height`, `y < rows-height-1`,
`Convolve` selects the unclamped path (method 2, or 3 with alpha); every index
`(y+v)*columns+(x+u)` it reads is the index
`ClampToCanvas(y+v,rows)*columns+ClampToCanvas(x+u,columns)` of the clamped
path; the sampling loops of the two paths leave the same accumulators from
every start, and the stored pixel is the pixel of the clamped path. -/
theorem interior_path_refines_clamped_path [FloorRing K] (QuantumRange : Nat)
    (MagickEpsilon : K) (columns rows x y : Nat) (input : Nat → CLPixelType)
    (filter : Nat → K) (width height : Nat) (matte : Bool)
    (hcolumns : columns < 18446744073709551616) (hrows : rows < 18446744073709551616)
    (hw : width % 2 = 1) (hh : height % 2 = 1)
    (h1 : (x : Int) ≥ (width : Int)) (h2 : (x : Int) < (columns : Int) - (width : Int) - 1)
    (h3 : (y : Int) ≥ (height : Int)) (h4 : (y : Int) < (rows : Int) - (height : Int) - 1) :
    Convolve_method columns rows x y width height matte = (if matte then 3 else 2)
      ∧ (∀ u v : Int, -(((width - 1) / 2 : Nat) : Int) ≤ u → u ≤ (((width - 1) / 2 : Nat) : Int) →
          -(((height - 1) / 2 : Nat) : Int) ≤ v → v ≤ (((height - 1) / 2 : Nat) : Int) →
          ((y : Int) + v) * (columns : Int) + ((x : Int) + u)
            = ClampToCanvas ((y : Int) + v) rows * (columns : Int)
              + ClampToCanvas ((x : Int) + u) columns)
      ∧ (∀ acc : Accumulator K,
          Convolve_sample QuantumRange columns rows x y input filter width height
              (if matte then 3 else 2) acc
            = Convolve_sample QuantumRange columns rows x y input filter width height
              (if matte then 1 else 0) acc)
      ∧ Convolve QuantumRange MagickEpsilon columns rows x y input filter width height matte
        = clamped_path_pixel QuantumRange MagickEpsilon columns rows x y input filter width
          height matte := by
  have hidx : ∀ u v : Int, -(((width - 1) / 2 : Nat) : Int) ≤ u →
      u ≤ (((width - 1) / 2 : Nat) : Int) →
      -(((height - 1) / 2 : Nat) : Int) ≤ v → v ≤ (((height - 1) / 2 : Nat) : Int) →
      ((y : Int) + v) * (columns : Int) + ((x : Int) + u)
        = ClampToCanvas ((y : Int) + v) rows * (columns : Int)
          + ClampToCanvas ((x : Int) + u) columns := by
    intro u v hu1 hu2 hv1 hv2
    rw [ClampToCanvas_inside _ _ (by omega) (by omega),
      ClampToCanvas_inside _ _ (by omega) (by omega)]
  have hmethod : Convolve_method columns rows x y width height matte
      = (if matte then 3 else 2) := by
    have hint : (x : Int) ≥ (width : Int)
        ∧ (x : Int) < ((columns : Int) - (width : Int) - 1) % 18446744073709551616
        ∧ (y : Int) ≥ (height : Int)
        ∧ (y : Int) < ((rows : Int) - (height : Int) - 1) % 18446744073709551616 := by
      refine ⟨h1, ?_, h3, ?_⟩ <;> omega
    simp only [Convolve_method, if_pos hint]
    cases matte <;> rfl
  have hsample : ∀ acc : Accumulator K,
      Convolve_sample QuantumRange columns rows x y input filter width height
          (if matte then 3 else 2) acc
        = Convolve_sample QuantumRange columns rows x y input filter width height
          (if matte then 1 else 0) acc := by
    intro acc
    cases matte
    · simp only [Bool.false_eq_true, if_false, Convolve_sample]
      apply forLoopIncl_congr
      intro v hv1 hv2 st
      apply forLoopIncl_congr
      intro u hu1 hu2 st
      simp only [hidx u v hu1 hu2 hv1 hv2]
    · simp only [if_true, Convolve_sample]
      apply forLoopIncl_congr
      intro v hv1 hv2 st
      apply forLoopIncl_congr
      intro u hu1 hu2 st
      simp only [hidx u v hu1 hu2 hv1 hv2]
  refine ⟨hmethod, hidx, hsample, ?_⟩
  simp only [Convolve, clamped_path_pixel, hmethod, hsample]

/-! ## Transparent samples -/

/-- With the alpha flag set, the colour sum of the contract does not depend on
the colour of the samples whose opacity is `QuantumRange`. -/
theorem contract_sum_transparent (QuantumRange : Nat) (columns rows x y : Nat)
    (input input' : Nat → CLPixelType) (filter : Nat → K) (width height : Nat)
    (c : CLPixelType → Nat) (hc : 0 < columns) (hr : 0 < rows)
    (hop : ∀ n, n < rows * columns → (input n).w = (input' n).w)
    (hcol : ∀ n, n < rows * columns → (input n).w ≠ QuantumRange →
      c (input n) = c (input' n)) :
    contract_sum QuantumRange columns rows x y input filter width height true c
      = (contract_sum QuantumRange columns rows x y input' filter width height true c : K) := by
  unfold contract_sum
  refine Finset.sum_congr rfl (fun j _ => Finset.sum_congr rfl (fun i _ => ?_))
  have hlt := contract_cell_lt columns rows x y width height i j hc hr
  generalize contract_cell columns rows x y width height i j = n at hlt
  simp only [contract_alpha, if_true]
  rw [← hop n hlt]
  by_cases hw : (input n).w = QuantumRange
  · rw [hw, sub_self, zero_div, mul_zero, zero_mul, zero_mul]
  · rw [hcol n hlt hw]

theorem contract_gamma_transparent (QuantumRange : Nat) (columns rows x y : Nat)
    (input input' : Nat → CLPixelType) (filter : Nat → K) (width height : Nat)
    (hc : 0 < columns) (hr : 0 < rows)
    (hop : ∀ n, n < rows * columns → (input n).w = (input' n).w) :
    contract_gamma QuantumRange columns rows x y input filter width height true
      = (contract_gamma QuantumRange columns rows x y input' filter width height true : K) := by
  unfold contract_gamma
  refine Finset.sum_congr rfl (fun j _ => Finset.sum_congr rfl (fun i _ => ?_))
  have hlt := contract_cell_lt columns rows x y width height i j hc hr
  generalize contract_cell columns rows x y width height i j = n at hlt
  simp only [contract_alpha, if_true]
  rw [← hop n hlt]

theorem contract_opacity_transparent (columns rows x y : Nat)
    (input input' : Nat → CLPixelType) (filter : Nat → K) (width height : Nat)
    (hc : 0 < columns) (hr : 0 < rows)
    (hop : ∀ n, n < rows * columns → (input n).w = (input' n).w) :
    contract_opacity columns rows x y input filter width height
      = (contract_opacity columns rows x y input' filter width height : K) := by
  unfold contract_opacity
  refine Finset.sum_congr rfl (fun j _ => Finset.sum_congr rfl (fun i _ => ?_))
  have hlt := contract_cell_lt columns rows x y width height i j hc hr
  generalize contract_cell columns rows x y width height i j = n at hlt
  rw [← hop n hlt]

/-- C25: with the alpha flag set, for a kernel of odd dimensions and two
images that have the same opacity in every pixel and the same R, G, B in every
pixel whose opacity is not `QuantumRange`, `Convolve` stores the same pixel
(R, G, B and opacity) at every work-item `(x,y)` of the image. -/
theorem transparent_samples_carry_no_colour [FloorRing K] (QuantumRange : Nat)
    (MagickEpsilon : K) (columns rows x y : Nat) (input input' : Nat → CLPixelType)
    (filter : Nat → K) (width height : Nat) (hx : x < columns) (hy : y < rows)
    (hw : width % 2 = 1) (hh : height % 2 = 1)
    (hop : ∀ n, n < rows * columns → (input n).w = (input' n).w)
    (hcol : ∀ n, n < rows * columns → (input n).w ≠ QuantumRange →
      (input n).x = (input' n).x ∧ (input n).y = (input' n).y
        ∧ (input n).z = (input' n).z) :
    Convolve QuantumRange MagickEpsilon columns rows x y input filter width height true
      = Convolve QuantumRange MagickEpsilon columns rows x y input' filter width height
        true := by
  have hc : 0 < columns := by omega
  have hr : 0 < rows := by omega
  rw [odd_eq width hw, odd_eq height hh,
    Convolve_eq_contract QuantumRange MagickEpsilon columns rows x y input filter _ _ true
      hx hy,
    Convolve_eq_contract QuantumRange MagickEpsilon columns rows x y input' filter _ _ true
      hx hy,
    contract_sum_transparent QuantumRange columns rows x y input input' filter _ _
      (fun p => p.x) hc hr hop (fun n h1 h2 => (hcol n h1 h2).1),
    contract_sum_transparent QuantumRange columns rows x y input input' filter _ _
      (fun p => p.y) hc hr hop (fun n h1 h2 => (hcol n h1 h2).2.1),
    contract_sum_transparent QuantumRange columns rows x y input input' filter _ _
      (fun p => p.z) hc hr hop (fun n h1 h2 => (hcol n h1 h2).2.2),
    contract_gamma_transparent QuantumRange columns rows x y input input' filter _ _
      hc hr hop,
    contract_opacity_transparent columns rows x y input input' filter _ _ hc hr hop]
  simp

/-! ## Constant images -/

/-- C30: with the alpha flag off, for an image whose pixels all have the same
R, G, B values `r`, `g`, `b` (quanta in `[0, QuantumRange]`) and a kernel of odd
dimensions whose weight sum exceeds `MagickEpsilon` in absolute value
(`MagickEpsilon ≥ 0`), `Convolve` stores at every work-item `(x,y)` of the
image the pixel of the input. -/
theorem constant_image_fixed_point [FloorRing K] (QuantumRange : Nat)
    (MagickEpsilon : K) (columns rows x y : Nat) (input : Nat → CLPixelType)
    (filter : Nat → K) (width height : Nat) (r g b : Nat)
    (hx : x < columns) (hy : y < rows)
    (hw : width % 2 = 1) (hh : height % 2 = 1) (he : 0 ≤ MagickEpsilon)
    (hr : r ≤ QuantumRange) (hg : g ≤ QuantumRange) (hb : b ≤ QuantumRange)
    (hconst : ∀ n, n < rows * columns →
      (input n).x = r ∧ (input n).y = g ∧ (input n).z = b)
    (hsum : MagickEpsilon
      < |∑ j in Finset.range height, ∑ i in Finset.range width, filter (j * width + i)|) :
    Convolve QuantumRange MagickEpsilon columns rows x y input filter width height false
      = input (y * columns + x) := by
  have hc : 0 < columns := by omega
  have hrows : 0 < rows := by omega
  have hgamma : contract_gamma QuantumRange columns rows x y input filter width height false
      = ∑ j in Finset.range height, ∑ i in Finset.range width, filter (j * width + i) := by
    unfold contract_gamma
    refine Finset.sum_congr rfl (fun j _ => Finset.sum_congr rfl (fun i _ => ?_))
    simp [contract_alpha]
  have hs : ∀ (c : CLPixelType → Nat) (v : Nat),
      (∀ n, n < rows * columns → c (input n) = v) →
      contract_sum QuantumRange columns rows x y input filter width height false c
        = (∑ j in Finset.range height, ∑ i in Finset.range width, filter (j * width + i))
          * (v : K) := by
    intro c v hv
    unfold contract_sum
    rw [Finset.sum_mul]
    refine Finset.sum_congr rfl (fun j _ => ?_)
    rw [Finset.sum_mul]
    refine Finset.sum_congr rfl (fun i _ => ?_)
    rw [hv _ (contract_cell_lt columns rows x y width height i j hc hrows)]
    simp [contract_alpha]
  have hne : (∑ j in Finset.range height, ∑ i in Finset.range width,
      filter (j * width + i)) ≠ 0 := by
    intro h0
    rw [h0, abs_zero] at hsum
    exact absurd hsum (not_lt.mpr he)
  have hidx : y * columns + x < rows * columns := by
    have h1 : (y + 1) * columns ≤ rows * columns := Nat.mul_le_mul_right columns (by omega)
    have h2 : (y + 1) * columns = y * columns + columns := by ring
    omega
  have hq : ∀ v : Nat, v ≤ QuantumRange →
      ClampToQuantum QuantumRange
        ((∑ j in Finset.range height, ∑ i in Finset.range width, filter (j * width + i))
            * (v : K)
          / contract_g MagickEpsilon
            (∑ j in Finset.range height, ∑ i in Finset.range width,
              filter (j * width + i))) = v := by
    intro v hv
    rw [contract_g, if_neg (not_le.mpr hsum), mul_comm, mul_div_assoc, div_self hne, mul_one]
    exact ClampToQuantum_natCast QuantumRange v hv
  have e := Convolve_eq_contract QuantumRange MagickEpsilon columns rows x y input filter
    ((width - 1) / 2) ((height - 1) / 2) false hx hy
  rw [← odd_eq width hw, ← odd_eq height hh] at e
  rw [e, hgamma, hs (fun p => p.x) r (fun n hn => (hconst n hn).1),
    hs (fun p => p.y) g (fun n hn => (hconst n hn).2.1),
    hs (fun p => p.z) b (fun n hn => (hconst n hn).2.2), hq r hr, hq g hg, hq b hb]
  obtain ⟨h1, h2, h3⟩ := hconst _ hidx
  cases hin : input (y * columns + x) with
  | mk px py pz pw =>
    rw [hin] at h1 h2 h3
    simp only at h1 h2 h3
    simp [h1, h2, h3]

/-! ## Instances of the conditional statements -/

theorem Convolve_per_pixel_contract_witness :
    (Convolve 255 (1 / 1000000000000 : ℚ) 3 1 0 0 sample_row (fun _ => 1) 5 1 false).x
        = ClampToQuantum 255
          (contract_sum 255 3 1 0 0 sample_row (fun _ => (1 : ℚ)) 5 1 false (fun p => p.x)
            / contract_g (1 / 1000000000000 : ℚ)
              (contract_gamma 255 3 1 0 0 sample_row (fun _ => (1 : ℚ)) 5 1 false))
      ∧ (Convolve 255 (1 / 1000000000000 : ℚ) 3 1 0 0 sample_row (fun _ => 1) 5 1 false).y
        = ClampToQuantum 255
          (contract_sum 255 3 1 0 0 sample_row (fun _ => (1 : ℚ)) 5 1 false (fun p => p.y)
            / contract_g (1 / 1000000000000 : ℚ)
              (contract_gamma 255 3 1 0 0 sample_row (fun _ => (1 : ℚ)) 5 1 false))
      ∧ (Convolve 255 (1 / 1000000000000 : ℚ) 3 1 0 0 sample_row (fun _ => 1) 5 1 false).z
        = ClampToQuantum 255
          (contract_sum 255 3 1 0 0 sample_row (fun _ => (1 : ℚ)) 5 1 false (fun p => p.z)
            / contract_g (1 / 1000000000000 : ℚ)
              (contract_gamma 255 3 1 0 0 sample_row (fun _ => (1 : ℚ)) 5 1 false)) :=
  Convolve_per_pixel_contract 255 (1 / 1000000000000 : ℚ) 3 1 0 0 sample_row (fun _ => 1) 5 1
    false (by decide) (by decide) (by decide) (by decide)

theorem ClampToCanvas_edge_policy_witness :
    ClampToCanvas (-2) 3 = min (max (-2) 0) (((3 : Nat) : Int) - 1)
      ∧ 0 ≤ ClampToCanvas (-2) 3
      ∧ ClampToCanvas (-2) 3 < ((3 : Nat) : Int)
      ∧ (0 ≤ (-2 : Int) ∧ (-2 : Int) < ((3 : Nat) : Int) → ClampToCanvas (-2) 3 = -2)
      ∧ ∀ z : Int, 0 ≤ z → z < ((3 : Nat) : Int) →
          |(-2 : Int) - ClampToCanvas (-2) 3| ≤ |(-2 : Int) - z| :=
  ClampToCanvas_edge_policy (-2) 3 (by decide)

theorem Convolve_identity_kernel_witness :
    Convolve 255 (1 / 1000000000000 : ℚ) 3 1 0 0 sample_row (fun _ => 1) 1 1 true
      = if true = true ∧ (sample_row (0 * 3 + 0)).w = 255 then
          { x := 0, y := 0, z := 0, w := (sample_row (0 * 3 + 0)).w }
        else sample_row (0 * 3 + 0) :=
  Convolve_identity_kernel 255 (1 / 1000000000000 : ℚ) 3 1 0 0 sample_row (fun _ => 1) true
    (by decide) (by decide) rfl (by decide) (by norm_num) (by decide) (by decide) (by decide)
    (by decide)

theorem Convolve_positive_kernel_range_witness :
    (∀ p ∈ convolve_pixels 255 (1 / 1000000000000 : ℚ) 3 1 sample_row (fun _ => 1) 5 1 false,
        0 ≤ p.x ∧ p.x ≤ 255)
      ∧ ((0 : Nat) : ℚ) ≤ mean ((convolve_pixels 255 (1 / 1000000000000 : ℚ) 3 1 sample_row
          (fun _ => 1) 5 1 false).map (fun p => p.x))
      ∧ (mean ((convolve_pixels 255 (1 / 1000000000000 : ℚ) 3 1 sample_row
          (fun _ => 1) 5 1 false).map (fun p => p.x)) : ℚ) ≤ ((255 : Nat) : ℚ)
      ∧ |(mean ((convolve_pixels 255 (1 / 1000000000000 : ℚ) 3 1 sample_row
            (fun _ => 1) 5 1 false).map (fun p => p.x)) : ℚ)
          - mean ((List.range (1 * 3)).map (fun n => (sample_row n).x))|
        ≤ ((255 : Nat) : ℚ) - ((0 : Nat) : ℚ) :=
  Convolve_positive_kernel_range 255 (1 / 1000000000000 : ℚ) 3 1 sample_row (fun _ => 1) 5 1
    (fun p => p.x) 0 255 (Or.inl rfl) (by decide) (by decide) (by decide) (by decide)
    (fun _ _ _ _ => one_pos) (by norm_num)
    (fun n _ => ⟨Nat.zero_le _, by unfold sample_row; split_ifs <;> decide⟩)
    (fun n _ => by unfold sample_row; split_ifs <;> decide)

theorem interior_path_refines_clamped_path_witness :
    Convolve_method 4 4 1 1 1 1 false = (if false then 3 else 2)
      ∧ (∀ u v : Int, -(((1 - 1) / 2 : Nat) : Int) ≤ u → u ≤ (((1 - 1) / 2 : Nat) : Int) →
          -(((1 - 1) / 2 : Nat) : Int) ≤ v → v ≤ (((1 - 1) / 2 : Nat) : Int) →
          (((1 : Nat) : Int) + v) * ((4 : Nat) : Int) + (((1 : Nat) : Int) + u)
            = ClampToCanvas (((1 : Nat) : Int) + v) 4 * ((4 : Nat) : Int)
              + ClampToCanvas (((1 : Nat) : Int) + u) 4)
      ∧ (∀ acc : Accumulator ℚ,
          Convolve_sample 255 4 4 1 1 (fun n => { x := n, y := n, z := n, w := 0 }) (fun _ => 1) 1 1
              (if false then 3 else 2) acc
            = Convolve_sample 255 4 4 1 1 (fun n => { x := n, y := n, z := n, w := 0 }) (fun _ => 1) 1 1
              (if false then 1 else 0) acc)
      ∧ Convolve 255 (1 / 1000000000000 : ℚ) 4 4 1 1 (fun n => { x := n, y := n, z := n, w := 0 }) (fun _ => 1) 1 1 false
        = clamped_path_pixel 255 (1 / 1000000000000 : ℚ) 4 4 1 1 (fun n => { x := n, y := n, z := n, w := 0 }) (fun _ => 1) 1 1
          false :=
  interior_path_refines_clamped_path 255 (1 / 1000000000000 : ℚ) 4 4 1 1 (fun n => { x := n, y := n, z := n, w := 0 })
    (fun _ => 1) 1 1 false (by decide) (by decide) (by decide) (by decide) (by decide)
    (by decide) (by decide) (by decide)

theorem transparent_samples_carry_no_colour_witness :
    Convolve 255 (1 / 1000000000000 : ℚ) 3 1 1 0 (sample_transparent 255) (fun _ => 1) 3 1
        true
      = Convolve 255 (1 / 1000000000000 : ℚ) 3 1 1 0 (sample_transparent 7) (fun _ => 1) 3 1
        true :=
  transparent_samples_carry_no_colour 255 (1 / 1000000000000 : ℚ) 3 1 1 0
    (sample_transparent 255) (sample_transparent 7) (fun _ => 1) 3 1 (by decide) (by decide)
    (by decide) (by decide)
    (fun n _ => by unfold sample_transparent; split_ifs <;> rfl)
    (fun n _ => by
      unfold sample_transparent
      split_ifs
      · intro h; exact absurd rfl h
      · intro _; exact ⟨rfl, rfl, rfl⟩)

theorem constant_image_fixed_point_witness :
    Convolve 255 (1 / 1000000000000 : ℚ) 3 1 0 0 (fun _ => { x := 10, y := 20, z := 30, w := 0 })
        (fun _ => 1) 3 1 false
      = (fun _ => ({ x := 10, y := 20, z := 30, w := 0 } : CLPixelType)) (0 * 3 + 0) :=
  constant_image_fixed_point 255 (1 / 1000000000000 : ℚ) 3 1 0 0
    (fun _ => { x := 10, y := 20, z := 30, w := 0 }) (fun _ => 1) 3 1 10 20 30
    (by decide) (by decide) (by decide) (by decide) (by norm_num) (by decide) (by decide)
    (by decide) (fun _ _ => ⟨rfl, rfl, rfl⟩) (by norm_num)

end ConvolveProgram
